import Mathlib

/-! # HoleFiller

A shallow embedding of `HoleFiller.cpp` / `HoleFiller.h` (segmentation of a hole by
flood fill, the exact filler, the layer builder and the iterative filler), of the
weight function of `MyWeightFunction.cpp` and of the argument check of `main.cpp`.

Modelling conventions.

* `cv::Mat` is a grid of `rows × cols` samples read and written through `Mat.at` and
  `Mat.set`, whose two arguments are, as in OpenCV, the row and the column.  An access
  outside `[0, rows) × [0, cols)` is undefined behaviour in the source; here it is the
  fault `Fault.outOfRange`, and every function that touches the image returns `Except`.
* `float` / `double` arithmetic is exact rational arithmetic (rounding is not modelled).
  The non-finite IEEE results (NaN, +inf, -inf) are one absorbing value `Val.nonfinite`: a
  division by a zero divisor produces it, every sum, product and quotient that has it as
  an operand produces it, and it differs from the sentinel.
* In the weight function the overflow of `double` is modelled: `std::pow` and the sum
  `eCPowByZ + epsilon` are `+inf` when the exact result exceeds `DBL_MAX`, and the weight,
  `1.0 / (+inf)`, is then `0`.
* `int` is `Int`; the linear index `INDEX` is not reduced modulo `2 ^ 32`.
* `std::unordered_set<int>` is a list of keys, `std::unordered_map<int, int>` a partial
  function, `std::map<int, std::vector<Pixel>>` a key-sorted association list.
* The recursion of `FloodFill` and the `while` loop of `SetLayers` are driven by a fuel
  argument; `FindHoleAndBoundaryPixels` and `SetLayers` supply `rows * cols + 2`.
-/

namespace HoleFilling

/-! ## Data model -/

/-- Coordinate pair `std::pair<int, int>`: `p.1` is `first`, `p.2` is `second`. -/
abbrev Pixel := Int × Int

/-- Sample or accumulator value: an exact rational or a non-finite IEEE result. -/
inductive Val where
  | fin (q : ℚ)
  | nonfinite
deriving DecidableEq

def CONNECTIVITY_OPTION_1 : Int := 4

def CONNECTIVITY_OPTION_2 : Int := 8

def HOLE_VALUE : Int := -1

def ALGORITHM_OPTION_ONE : Int := 1

def ALGORITHM_OPTION_TWO : Int := 2

def APPROXIMATE_ALGORITHM_ROUTINE_AMOUNT : Nat := 100

/-- Linear index macro `INDEX(i, j, cols) = i * cols + j`. -/
def INDEX (i j cols : Int) : Int := i * cols + j

/-- Sentinel as a sample value (`HOLE_VALUE` converted to `float`). -/
def holeVal : Val := Val.fin (HOLE_VALUE : ℚ)

/-- Product `value * weight` of a sample and a weight. -/
def Val.mulWeight : Val → ℚ → Val
  | Val.fin q, w => Val.fin (q * w)
  | Val.nonfinite, _ => Val.nonfinite

/-- Sum of two accumulator values. -/
def Val.add : Val → Val → Val
  | Val.fin a, Val.fin b => Val.fin (a + b)
  | _, _ => Val.nonfinite

/-- Quotient `dividendSum / divisorSum`; a zero divisor gives a non-finite result. -/
def Val.divBy : Val → ℚ → Val
  | Val.fin a, d => if d = 0 then Val.nonfinite else Val.fin (a / d)
  | Val.nonfinite, _ => Val.nonfinite

/-- Ways in which a run of the model stops without a result. -/
inductive Fault where
  | outOfRange
  | outOfFuel
deriving DecidableEq

instance instDecidableEqExcept {ε α : Type} [DecidableEq ε] [DecidableEq α] :
    DecidableEq (Except ε α)
  | Except.ok a, Except.ok b =>
    if h : a = b then isTrue (by rw [h]) else isFalse (fun hh => h (Except.ok.inj hh))
  | Except.error a, Except.error b =>
    if h : a = b then isTrue (by rw [h]) else isFalse (fun hh => h (Except.error.inj hh))
  | Except.ok _, Except.error _ => isFalse (fun hh => Except.noConfusion hh)
  | Except.error _, Except.ok _ => isFalse (fun hh => Except.noConfusion hh)

/-- Single-channel image: `data i0 i1` is the sample at row `i0`, column `i1`. -/
structure Mat where
  rows : Nat
  cols : Nat
  data : Int → Int → Val

/-- Position `(i0, i1)` (row, column) lies inside the image. -/
def Mat.inRange (m : Mat) (i0 i1 : Int) : Prop :=
  0 ≤ i0 ∧ i0 < (m.rows : Int) ∧ 0 ≤ i1 ∧ i1 < (m.cols : Int)

instance (m : Mat) (i0 i1 : Int) : Decidable (m.inRange i0 i1) := by
  unfold Mat.inRange
  exact inferInstance

/-- Read `image.at<float>(i0, i1)`. -/
def Mat.at (m : Mat) (i0 i1 : Int) : Except Fault Val :=
  if m.inRange i0 i1 then Except.ok (m.data i0 i1) else Except.error Fault.outOfRange

/-- Write `image.at<float>(i0, i1) = v`. -/
def Mat.set (m : Mat) (i0 i1 : Int) (v : Val) : Except Fault Mat :=
  if m.inRange i0 i1 then
    Except.ok { m with data := fun a b => if a = i0 ∧ b = i1 then v else m.data a b }
  else Except.error Fault.outOfRange

/-- Type of the caller-supplied weight function `(Pixel, Pixel, int, double) → double`. -/
abbrev WeightFunctionType := Pixel → Pixel → Int → ℚ → ℚ

/-- Insertion `m[k].push_back (p)` into the key-ordered `std::map`. -/
def mapPushBack : List (Int × List Pixel) → Int → Pixel → List (Int × List Pixel)
  | [], k, p => [(k, [p])]
  | (k0, ps) :: rest, k, p =>
    if k = k0 then (k0, ps ++ [p]) :: rest
    else if k < k0 then (k, [p]) :: (k0, ps) :: rest
    else (k0, ps) :: mapPushBack rest k p

/-- State of a `HoleFiller` object: its configuration and its work fields. -/
structure HoleFiller where
  z_ : Int
  epsilon_ : ℚ
  connectivity_ : Int
  algorithmType : Int
  weightFunc_ : WeightFunctionType
  visitedSet : List Int
  holePixelsVector_ : List Pixel
  boundaryPixelsCoordinatesVector_ : List Pixel
  boundaryPixelsValuesVector_ : List Val
  layerMap : Int → Option Int
  layerMapReverse : List (Int × List Pixel)
  curLayerVector : List Pixel
  tempLayerVector : List Pixel

/-- Constructor `HoleFiller::HoleFiller`: the work fields start empty. -/
def HoleFiller.new (z : Int) (epsilon : ℚ) (connectivity algorithm_type : Int)
    (weight_func : WeightFunctionType) : HoleFiller :=
  { z_ := z, epsilon_ := epsilon, connectivity_ := connectivity,
    algorithmType := algorithm_type, weightFunc_ := weight_func,
    visitedSet := [], holePixelsVector_ := [], boundaryPixelsCoordinatesVector_ := [],
    boundaryPixelsValuesVector_ := [], layerMap := fun _ => none, layerMapReverse := [],
    curLayerVector := [], tempLayerVector := [] }

/-! ## Segmentation -/

/-- Neighbour of `currentPixel` number `index` (`HoleFiller::GetNeighborPixel`). -/
def GetNeighborPixel (currentPixel : Pixel) (index : Int) : Pixel :=
  let x := currentPixel.1
  let y := currentPixel.2
  if index = 0 then (x + 1, y)
  else if index = 1 then (x - 1, y)
  else if index = 2 then (x, y + 1)
  else if index = 3 then (x, y - 1)
  else if index = 4 then (x + 1, y + 1)
  else if index = 5 then (x + 1, y - 1)
  else if index = 6 then (x - 1, y + 1)
  else if index = 7 then (x - 1, y - 1)
  else currentPixel

/-- Indices `i` of the loop `for (i = 0; i < 8; ++i)` that pass the test
`(i < 4) || (i >= 4 && connectivity_ == CONNECTIVITY_OPTION_2)`, in loop order. -/
def neighborIndices (connectivity : Int) : List Int :=
  [0, 1, 2, 3, 4, 5, 6, 7].filter
    (fun i => decide (i < 4) || (decide (i ≥ 4) && decide (connectivity = CONNECTIVITY_OPTION_2)))

/-- Neighbours visited by the neighbour loops, in loop order. -/
def neighborPixels (connectivity : Int) (p : Pixel) : List Pixel :=
  (neighborIndices connectivity).map (GetNeighborPixel p)

/-- Coordinates in the order the double loop of `FindFirstHolePixel` reads them:
`x` from `0` to `cols - 1` outside, `y` from `0` to `rows - 1` inside. -/
def scanOrder (image : Mat) : List Pixel :=
  (List.range image.cols).flatMap
    (fun (x : Nat) => (List.range image.rows).map (fun (y : Nat) => ((x : Int), (y : Int))))

/-- Body of the double loop of `FindFirstHolePixel` over the remaining coordinates. -/
def findFirstHoleIn (image : Mat) : List Pixel → Except Fault Pixel
  | [] => Except.ok (HOLE_VALUE, HOLE_VALUE)
  | p :: rest =>
    match image.at p.1 p.2 with
    | Except.error e => Except.error e
    | Except.ok v => if v = holeVal then Except.ok p else findFirstHoleIn image rest

/-- First sentinel pixel in scan order (`HoleFiller::FindFirstHolePixel`). -/
def FindFirstHolePixel (image : Mat) : Except Fault Pixel :=
  findFirstHoleIn image (scanOrder image)

/-- Sequential run of a fallible step over a list of pixels, threading the state. -/
def forPixels (step : HoleFiller → Pixel → Except Fault HoleFiller) :
    List Pixel → HoleFiller → Except Fault HoleFiller
  | [], hf => Except.ok hf
  | p :: rest, hf =>
    match step hf p with
    | Except.error e => Except.error e
    | Except.ok hf1 => forPixels step rest hf1

/-- Recursive flood fill (`HoleFiller::FloodFill`); `fuel` bounds the recursion depth. -/
def FloodFill : Nat → Mat → HoleFiller → Pixel → Except Fault HoleFiller
  | 0, _, _, _ => Except.error Fault.outOfFuel
  | fuel + 1, image, hf, currentPixel =>
    let x := currentPixel.1
    let y := currentPixel.2
    let curPixelIndexVal := INDEX y x image.cols
    if curPixelIndexVal ∈ hf.visitedSet then Except.ok hf
    else
      let hf1 := { hf with visitedSet := curPixelIndexVal :: hf.visitedSet }
      if x < 0 ∨ x ≥ image.cols ∨ y < 0 ∨ y ≥ image.rows then Except.ok hf1
      else
        match image.at x y with
        | Except.error e => Except.error e
        | Except.ok currentPixelValue =>
          if currentPixelValue ≠ holeVal then
            Except.ok { hf1 with
              boundaryPixelsValuesVector_ := hf1.boundaryPixelsValuesVector_ ++ [currentPixelValue],
              boundaryPixelsCoordinatesVector_ :=
                hf1.boundaryPixelsCoordinatesVector_ ++ [currentPixel] }
          else
            let hf2 := { hf1 with holePixelsVector_ := hf1.holePixelsVector_ ++ [currentPixel] }
            forPixels (fun st q => FloodFill fuel image st q)
              (neighborPixels hf2.connectivity_ currentPixel) hf2

/-- Recursion depth that `FindHoleAndBoundaryPixels` grants to `FloodFill`. -/
def floodFuel (image : Mat) : Nat := image.rows * image.cols + 2

/-- Segmentation entry point (`HoleFiller::FindHoleAndBoundaryPixels`). -/
def FindHoleAndBoundaryPixels (hf : HoleFiller) (image : Mat) : Except Fault HoleFiller :=
  match FindFirstHolePixel image with
  | Except.error e => Except.error e
  | Except.ok firstHolePixel => FloodFill (floodFuel image) image hf firstHolePixel

/-! ## Exact filler -/

/-- Inner loop of `RegularAlgorithm`: `(dividendSum, divisorSum)` after the boundary
entries `(coordinate, value)` have been accumulated onto the given sums. -/
def regularSums (w : WeightFunctionType) (holePixel : Pixel) (z : Int) (epsilon : ℚ) :
    List (Pixel × Val) → Val × ℚ → Val × ℚ
  | [], acc => acc
  | (boundaryPixel, boundaryPixelValue) :: rest, (dividendSum, divisorSum) =>
    let currWeightValue := w holePixel boundaryPixel z epsilon
    regularSums w holePixel z epsilon rest
      (dividendSum.add (boundaryPixelValue.mulWeight currWeightValue), divisorSum + currWeightValue)

/-- Boundary entries `(boundaryPixelsCoordinatesVector_[i], boundaryPixelsValuesVector_[i])`. -/
def HoleFiller.boundary (hf : HoleFiller) : List (Pixel × Val) :=
  hf.boundaryPixelsCoordinatesVector_.zip hf.boundaryPixelsValuesVector_

/-- Value that `RegularAlgorithm` writes at `holePixel`. -/
def regularValue (hf : HoleFiller) (holePixel : Pixel) : Val :=
  let sums := regularSums hf.weightFunc_ holePixel hf.z_ hf.epsilon_ hf.boundary (Val.fin 0, 0)
  sums.1.divBy sums.2

/-- Outer loop of `RegularAlgorithm` over the remaining hole pixels. -/
def regularLoop (hf : HoleFiller) : List Pixel → Mat → Except Fault Mat
  | [], filledImage => Except.ok filledImage
  | holePixel :: rest, filledImage =>
    match filledImage.set holePixel.1 holePixel.2 (regularValue hf holePixel) with
    | Except.error e => Except.error e
    | Except.ok filledImage1 => regularLoop hf rest filledImage1

/-- Exact filler (`HoleFiller::RegularAlgorithm`). -/
def RegularAlgorithm (hf : HoleFiller) (filledImage : Mat) : Except Fault Mat :=
  regularLoop hf hf.holePixelsVector_ filledImage

/-! ## Layer builder -/

/-- Layer assignment of one pixel (`HoleFiller::SetLayer`). -/
def SetLayer (image : Mat) (hf : HoleFiller) (currentPixel : Pixel) (currentLayer : Int) :
    Except Fault HoleFiller :=
  let x := currentPixel.1
  let y := currentPixel.2
  let curPixelIndexVal := INDEX y x image.cols
  match image.at x y with
  | Except.error e => Except.error e
  | Except.ok currentPixelValue =>
    if currentPixelValue = holeVal then
      if hf.layerMap curPixelIndexVal = none then
        Except.ok { hf with
          tempLayerVector := hf.tempLayerVector ++ [currentPixel],
          layerMap := fun k => if k = curPixelIndexVal then some (currentLayer + 1) else hf.layerMap k,
          layerMapReverse := mapPushBack hf.layerMapReverse (currentLayer + 1) currentPixel }
      else Except.ok hf
    else Except.ok hf

/-- Layer assignment of the neighbours of a pixel (`HoleFiller::SetLayerHelper`). -/
def SetLayerHelper (image : Mat) (hf : HoleFiller) (currentPixel : Pixel) (currentLayer : Int) :
    Except Fault HoleFiller :=
  forPixels (fun st q => SetLayer image st q currentLayer)
    (neighborPixels hf.connectivity_ currentPixel) hf

/-- Body of the `for` loop of `SetLayers` for one pixel of the current layer. -/
def setLayersStep (image : Mat) (curLayer : Int) (hf : HoleFiller) (holePixel : Pixel) :
    Except Fault HoleFiller :=
  let hf1 :=
    if curLayer = 1 then
      { hf with layerMap := fun k =>
          if k = INDEX holePixel.2 holePixel.1 image.cols then some curLayer else hf.layerMap k }
    else hf
  SetLayerHelper image hf1 holePixel curLayer

/-- The `while` loop of `SetLayers`; `fuel` bounds the number of tests of its condition. -/
def setLayersLoop : Nat → Mat → HoleFiller → Int → Except Fault HoleFiller
  | 0, _, _, _ => Except.error Fault.outOfFuel
  | fuel + 1, image, hf, curLayer =>
    if hf.curLayerVector = [] then Except.ok hf
    else
      match forPixels (setLayersStep image curLayer) hf.curLayerVector hf with
      | Except.error e => Except.error e
      | Except.ok hf1 =>
        setLayersLoop fuel image
          { hf1 with curLayerVector := hf1.tempLayerVector, tempLayerVector := [] } (curLayer + 1)

/-- Layer builder (`HoleFiller::SetLayers`). -/
def SetLayers (hf : HoleFiller) (image : Mat) : Except Fault HoleFiller :=
  setLayersLoop (floodFuel image) image
    { hf with curLayerVector := hf.boundaryPixelsCoordinatesVector_ } 0

/-! ## Iterative filler -/

/-- Lookup `layerMap[k]` of `std::unordered_map::operator[]`: the stored value, or `0`
for a key without an entry, which the lookup then inserts. -/
def layerMapIndex (hf : HoleFiller) (k : Int) : Int × HoleFiller :=
  match hf.layerMap k with
  | some v => (v, hf)
  | none => (0, { hf with layerMap := fun j => if j = k then some 0 else hf.layerMap j })

/-- Test whether a neighbour contributes (`HoleFiller::IsPixelAffecting`). -/
def IsPixelAffecting (image : Mat) (hf : HoleFiller) (pixel : Pixel) (maximumLayerNumber : Int) :
    Except Fault (Bool × HoleFiller) :=
  let x := pixel.1
  let y := pixel.2
  match image.at x y with
  | Except.error e => Except.error e
  | Except.ok v =>
    if v ≠ holeVal then
      let curPixelIndexVal := INDEX y x image.cols
      let r := layerMapIndex hf curPixelIndexVal
      if r.1 ≤ maximumLayerNumber then Except.ok (true, r.2) else Except.ok (false, r.2)
    else Except.ok (false, hf)

/-- Accumulators `dividendSum` and `divisorSum` of one pixel update, with the filler state. -/
structure Sums where
  hf : HoleFiller
  dividendSum : Val
  divisorSum : ℚ

/-- Contribution of one neighbour (`HoleFiller::CalculatePixelAffect`). -/
def CalculatePixelAffect (image : Mat) (holePixel : Pixel) (maximumLayerNumber : Int)
    (boundaryPixel : Pixel) (s : Sums) : Except Fault Sums :=
  let x := boundaryPixel.1
  let y := boundaryPixel.2
  match IsPixelAffecting image s.hf boundaryPixel maximumLayerNumber with
  | Except.error e => Except.error e
  | Except.ok (true, hf1) =>
    match image.at x y with
    | Except.error e => Except.error e
    | Except.ok boundaryPixelValue =>
      let currWeightValue := hf1.weightFunc_ holePixel boundaryPixel hf1.z_ hf1.epsilon_
      Except.ok { hf := hf1,
                  dividendSum := s.dividendSum.add (boundaryPixelValue.mulWeight currWeightValue),
                  divisorSum := s.divisorSum + currWeightValue }
  | Except.ok (false, hf1) => Except.ok { s with hf := hf1 }

/-- Neighbour loop of one pixel update of `ApproximateAlgorithm`. -/
def affectLoop (image : Mat) (holePixel : Pixel) (maximumLayerNumber : Int) :
    List Pixel → Sums → Except Fault Sums
  | [], s => Except.ok s
  | q :: rest, s =>
    match CalculatePixelAffect image holePixel maximumLayerNumber q s with
    | Except.error e => Except.error e
    | Except.ok s1 => affectLoop image holePixel maximumLayerNumber rest s1

/-- Body of the innermost `for (Pixel holePixel : it->second)` loop: one pixel update. -/
def updatePixel (image : Mat) (st : Mat × HoleFiller) (holePixel : Pixel) :
    Except Fault (Mat × HoleFiller) :=
  let filledImage := st.1
  let x := holePixel.1
  let y := holePixel.2
  let curPixelIndexVal := INDEX y x image.cols
  let r := layerMapIndex st.2 curPixelIndexVal
  let myLayerNumber := r.1
  match affectLoop filledImage holePixel myLayerNumber
      (neighborPixels r.2.connectivity_ holePixel)
      { hf := r.2, dividendSum := Val.fin 0, divisorSum := 0 } with
  | Except.error e => Except.error e
  | Except.ok s =>
    match filledImage.set x y (s.dividendSum.divBy s.divisorSum) with
    | Except.error e => Except.error e
    | Except.ok filledImage1 => Except.ok (filledImage1, s.hf)

/-- Updates of the pixels of one layer, in stored order. -/
def updateLayer (image : Mat) : List Pixel → Mat × HoleFiller → Except Fault (Mat × HoleFiller)
  | [], st => Except.ok st
  | p :: rest, st =>
    match updatePixel image st p with
    | Except.error e => Except.error e
    | Except.ok st1 => updateLayer image rest st1

/-- One sweep: the layers of `layerMapReverse` in key order. -/
def sweepLayers (image : Mat) :
    List (Int × List Pixel) → Mat × HoleFiller → Except Fault (Mat × HoleFiller)
  | [], st => Except.ok st
  | layer :: rest, st =>
    match updateLayer image layer.2 st with
    | Except.error e => Except.error e
    | Except.ok st1 => sweepLayers image rest st1

/-- The given number of sweeps of the outer loop of `ApproximateAlgorithm`. -/
def sweeps (image : Mat) : Nat → Mat × HoleFiller → Except Fault (Mat × HoleFiller)
  | 0, st => Except.ok st
  | n + 1, st =>
    match sweepLayers image st.2.layerMapReverse st with
    | Except.error e => Except.error e
    | Except.ok st1 => sweeps image n st1

/-- Iterative filler (`HoleFiller::ApproximateAlgorithm`). -/
def ApproximateAlgorithm (hf : HoleFiller) (image : Mat) (filledImage : Mat) :
    Except Fault (Mat × HoleFiller) :=
  sweeps image APPROXIMATE_ALGORITHM_ROUTINE_AMOUNT (filledImage, hf)

/-! ## Dispatcher -/

/-- Reset of the work fields (`HoleFiller::ClearFields`). -/
def ClearFields (hf : HoleFiller) : HoleFiller :=
  { hf with visitedSet := [], holePixelsVector_ := [], boundaryPixelsCoordinatesVector_ := [],
            boundaryPixelsValuesVector_ := [], layerMap := fun _ => none, layerMapReverse := [],
            curLayerVector := [], tempLayerVector := [] }

/-- The `switch (algorithmType)` of `FillImage`, run on the segmented state. -/
def runAlgorithm (hf : HoleFiller) (image filledImage : Mat) : Except Fault (Mat × HoleFiller) :=
  if hf.algorithmType = ALGORITHM_OPTION_ONE then
    match RegularAlgorithm hf filledImage with
    | Except.error e => Except.error e
    | Except.ok out => Except.ok (out, hf)
  else if hf.algorithmType = ALGORITHM_OPTION_TWO then
    match SetLayers hf image with
    | Except.error e => Except.error e
    | Except.ok hf1 => ApproximateAlgorithm hf1 image filledImage
  else Except.ok (filledImage, hf)

/-- Entry point `HoleFiller::FillImage`: the filled image and the filler state on return. -/
def FillImage (hf : HoleFiller) (image : Mat) : Except Fault (Mat × HoleFiller) :=
  let filledImage := image
  match FindHoleAndBoundaryPixels hf image with
  | Except.error e => Except.error e
  | Except.ok hf1 =>
    match runAlgorithm hf1 image filledImage with
    | Except.error e => Except.error e
    | Except.ok (out, hf2) => Except.ok (out, ClearFields hf2)

/-! ## Weight function -/

/-- Distance `MyWeightFunction::EuclideanDistance`; `sqrt` stands for `std::sqrt`. -/
def EuclideanDistance (sqrt : ℚ → ℚ) (p1 p2 : Pixel) : ℚ :=
  let dx : ℚ := ((p2.1 - p1.1 : Int) : ℚ)
  let dy : ℚ := ((p2.2 - p1.2 : Int) : ℚ)
  sqrt ((dx * dx) + (dy * dy))

/-- Largest finite `double`, `DBL_MAX = (2 - 2 ^ (-52)) * 2 ^ 1023`. -/
def DBL_MAX : ℚ := 2 ^ 1024 - 2 ^ 971

/-- Power `std::pow (x, z)` of a `double` `x` and an `int` exponent `z`: the exact power
where it is finite; `+inf` when the power exceeds `DBL_MAX` (overflow) and for
`pow (0, z)` with `z < 0`. -/
def std_pow (x : ℚ) (z : Int) : Val :=
  if x = 0 ∧ z < 0 then Val.nonfinite
  else if DBL_MAX < x ^ z then Val.nonfinite
  else Val.fin (x ^ z)

/-- Weight `MyWeightFunction::GetWeight`; `sqrt` stands for `std::sqrt`.  When `std::pow`
returns `+inf`, or the sum `eCPowByZ + epsilon` exceeds `DBL_MAX` and is `+inf`, the
quotient `1.0 / (+inf)` is `0`. -/
def GetWeight (sqrt : ℚ → ℚ) (p1 p2 : Pixel) (z : Int) (epsilon : ℚ) : ℚ :=
  let euclideanDistance := EuclideanDistance sqrt p1 p2
  let eCPowByZ := std_pow euclideanDistance z
  match eCPowByZ with
  | Val.nonfinite => 0
  | Val.fin v => if DBL_MAX < v + epsilon then 0 else 1 / (v + epsilon)

/-! ## Notions used to state the properties -/

/-- Coordinates accepted by the bounds test of `FloodFill`:
`x < 0 || x >= image.cols || y < 0 || y >= image.rows` is false. -/
def inBounds (image : Mat) (p : Pixel) : Prop :=
  ¬ (p.1 < 0 ∨ p.1 ≥ (image.cols : Int) ∨ p.2 < 0 ∨ p.2 ≥ (image.rows : Int))

/-- Number of linear indices of the image that the visited set does not hold. -/
def unvisited (image : Mat) (vs : List Int) : Nat :=
  ((Finset.range (image.rows * image.cols)).filter (fun (k : Nat) => (k : Int) ∉ vs)).card

/-- Sample of the image a run returns, at row `i0` and column `i1`; `none` when the run
faults or the position is outside the image. -/
def outputAt (r : Except Fault (Mat × HoleFiller)) (i0 i1 : Int) : Option Val :=
  match r with
  | Except.ok (m, _) => (m.at i0 i1).toOption
  | Except.error _ => none

/-- Image given by its rows, top row first. -/
def Mat.ofRows (rs : List (List ℚ)) : Mat :=
  { rows := rs.length, cols := (rs.headD []).length,
    data := fun i j => Val.fin ((rs.getD i.toNat []).getD j.toNat 0) }

/-- Sum of a list of values. -/
def Val.sum : List Val → Val
  | [] => Val.fin 0
  | v :: rest => v.add (Val.sum rest)

/-- Weighted mean of the specification over the entries `(q, v)` of `B`:
`(Σ w(p,q,z,ε)·v) / (Σ w(p,q,z,ε))`. -/
def weightedMean (w : WeightFunctionType) (p : Pixel) (z : Int) (epsilon : ℚ)
    (B : List (Pixel × Val)) : Val :=
  (Val.sum (B.map (fun e => e.2.mulWeight (w p e.1 z epsilon)))).divBy
    ((B.map (fun e => w p e.1 z epsilon)).sum)

/-- Two filler states have the same configuration (the fields set by the constructor). -/
def sameConfig (hf hf1 : HoleFiller) : Prop :=
  hf1.z_ = hf.z_ ∧ hf1.epsilon_ = hf.epsilon_ ∧ hf1.connectivity_ = hf.connectivity_ ∧
    hf1.algorithmType = hf.algorithmType ∧ hf1.weightFunc_ = hf.weightFunc_

/-- Hole component of the seed: the sentinel pixels of the image that are connected to the
seed through sentinel pixels by neighbour steps of the chosen connectivity. -/
inductive HoleReach (image : Mat) (connectivity : Int) (seed : Pixel) : Pixel → Prop
  | seed : image.at seed.1 seed.2 = Except.ok holeVal → HoleReach image connectivity seed seed
  | step (p q : Pixel) : HoleReach image connectivity seed p →
      q ∈ neighborPixels connectivity p → image.at q.1 q.2 = Except.ok holeVal →
      HoleReach image connectivity seed q

/-! ## Example images -/

/-- The 3×3 image with centre `-1`, top row `0`, bottom row `100`, middle sides `50`. -/
def imageGradient3 : Mat :=
  Mat.ofRows [[0, 0, 0], [50, -1, 50], [100, 100, 100]]

/-- The 3×3 image with centre `-1` and all other samples `10`. -/
def imageConst3 : Mat :=
  Mat.ofRows [[10, 10, 10], [10, -1, 10], [10, 10, 10]]

/-- A 3×3 image whose hole (column `0` of every row, and row `0` column `1`) touches the
image border; all other samples are `9`. -/
def imageBorderHole : Mat :=
  Mat.ofRows [[-1, -1, 9], [-1, 9, 9], [-1, 9, 9]]

/-- A 3×3 image whose hole is column `0`; the other samples are `1 … 6`. -/
def imageBorderColumn : Mat :=
  Mat.ofRows [[-1, 1, 2], [-1, 3, 4], [-1, 5, 6]]

/-- Weight function that is `1` for every pair of pixels. -/
def unitWeight : WeightFunctionType := fun _ _ _ _ => 1

/-- Layer number that `layerMap[INDEX(y, x, cols)]` yields for the pixel `q`: the stored
value, `0` for a key without an entry. -/
def layerOf (cols : Nat) (hf : HoleFiller) (q : Pixel) : Int :=
  (hf.layerMap (INDEX q.2 q.1 cols)).getD 0

/-- Neighbours of `p` that pass the test of `IsPixelAffecting` on the working image, with
their current values: the current value is not the sentinel and the layer number is at
most the layer number of `p`. -/
def contributing (filledImage : Mat) (hf : HoleFiller) (p : Pixel) : List (Pixel × Val) :=
  (neighborPixels hf.connectivity_ p).filterMap (fun q =>
    if filledImage.data q.1 q.2 ≠ holeVal ∧
        layerOf filledImage.cols hf q ≤ layerOf filledImage.cols hf p
    then some (q, filledImage.data q.1 q.2) else none)

/-- The filler state `hf1` differs from `hf` at most in entries of `layerMap`, and every
lookup `layerMap[k]` yields the same number in both. -/
def sameButLayerMap (hf hf1 : HoleFiller) : Prop :=
  ∃ lm : Int → Option Int, hf1 = { hf with layerMap := lm } ∧
    ∀ k, (lm k).getD 0 = (hf.layerMap k).getD 0

/-- Pixel `p` is stored in some layer of the layered index. -/
def inLayers (layers : List (Int × List Pixel)) (p : Pixel) : Prop :=
  ∃ l ∈ layers, p ∈ l.2

/-- A 5×5 image with two sentinel pixels, `(2, 2)` and `(3, 3)`, that are not connected
under connectivity 4; the outer ring is `9`. -/
def imageTwoHoles : Mat :=
  Mat.ofRows [[9, 9, 9, 9, 9], [9, 1, 2, 3, 9], [9, 4, -1, 6, 9], [9, 7, 8, -1, 9], [9, 9, 9, 9, 9]]

/-- The run returned an image (no fault occurred). -/
def returned (r : Except Fault (Mat × HoleFiller)) : Bool :=
  match r with
  | Except.ok _ => true
  | Except.error _ => false

/-- Contributing neighbours as the specification states them: the neighbours `q` of `p`
that are in `B`, or in `H` with depth `D(q)` at most the depth of `p`, each with its
current value in the working image. -/
def specContributing (filledImage : Mat) (hf : HoleFiller) (p : Pixel) : List (Pixel × Val) :=
  (neighborPixels hf.connectivity_ p).filterMap (fun q =>
    if q ∈ hf.boundaryPixelsCoordinatesVector_ ∨
        (q ∈ hf.holePixelsVector_ ∧
          layerOf filledImage.cols hf q ≤ layerOf filledImage.cols hf p)
    then some (q, filledImage.data q.1 q.2) else none)

/-- State of the filler after segmentation and layer building, as `FillImage` reaches it
before `ApproximateAlgorithm`. -/
def layeredState (hf : HoleFiller) (image : Mat) : Except Fault HoleFiller :=
  match FindHoleAndBoundaryPixels hf image with
  | Except.error e => Except.error e
  | Except.ok seg => SetLayers seg image

/-- A 6×6 image whose hole is the two adjacent pixels `(2, 2)` and `(2, 3)`; their
neighbours hold `1 … 6`, every other sample is `0`. -/
def imageTwoPixelHole : Mat :=
  Mat.ofRows [[0, 0, 0, 0, 0, 0], [0, 0, 1, 2, 0, 0], [0, 3, -1, -1, 4, 0],
    [0, 0, 5, 6, 0, 0], [0, 0, 0, 0, 0, 0], [0, 0, 0, 0, 0, 0]]

/-- Filler state before the first sweep on `imageTwoPixelHole` (connectivity 4, unit
weights). -/
def layeredTwoPixelHole : HoleFiller :=
  match layeredState (HoleFiller.new 2 (1 / 100) 4 2 unitWeight) imageTwoPixelHole with
  | Except.ok lay => lay
  | Except.error _ => HoleFiller.new 2 (1 / 100) 4 2 unitWeight

/-! ## Notions used for the layer builder -/

/-- Entry of `layerMap` for the pixel `p`, if there is one. -/
def depthOf (cols : Nat) (hf : HoleFiller) (p : Pixel) : Option Int :=
  hf.layerMap (INDEX p.2 p.1 cols)

/-- Pixel `q` is stored under the key `k` of the layered index. -/
def keyed (layers : List (Int × List Pixel)) (k : Int) (q : Pixel) : Prop :=
  ∃ l ∈ layers, l.1 = k ∧ q ∈ l.2

/-- The keys of the layered index are strictly increasing. -/
def keysSorted (layers : List (Int × List Pixel)) : Prop :=
  (layers.map Prod.fst).Pairwise (fun a b => a < b)

/-- Pixel `q` may hand its neighbours the depth `L + 1`: it is a boundary pixel when
`L = 0`, and a pixel of depth `L` otherwise. -/
def frontierPixel (image : Mat) (L : Int) (st : HoleFiller) (q : Pixel) : Prop :=
  (L = 0 ∧ q ∈ st.boundaryPixelsCoordinatesVector_) ∨
    (1 ≤ L ∧ image.inRange q.1 q.2 ∧ depthOf image.cols st q = some L)

/-- All neighbours of `q` are inside the image, and the sentinel ones have a depth of at
most `bound`. -/
def neighboursLayered (image : Mat) (bound : Int) (st : HoleFiller) (q : Pixel) : Prop :=
  ∀ p ∈ neighborPixels st.connectivity_ q, image.inRange p.1 p.2 ∧
    (image.at p.1 p.2 = Except.ok holeVal →
      ∃ d, depthOf image.cols st p = some d ∧ d ≤ bound)

/-- What holds of the depth map and the layered index while the layer builder works on
the frontier of depth `L`, started in the state `st0`. -/
structure RoundInv (image : Mat) (L : Int) (st0 st : HoleFiller) : Prop where
  conn : st.connectivity_ = st0.connectivity_
  bnd : st.boundaryPixelsCoordinatesVector_ = st0.boundaryPixelsCoordinatesVector_
  cur : st.curLayerVector = st0.curLayerVector
  sent : ∀ p d, image.inRange p.1 p.2 → depthOf image.cols st p = some d →
    image.at p.1 p.2 = Except.ok holeVal ∧ 1 ≤ d ∧ d ≤ L + 1
  temp : ∀ p, p ∈ st.tempLayerVector ↔
    (image.inRange p.1 p.2 ∧ depthOf image.cols st p = some (L + 1))
  mono : ∀ p d, image.inRange p.1 p.2 → depthOf image.cols st0 p = some d →
    depthOf image.cols st p = some d
  fresh : ∀ p d, image.inRange p.1 p.2 → depthOf image.cols st p = some d →
    depthOf image.cols st0 p = some d ∨ d = L + 1
  parent : ∀ p d, image.inRange p.1 p.2 → depthOf image.cols st p = some d →
    (d = 1 → ∃ b ∈ st.boundaryPixelsCoordinatesVector_, p ∈ neighborPixels st.connectivity_ b) ∧
    (2 ≤ d → ∃ q, image.inRange q.1 q.2 ∧ depthOf image.cols st q = some (d - 1) ∧
      p ∈ neighborPixels st.connectivity_ q)
  rev : ∀ k q, keyed st.layerMapReverse k q ↔
    (image.inRange q.1 q.2 ∧ depthOf image.cols st q = some k)
  sorted : keysSorted st.layerMapReverse

/-- What holds of the depth map and the layered index when the `while` loop of
`SetLayers` tests its condition with `curLayer = L`. -/
structure LoopInv (image : Mat) (L : Int) (st : HoleFiller) : Prop where
  nonneg : 0 ≤ L
  sent : ∀ p d, image.inRange p.1 p.2 → depthOf image.cols st p = some d →
    image.at p.1 p.2 = Except.ok holeVal ∧ 1 ≤ d ∧ d ≤ L
  front0 : L = 0 → st.curLayerVector = st.boundaryPixelsCoordinatesVector_
  front : 1 ≤ L → ∀ p, p ∈ st.curLayerVector ↔
    (image.inRange p.1 p.2 ∧ depthOf image.cols st p = some L)
  temp : st.tempLayerVector = []
  parent : ∀ p d, image.inRange p.1 p.2 → depthOf image.cols st p = some d →
    (d = 1 → ∃ b ∈ st.boundaryPixelsCoordinatesVector_, p ∈ neighborPixels st.connectivity_ b) ∧
    (2 ≤ d → ∃ q, image.inRange q.1 q.2 ∧ depthOf image.cols st q = some (d - 1) ∧
      p ∈ neighborPixels st.connectivity_ q)
  closed : ∀ q d, image.inRange q.1 q.2 → depthOf image.cols st q = some d → d < L →
    neighboursLayered image (d + 1) st q
  closedB : 1 ≤ L → ∀ b ∈ st.boundaryPixelsCoordinatesVector_, neighboursLayered image 1 st b
  rev : ∀ k q, keyed st.layerMapReverse k q ↔
    (image.inRange q.1 q.2 ∧ depthOf image.cols st q = some k)
  sorted : keysSorted st.layerMapReverse

/-- The layer builder state `b` extends `a`: same connectivity and boundary, and every
depth that `a` stores is stored in `b`. -/
def depthMono (cols : Nat) (a b : HoleFiller) : Prop :=
  b.connectivity_ = a.connectivity_ ∧
    b.boundaryPixelsCoordinatesVector_ = a.boundaryPixelsCoordinatesVector_ ∧
    ∀ r d, depthOf cols a r = some d → depthOf cols b r = some d

/-- What the layer builder has established when it returns: every stored depth belongs to
a sentinel pixel and is at least `1`, has a parent one layer closer to the boundary, and
the neighbourhood of every boundary pixel and of every layered pixel has been examined. -/
structure Layered (image : Mat) (lay : HoleFiller) : Prop where
  sent : ∀ p d, image.inRange p.1 p.2 → depthOf image.cols lay p = some d →
    image.at p.1 p.2 = Except.ok holeVal ∧ 1 ≤ d
  parent : ∀ p d, image.inRange p.1 p.2 → depthOf image.cols lay p = some d →
    (d = 1 → ∃ b ∈ lay.boundaryPixelsCoordinatesVector_, p ∈ neighborPixels lay.connectivity_ b) ∧
    (2 ≤ d → ∃ q, image.inRange q.1 q.2 ∧ depthOf image.cols lay q = some (d - 1) ∧
      p ∈ neighborPixels lay.connectivity_ q)
  closed : ∀ q d, image.inRange q.1 q.2 → depthOf image.cols lay q = some d →
    neighboursLayered image (d + 1) lay q
  closedB : ∀ b ∈ lay.boundaryPixelsCoordinatesVector_, neighboursLayered image 1 lay b
  rev : ∀ k q, keyed lay.layerMapReverse k q ↔
    (image.inRange q.1 q.2 ∧ depthOf image.cols lay q = some k)
  sorted : keysSorted lay.layerMapReverse

/-! ## Notions used for holes away from the image border -/

/-- Every neighbour of every pixel of the seed's hole component lies inside the image. -/
def Interior (image : Mat) (connectivity : Int) (seed : Pixel) : Prop :=
  ∀ h, HoleReach image connectivity seed h →
    ∀ q ∈ neighborPixels connectivity h, image.inRange q.1 q.2

/-- Every key of the visited set is the linear index of a pixel inside the bounds that the
segmentation has recorded as hole or as boundary. -/
def visitedRecorded (image : Mat) (st : HoleFiller) : Prop :=
  ∀ k ∈ st.visitedSet, ∃ r : Pixel, inBounds image r ∧ INDEX r.2 r.1 image.cols = k ∧
    (r ∈ st.holePixelsVector_ ∨ r ∈ st.boundaryPixelsCoordinatesVector_)

/-- Every neighbour of the pixel `h` has been visited. -/
def neighboursVisited (image : Mat) (st : HoleFiller) (h : Pixel) : Prop :=
  ∀ q ∈ neighborPixels st.connectivity_ h, INDEX q.2 q.1 image.cols ∈ st.visitedSet

/-- The segmentation state `b` extends `a`, and every hole pixel that `b` has and `a` has
not is one whose neighbours have all been visited. -/
def floodExtends (image : Mat) (a b : HoleFiller) : Prop :=
  b.connectivity_ = a.connectivity_ ∧ a.visitedSet ⊆ b.visitedSet ∧
    a.holePixelsVector_ ⊆ b.holePixelsVector_ ∧
    a.boundaryPixelsCoordinatesVector_ ⊆ b.boundaryPixelsCoordinatesVector_ ∧
    ∀ h ∈ b.holePixelsVector_, h ∈ a.holePixelsVector_ ∨ neighboursVisited image b h

/-- Summary of a run of segmentation and layer building on a square image with a
non-empty boundary: the hole vector is the seed's hole component, which lies away from
the border, the boundary vector holds exactly its sample neighbours, and the depth map
is a breadth-first layering that covers the component. -/
structure IterativeSetup (image : Mat) (c : Int) (seg lay : HoleFiller) (seed : Pixel) :
    Prop where
  seedOk : FindFirstHolePixel image = Except.ok seed
  seedHole : image.at seed.1 seed.2 = Except.ok holeVal
  layered : Layered image lay
  conn : lay.connectivity_ = c
  connSeg : seg.connectivity_ = c
  holes : lay.holePixelsVector_ = seg.holePixelsVector_
  bnd : lay.boundaryPixelsCoordinatesVector_ = seg.boundaryPixelsCoordinatesVector_
  interior : Interior image c seed
  holeIff : ∀ p, p ∈ seg.holePixelsVector_ ↔ HoleReach image c seed p
  bndIff : ∀ q, q ∈ seg.boundaryPixelsCoordinatesVector_ ↔
    (image.inRange q.1 q.2 ∧ image.at q.1 q.2 ≠ Except.ok holeVal ∧
      ∃ h, HoleReach image c seed h ∧ q ∈ neighborPixels c h)
  depth : ∀ h, HoleReach image c seed h →
    image.inRange h.1 h.2 ∧ ∃ d, depthOf image.cols lay h = some d

/-- The 3×3 image all of whose pixels hold the sentinel. -/
def imageAllHole3 : Mat :=
  Mat.ofRows [[-1, -1, -1], [-1, -1, -1], [-1, -1, -1]]

/-! ## Notions used for the bounds of the iterative filler -/

/-- The value is finite and lies between `lo` and `hi`. -/
def goodVal (lo hi : ℚ) (v : Val) : Prop :=
  ∃ u, v = Val.fin u ∧ lo ≤ u ∧ u ≤ hi

/-- Fixed facts of one run of the iterative algorithm on which the bounds rest. -/
structure FillContext (image : Mat) (c : Int) (seg lay : HoleFiller) (seed : Pixel)
    (lo hi : ℚ) : Prop where
  square : image.rows = image.cols
  setup : IterativeSetup image c seg lay seed
  wpos : ∀ p q, q ∈ neighborPixels lay.connectivity_ p →
    0 < lay.weightFunc_ p q lay.z_ lay.epsilon_
  sentinelOut : (HOLE_VALUE : ℚ) < lo ∨ hi < (HOLE_VALUE : ℚ)
  bvals : ∀ b ∈ seg.boundaryPixelsCoordinatesVector_, goodVal lo hi (image.data b.1 b.2)

/-- State of the working image during the sweeps: it has the dimensions of the input,
agrees with the input outside the layered index, and every pixel of the hole vector holds
a value within the bounds or still holds the sentinel and is pending. -/
structure SweepInv (image : Mat) (lay : HoleFiller) (H : List Pixel) (lo hi : ℚ)
    (Pend : Pixel → Prop) (st : Mat × HoleFiller) : Prop where
  rows : st.1.rows = image.rows
  cols : st.1.cols = image.cols
  same : sameButLayerMap lay st.2
  frame : ∀ q : Pixel, ¬ inLayers lay.layerMapReverse q → st.1.data q.1 q.2 = image.data q.1 q.2
  good : ∀ p ∈ H, goodVal lo hi (st.1.data p.1 p.2) ∨ (st.1.data p.1 p.2 = holeVal ∧ Pend p)

/-- The 7×7 image whose inner 3×3 block is `-1` and whose two outer rings are `255`. -/
def imageRing7 : Mat :=
  Mat.ofRows [[255, 255, 255, 255, 255, 255, 255], [255, 255, 255, 255, 255, 255, 255],
    [255, 255, -1, -1, -1, 255, 255], [255, 255, -1, -1, -1, 255, 255],
    [255, 255, -1, -1, -1, 255, 255], [255, 255, 255, 255, 255, 255, 255],
    [255, 255, 255, 255, 255, 255, 255]]

/-- The 5×5 image whose inner 3×3 block is `-1` and whose outer ring is `255`. -/
def imageRing5 : Mat :=
  Mat.ofRows [[255, 255, 255, 255, 255], [255, -1, -1, -1, 255], [255, -1, -1, -1, 255],
    [255, -1, -1, -1, 255], [255, 255, 255, 255, 255]]

/-- A 7×7 image with a plus-shaped hole around `(3, 3)` and negative samples next to it:
the three boundary neighbours of each arm are `-2`, `-1/2`, `-1/2`. -/
def imagePlusNegative : Mat :=
  Mat.ofRows [[0, 0, 0, 0, 0, 0, 0], [0, 0, 0, -2, 0, 0, 0], [0, 0, -1 / 2, -1, -1 / 2, 0, 0],
    [0, -2, -1, -1, -1, -2, 0], [0, 0, -1 / 2, -1, -1 / 2, 0, 0], [0, 0, 0, -2, 0, 0, 0],
    [0, 0, 0, 0, 0, 0, 0]]

/-- The sentinel pixels keep a distance of two from the border: every neighbour of a
sentinel pixel of the image, and every neighbour of such a neighbour, lies inside the
image. Then no read of the layer builder or of the iterative filler leaves the image. -/
def awayFromBorder (image : Mat) (connectivity : Int) : Prop :=
  ∀ p ∈ scanOrder image, image.data p.1 p.2 = holeVal →
    ∀ q ∈ neighborPixels connectivity p, image.inRange q.1 q.2 ∧
      ∀ r ∈ neighborPixels connectivity q, image.inRange r.1 r.2

instance (image : Mat) (connectivity : Int) : Decidable (awayFromBorder image connectivity) := by
  unfold awayFromBorder
  exact inferInstance

/-! ## Command-line argument check (`main.cpp`) -/

def NULL_CHARACTER : Char := Char.ofNat 0

def MSG_ERR_Z_VALUE : String := "Error: z value is not a valid integer."

def MSG_ERR_EPSILON_NOT_POSITIVE : String := "Error: eps should be a positive number."

def MSG_ERR_CONNECTIVITY_VALUE : String := "Error: Invalid value for connectivity number."

def MSG_ERR_ALGORITHM_TYPE : String := "Error: Invalid value for Algorithm type."

/-- Check that a string was converted to a number completely (`NumbersCheck`): `endPtr`
is the character `*endPtr` that the end pointer of `strtol` points to.  The result is the
returned `bool` and the lines written to `std::cerr`. -/
def NumbersCheck (endPtr : Char) (errorMassage : String) : Bool × List String :=
  if endPtr ≠ NULL_CHARACTER then (false, [errorMassage]) else (true, [])

/-- Check of the numeric arguments (`ArgumentNumbersCheck`): the returned `bool` and the
lines written to `std::cerr`. -/
def ArgumentNumbersCheck (endPtrZ : Char) (e : ℚ) (connectivity : Int) (endPtrC : Char)
    (algorithmType : Int) (endPtrA : Char) : Bool × List String :=
  let r1 := NumbersCheck endPtrZ MSG_ERR_Z_VALUE
  if r1.1 = false then (false, r1.2)
  else if e ≤ 0 then (false, [MSG_ERR_EPSILON_NOT_POSITIVE])
  else
    let r2 := NumbersCheck endPtrC MSG_ERR_CONNECTIVITY_VALUE
    if r2.1 = false then (false, r2.2)
    else if connectivity ≠ CONNECTIVITY_OPTION_1 ∧ connectivity ≠ CONNECTIVITY_OPTION_2 then
      (false, [MSG_ERR_CONNECTIVITY_VALUE])
    else
      let r3 := NumbersCheck endPtrA MSG_ERR_ALGORITHM_TYPE
      if r3.1 = false then (false, r3.2)
      else if algorithmType ≠ ALGORITHM_OPTION_ONE ∧ algorithmType ≠ ALGORITHM_OPTION_TWO then
        (true, [MSG_ERR_ALGORITHM_TYPE])
      else (true, [])

/-! ## Further example inputs -/

/-- The image with one row and two columns, `5` and the sentinel. -/
def imageRow2 : Mat :=
  Mat.ofRows [[5, -1]]

/-- The 3×3 image without a sentinel whose samples are `1 … 9`. -/
def imageNoHole3 : Mat :=
  Mat.ofRows [[1, 2, 3], [4, 5, 6], [7, 8, 9]]

/-! ## Notions used for the vectors of the segmentation -/

/-- What holds of the vectors that `FloodFill` builds. -/
structure VectorsOk (image : Mat) (st : HoleFiller) : Prop where
  visited : ∀ q ∈ st.holePixelsVector_ ++ st.boundaryPixelsCoordinatesVector_,
    inBounds image q ∧ INDEX q.2 q.1 image.cols ∈ st.visitedSet
  nodup : (st.holePixelsVector_ ++ st.boundaryPixelsCoordinatesVector_).Nodup
  len : st.boundaryPixelsCoordinatesVector_.length = st.boundaryPixelsValuesVector_.length
  holes : ∀ q ∈ st.holePixelsVector_, image.at q.1 q.2 = Except.ok holeVal
  samples : ∀ e ∈ st.boundary, image.at e.1.1 e.1.2 = Except.ok e.2 ∧ e.2 ≠ holeVal

/-! ## Notions used for the order of the updates -/

/-- Pixels in the order in which one sweep of `ApproximateAlgorithm` updates them: the
lists of `layerMapReverse`, in key order, one after the other. -/
def updateOrder (hf : HoleFiller) : List Pixel :=
  hf.layerMapReverse.flatMap (fun l => l.2)

/-- No list of the layered index holds a pixel twice, and every pixel of a list has an
entry in `layerMap`. -/
def layersNodup (cols : Nat) (st : HoleFiller) : Prop :=
  (∀ l ∈ st.layerMapReverse, l.2.Nodup) ∧
    ∀ l ∈ st.layerMapReverse, ∀ q ∈ l.2, st.layerMap (INDEX q.2 q.1 cols) ≠ none

/-- Contributors of the first-sweep value of the pixel `p` as the amended claim states
them: the neighbours of `p` that are in `B`, with their samples, and the neighbours of `p`
that were updated earlier in the sweep and whose value after the sweep `out1` is not the
sentinel, with that value; in neighbour order. -/
def firstSweepContributors (connectivity : Int) (B earlier : List Pixel) (image out1 : Mat)
    (p : Pixel) : List (Pixel × Val) :=
  (neighborPixels connectivity p).filterMap (fun q =>
    if q ∈ B then some (q, image.data q.1 q.2)
    else if q ∈ earlier ∧ out1.data q.1 q.2 ≠ holeVal then some (q, out1.data q.1 q.2)
    else none)

/-- Boundary entries of `B` whose coordinate is a neighbour of `p`. -/
def boundaryNeighbours (hf : HoleFiller) (p : Pixel) : List (Pixel × Val) :=
  hf.boundary.filter (fun e => decide (e.1 ∈ neighborPixels hf.connectivity_ p))

/-- State of the working image during the sweeps: it has the dimensions of the input,
the filler differs from the layered state at most in `layerMap` entries that read `0`, and
the working image agrees with the input outside the layered index. -/
structure SweepFrame (image : Mat) (lay : HoleFiller) (st : Mat × HoleFiller) : Prop where
  rows : st.1.rows = image.rows
  cols : st.1.cols = image.cols
  same : sameButLayerMap lay st.2
  frame : ∀ q : Pixel, ¬ inLayers lay.layerMapReverse q → st.1.data q.1 q.2 = image.data q.1 q.2

/-- The neighbours of `p` with the samples the image holds there, in neighbour order. -/
def neighbourSamples (image : Mat) (connectivity : Int) (p : Pixel) : List (Pixel × Val) :=
  (neighborPixels connectivity p).map (fun q => (q, image.data q.1 q.2))

/-! ## Notions used for accesses outside the image -/

/-- The fault with which a run stopped, if it did. -/
def faulted {α : Type} (r : Except Fault α) : Option Fault :=
  match r with
  | Except.error e => some e
  | Except.ok _ => none

/-- The image with one row and two columns, the sentinel and `5`. -/
def imageWideHole : Mat :=
  Mat.ofRows [[-1, 5]]

instance (image : Mat) (p : Pixel) : Decidable (inBounds image p) := by
  unfold inBounds
  exact inferInstance

/-! ## Further notions and example inputs -/

/-- Pixels that the layer builder can reach from the boundary `B`: the sentinel pixels
connected to a pixel of `B` through sentinel pixels by neighbour steps of the chosen
connectivity. -/
inductive LayerReach (image : Mat) (connectivity : Int) (B : List Pixel) : Pixel → Prop
  | start (b q : Pixel) : b ∈ B → q ∈ neighborPixels connectivity b →
      image.at q.1 q.2 = Except.ok holeVal → LayerReach image connectivity B q
  | step (p q : Pixel) : LayerReach image connectivity B p →
      q ∈ neighborPixels connectivity p → image.at q.1 q.2 = Except.ok holeVal →
      LayerReach image connectivity B q

/-- A 7×7 image with two sentinel pixels, `(2, 2)` and `(4, 4)`; under connectivity 4 no
neighbour of `(4, 4)` is a neighbour of `(2, 2)`. -/
def imageFarSentinel : Mat :=
  Mat.ofRows [[9, 9, 9, 9, 9, 9, 9], [9, 1, 2, 3, 4, 5, 9], [9, 6, -1, 7, 8, 1, 9],
    [9, 2, 3, 4, 5, 6, 9], [9, 7, 8, 1, -1, 2, 9], [9, 3, 4, 5, 6, 7, 9],
    [9, 9, 9, 9, 9, 9, 9]]

/-- The image with one row and two columns and no sentinel, `5` and `6`. -/
def imageNoHoleRow2 : Mat :=
  Mat.ofRows [[5, 6]]

set_option maxHeartbeats 1000000

/-! ## Image accessors -/

theorem Mat.at_eq_ok {m : Mat} {i0 i1 : Int} {v : Val} (h : m.at i0 i1 = Except.ok v) :
    m.inRange i0 i1 ∧ m.data i0 i1 = v := by
  unfold Mat.at at h
  split at h
  · rename_i hr
    simp only [Except.ok.injEq] at h
    exact ⟨hr, h⟩
  · simp at h

theorem Mat.at_of_inRange {m : Mat} {i0 i1 : Int} (h : m.inRange i0 i1) :
    m.at i0 i1 = Except.ok (m.data i0 i1) := by
  unfold Mat.at
  rw [if_pos h]

theorem Mat.at_error {m : Mat} {i0 i1 : Int} {e : Fault} (h : m.at i0 i1 = Except.error e) :
    ¬ m.inRange i0 i1 ∧ e = Fault.outOfRange := by
  unfold Mat.at at h
  split at h
  · simp at h
  · rename_i hr
    simp only [Except.error.injEq] at h
    exact ⟨hr, h.symm⟩

theorem Mat.set_eq_ok {m m1 : Mat} {i0 i1 : Int} {v : Val} (h : m.set i0 i1 v = Except.ok m1) :
    m.inRange i0 i1 ∧ m1.rows = m.rows ∧ m1.cols = m.cols ∧
      m1.data = fun a b => if a = i0 ∧ b = i1 then v else m.data a b := by
  unfold Mat.set at h
  split at h
  · rename_i hr
    simp only [Except.ok.injEq] at h
    subst h
    exact ⟨hr, rfl, rfl, rfl⟩
  · simp at h

theorem Mat.set_of_inRange {m : Mat} {i0 i1 : Int} (v : Val) (h : m.inRange i0 i1) :
    ∃ m1, m.set i0 i1 v = Except.ok m1 := by
  unfold Mat.set
  rw [if_pos h]
  exact ⟨_, rfl⟩

theorem inRange_of_inBounds_square {image : Mat} (hsq : image.rows = image.cols) {p : Pixel}
    (hb : inBounds image p) : image.inRange p.1 p.2 := by
  unfold inBounds at hb
  unfold Mat.inRange
  push_neg at hb
  omega

/-! ## Flood fill: invariants and termination -/

theorem forPixels_invariant {step : HoleFiller → Pixel → Except Fault HoleFiller}
    (I : HoleFiller → Prop) (A : Pixel → Prop)
    (hstep : ∀ hf p hf1, I hf → A p → step hf p = Except.ok hf1 → I hf1) :
    ∀ (ps : List Pixel) (hf hf1 : HoleFiller), (∀ p ∈ ps, A p) → I hf →
      forPixels step ps hf = Except.ok hf1 → I hf1 := by
  intro ps
  induction ps with
  | nil =>
    intro hf hf1 _ hI h
    simp only [forPixels, Except.ok.injEq] at h
    exact h ▸ hI
  | cons p rest ih =>
    intro hf hf1 hA hI h
    simp only [forPixels] at h
    cases hs : step hf p with
    | error e => rw [hs] at h; simp at h
    | ok hf2 =>
      rw [hs] at h
      exact ih hf2 hf1 (fun q hq => hA q (List.mem_cons_of_mem _ hq))
        (hstep hf p hf2 hI (hA p (List.mem_cons_self _ _)) hs) h

theorem FloodFill_invariant (image : Mat) (c : Int) (I : HoleFiller → Prop) (A : Pixel → Prop)
    (hconn : ∀ hf, I hf → hf.connectivity_ = c)
    (hA : ∀ p q, A p → inBounds image p → image.at p.1 p.2 = Except.ok holeVal →
      q ∈ neighborPixels c p → A q)
    (hvis : ∀ hf p, I hf → A p → INDEX p.2 p.1 image.cols ∉ hf.visitedSet →
      I { hf with visitedSet := INDEX p.2 p.1 image.cols :: hf.visitedSet })
    (hB : ∀ hf p v, I hf → A p → inBounds image p → image.at p.1 p.2 = Except.ok v → v ≠ holeVal →
      I { hf with boundaryPixelsValuesVector_ := hf.boundaryPixelsValuesVector_ ++ [v],
                  boundaryPixelsCoordinatesVector_ := hf.boundaryPixelsCoordinatesVector_ ++ [p] })
    (hH : ∀ hf p, I hf → A p → inBounds image p → image.at p.1 p.2 = Except.ok holeVal →
      I { hf with holePixelsVector_ := hf.holePixelsVector_ ++ [p] }) :
    ∀ (fuel : Nat) (hf : HoleFiller) (p : Pixel) (hf1 : HoleFiller), I hf → A p →
      FloodFill fuel image hf p = Except.ok hf1 → I hf1 := by
  intro fuel
  induction fuel with
  | zero => intro hf p hf1 _ _ h; simp [FloodFill] at h
  | succ n ih =>
    intro hf p hf1 hI hAp h
    rw [FloodFill] at h
    simp only at h
    split at h
    · simp only [Except.ok.injEq] at h; exact h ▸ hI
    · rename_i hnv
      have hI1 := hvis hf p hI hAp hnv
      split at h
      · simp only [Except.ok.injEq] at h; exact h ▸ hI1
      · rename_i hb
        split at h
        · simp at h
        · rename_i v hv
          split at h
          · rename_i hne
            simp only [Except.ok.injEq] at h
            exact h ▸ hB _ p v hI1 hAp hb hv hne
          · rename_i heq
            have heq1 : v = holeVal := by simpa using heq
            subst heq1
            have hI2 := hH _ p hI1 hAp hb hv
            refine forPixels_invariant I A (fun st q st1 hst hq hs => ih st q st1 hst hq hs)
              _ _ hf1 ?_ hI2 h
            intro q hq
            have hc := hconn _ hI2
            simp only at hc
            rw [hc] at hq
            exact hA p q hAp hb hv hq

theorem unvisited_nil (image : Mat) : unvisited image [] = image.rows * image.cols := by
  simp [unvisited]

theorem unvisited_mono (image : Mat) (vs ws : List Int) (h : vs ⊆ ws) :
    unvisited image ws ≤ unvisited image vs := by
  unfold unvisited
  apply Finset.card_le_card
  intro k hk
  simp only [Finset.mem_filter] at hk ⊢
  exact ⟨hk.1, fun hm => hk.2 (h hm)⟩

theorem INDEX_inBounds (image : Mat) (p : Pixel) (hb : inBounds image p) :
    0 ≤ INDEX p.2 p.1 image.cols ∧ (INDEX p.2 p.1 image.cols).toNat < image.rows * image.cols := by
  unfold inBounds at hb
  unfold INDEX
  push_neg at hb
  obtain ⟨h1, h2, h3, h4⟩ := hb
  have h0 : 0 ≤ p.2 * (image.cols : Int) + p.1 := by positivity
  refine ⟨h0, ?_⟩
  zify
  rw [Int.toNat_of_nonneg h0]
  nlinarith

theorem unvisited_cons_lt (image : Mat) (vs : List Int) (p : Pixel) (hb : inBounds image p)
    (hnv : INDEX p.2 p.1 image.cols ∉ vs) :
    unvisited image (INDEX p.2 p.1 image.cols :: vs) < unvisited image vs := by
  obtain ⟨h0, h1⟩ := INDEX_inBounds image p hb
  unfold unvisited
  apply Finset.card_lt_card
  rw [Finset.ssubset_iff_of_subset]
  · refine ⟨(INDEX p.2 p.1 image.cols).toNat, ?_, ?_⟩
    · simp only [Finset.mem_filter, Finset.mem_range]
      constructor
      · omega
      · rw [Int.toNat_of_nonneg h0]; exact hnv
    · simp only [Finset.mem_filter, Finset.mem_range, not_and, not_not]
      intro _
      rw [Int.toNat_of_nonneg h0]
      exact List.mem_cons_self _ _
  · intro k hk
    simp only [Finset.mem_filter] at hk ⊢
    exact ⟨hk.1, fun hm => hk.2 (List.mem_cons_of_mem _ hm)⟩

theorem FloodFill_visited_mono (image : Mat) (fuel : Nat) (hf : HoleFiller) (p : Pixel)
    (hf1 : HoleFiller) (h : FloodFill fuel image hf p = Except.ok hf1) :
    hf.visitedSet ⊆ hf1.visitedSet ∧ hf1.connectivity_ = hf.connectivity_ := by
  refine FloodFill_invariant image hf.connectivity_
    (fun st => hf.visitedSet ⊆ st.visitedSet ∧ st.connectivity_ = hf.connectivity_)
    (fun _ => True) (fun st hst => hst.2) (fun _ _ _ _ _ _ => trivial) ?_ ?_ ?_
    fuel hf p hf1 ⟨fun _ hx => hx, rfl⟩ trivial h
  · intro st q hst _ _
    exact ⟨fun k hk => List.mem_cons_of_mem _ (hst.1 hk), hst.2⟩
  · intro st q v hst _ _ _ _
    exact hst
  · intro st q hst _ _ _
    exact hst

theorem forPixels_FloodFill_fuel (image : Mat) (fuel : Nat)
    (ih : ∀ (hf : HoleFiller) (p : Pixel), unvisited image hf.visitedSet < fuel →
      FloodFill fuel image hf p ≠ Except.error Fault.outOfFuel) :
    ∀ (ps : List Pixel) (hf : HoleFiller), unvisited image hf.visitedSet < fuel →
      forPixels (fun st q => FloodFill fuel image st q) ps hf ≠ Except.error Fault.outOfFuel := by
  intro ps
  induction ps with
  | nil => intro hf _; simp [forPixels]
  | cons p rest ihl =>
    intro hf hlt
    simp only [forPixels]
    cases hs : FloodFill fuel image hf p with
    | error e =>
      simp only
      intro he
      simp only [Except.error.injEq] at he
      exact ih hf p hlt (he ▸ hs)
    | ok hf2 =>
      simp only
      apply ihl
      exact lt_of_le_of_lt
        (unvisited_mono image _ _ (FloodFill_visited_mono image fuel hf p hf2 hs).1) hlt

theorem FloodFill_fuel (image : Mat) :
    ∀ (fuel : Nat) (hf : HoleFiller) (p : Pixel), unvisited image hf.visitedSet < fuel →
      FloodFill fuel image hf p ≠ Except.error Fault.outOfFuel := by
  intro fuel
  induction fuel with
  | zero => intro hf p h; omega
  | succ n ih =>
    intro hf p hlt
    rw [FloodFill]
    simp only
    split
    · simp
    · rename_i hnv
      split
      · simp
      · rename_i hb
        split
        · rename_i e he
          rw [(Mat.at_error he).2]
          simp
        · rename_i v hv
          split
          · simp
          · apply forPixels_FloodFill_fuel image n ih
            simp only
            have := unvisited_cons_lt image hf.visitedSet p hb hnv
            omega

theorem forPixels_no_outOfRange {step : HoleFiller → Pixel → Except Fault HoleFiller}
    (hstep : ∀ hf p, step hf p ≠ Except.error Fault.outOfRange) :
    ∀ (ps : List Pixel) (hf : HoleFiller), forPixels step ps hf ≠ Except.error Fault.outOfRange := by
  intro ps
  induction ps with
  | nil => intro hf; simp [forPixels]
  | cons p rest ihl =>
    intro hf
    simp only [forPixels]
    cases hs : step hf p with
    | error e =>
      simp only
      intro he
      simp only [Except.error.injEq] at he
      exact hstep hf p (he ▸ hs)
    | ok hf2 => exact ihl hf2

theorem FloodFill_no_outOfRange (image : Mat) (hsq : image.rows = image.cols) :
    ∀ (fuel : Nat) (hf : HoleFiller) (p : Pixel),
      FloodFill fuel image hf p ≠ Except.error Fault.outOfRange := by
  intro fuel
  induction fuel with
  | zero => intro hf p; simp [FloodFill]
  | succ n ih =>
    intro hf p
    rw [FloodFill]
    simp only
    split
    · simp
    · split
      · simp
      · rename_i hb
        split
        · rename_i e he
          exact absurd (inRange_of_inBounds_square hsq hb) (Mat.at_error he).1
        · split
          · simp
          · exact forPixels_no_outOfRange (fun st q => ih st q) _ _

/-! ## Seed search -/

theorem mem_scanOrder (image : Mat) (p : Pixel) : p ∈ scanOrder image ↔ inBounds image p := by
  obtain ⟨a, b⟩ := p
  unfold scanOrder inBounds
  rw [List.mem_flatMap]
  constructor
  · rintro ⟨x, hx, hm⟩
    rw [List.mem_map] at hm
    obtain ⟨y, hy, he⟩ := hm
    rw [List.mem_range] at hx hy
    simp only [Prod.mk.injEq] at he
    simp only
    omega
  · intro h
    push_neg at h
    simp only at h
    refine ⟨a.toNat, ?_, ?_⟩
    · rw [List.mem_range]; omega
    · rw [List.mem_map]
      refine ⟨b.toNat, ?_, ?_⟩
      · rw [List.mem_range]; omega
      · simp only [Prod.mk.injEq]; omega

theorem findFirstHoleIn_ok (image : Mat) :
    ∀ (ps : List Pixel) (seed : Pixel), findFirstHoleIn image ps = Except.ok seed →
      (seed ∈ ps ∧ image.at seed.1 seed.2 = Except.ok holeVal) ∨
      (seed = (HOLE_VALUE, HOLE_VALUE) ∧ ∀ p ∈ ps, ∃ v, image.at p.1 p.2 = Except.ok v ∧ v ≠ holeVal) := by
  intro ps
  induction ps with
  | nil =>
    intro seed h
    simp only [findFirstHoleIn, Except.ok.injEq] at h
    exact Or.inr ⟨h.symm, by simp⟩
  | cons p rest ih =>
    intro seed h
    simp only [findFirstHoleIn] at h
    split at h
    · simp at h
    · rename_i v hv
      split at h
      · rename_i hhole
        simp only [Except.ok.injEq] at h
        subst h
        subst hhole
        exact Or.inl ⟨List.mem_cons_self _ _, hv⟩
      · rename_i hne
        rcases ih seed h with h1 | h1
        · exact Or.inl ⟨List.mem_cons_of_mem _ h1.1, h1.2⟩
        · refine Or.inr ⟨h1.1, ?_⟩
          intro q hq
          rcases List.mem_cons.mp hq with rfl | hq
          · exact ⟨v, hv, hne⟩
          · exact h1.2 q hq

theorem findFirstHoleIn_total (image : Mat) :
    ∀ (ps : List Pixel), (∀ p ∈ ps, image.inRange p.1 p.2) →
      ∃ seed, findFirstHoleIn image ps = Except.ok seed := by
  intro ps
  induction ps with
  | nil => intro _; exact ⟨_, rfl⟩
  | cons p rest ih =>
    intro h
    simp only [findFirstHoleIn]
    rw [Mat.at_of_inRange (h p (List.mem_cons_self _ _))]
    simp only
    split
    · exact ⟨_, rfl⟩
    · exact ih (fun q hq => h q (List.mem_cons_of_mem _ hq))

theorem FindFirstHolePixel_total (image : Mat) (hsq : image.rows = image.cols) :
    ∃ seed, FindFirstHolePixel image = Except.ok seed := by
  apply findFirstHoleIn_total
  intro p hp
  exact inRange_of_inBounds_square hsq ((mem_scanOrder image p).mp hp)

/-! ## Segmentation facts -/

theorem floodFuel_gt (image : Mat) (hf : HoleFiller) :
    unvisited image hf.visitedSet < floodFuel image := by
  have h := unvisited_mono image [] hf.visitedSet (by simp)
  rw [unvisited_nil] at h
  unfold floodFuel
  omega

theorem FindHoleAndBoundaryPixels_total (hf : HoleFiller) (image : Mat)
    (hsq : image.rows = image.cols) :
    ∃ seg, FindHoleAndBoundaryPixels hf image = Except.ok seg := by
  unfold FindHoleAndBoundaryPixels
  obtain ⟨seed, hseed⟩ := FindFirstHolePixel_total image hsq
  rw [hseed]
  simp only
  cases h : FloodFill (floodFuel image) image hf seed with
  | ok seg => exact ⟨seg, rfl⟩
  | error e =>
    cases e with
    | outOfRange => exact absurd h (FloodFill_no_outOfRange image hsq _ _ _)
    | outOfFuel => exact absurd h (FloodFill_fuel image _ _ _ (floodFuel_gt image hf))

theorem FindHoleAndBoundaryPixels_no_outOfFuel (hf : HoleFiller) (image : Mat) :
    FindHoleAndBoundaryPixels hf image ≠ Except.error Fault.outOfFuel := by
  unfold FindHoleAndBoundaryPixels
  unfold FindFirstHolePixel
  split
  · rename_i e he
    intro h
    simp only [Except.error.injEq] at h
    subst h
    have : ∀ (ps : List Pixel), findFirstHoleIn image ps ≠ Except.error Fault.outOfFuel := by
      intro ps
      induction ps with
      | nil => simp [findFirstHoleIn]
      | cons p rest ih =>
        simp only [findFirstHoleIn]
        split
        · rename_i e1 he1
          rw [(Mat.at_error he1).2]
          simp
        · split
          · simp
          · exact ih
    exact this _ he
  · exact FloodFill_fuel image _ _ _ (floodFuel_gt image hf)

theorem FloodFill_sameConfig (image : Mat) (fuel : Nat) (hf : HoleFiller) (p : Pixel)
    (hf1 : HoleFiller) (h : FloodFill fuel image hf p = Except.ok hf1) : sameConfig hf hf1 := by
  refine FloodFill_invariant image hf.connectivity_ (fun st => sameConfig hf st)
    (fun _ => True) (fun st hst => hst.2.2.1) (fun _ _ _ _ _ _ => trivial) ?_ ?_ ?_
    fuel hf p hf1 ⟨rfl, rfl, rfl, rfl, rfl⟩ trivial h
  · intro st q hst _ _; exact hst
  · intro st q v hst _ _ _ _; exact hst
  · intro st q hst _ _ _; exact hst

theorem FloodFill_holes (image : Mat) (fuel : Nat) (hf : HoleFiller) (p : Pixel)
    (hf1 : HoleFiller) (h : FloodFill fuel image hf p = Except.ok hf1)
    (P : Pixel → Prop) (h0 : ∀ q ∈ hf.holePixelsVector_, P q)
    (hP : ∀ q, inBounds image q → image.at q.1 q.2 = Except.ok holeVal → P q) :
    ∀ q ∈ hf1.holePixelsVector_, P q := by
  refine FloodFill_invariant image hf.connectivity_
    (fun st => (∀ q ∈ st.holePixelsVector_, P q) ∧ st.connectivity_ = hf.connectivity_)
    (fun _ => True) (fun st hst => hst.2) (fun _ _ _ _ _ _ => trivial) ?_ ?_ ?_
    fuel hf p hf1 ⟨h0, rfl⟩ trivial h |>.1
  · intro st q hst _ _; exact hst
  · intro st q v hst _ _ _ _; exact hst
  · intro st q hst _ hb hq
    refine ⟨?_, hst.2⟩
    intro r hr
    simp only [List.mem_append, List.mem_singleton] at hr
    rcases hr with hr | rfl
    · exact hst.1 r hr
    · exact hP r hb hq

/-! ## Exact filler -/

theorem Val.addAssoc (a b c : Val) : (a.add b).add c = a.add (b.add c) := by
  cases a <;> cases b <;> cases c <;> simp [Val.add, add_assoc]

theorem Val.addZero (a : Val) : a.add (Val.fin 0) = a := by
  cases a <;> simp [Val.add]

theorem Val.zeroAdd (a : Val) : (Val.fin 0).add a = a := by
  cases a <;> simp [Val.add]

theorem regularSums_eq (w : WeightFunctionType) (p : Pixel) (z : Int) (epsilon : ℚ) :
    ∀ (B : List (Pixel × Val)) (d : Val) (s : ℚ),
      regularSums w p z epsilon B (d, s) =
        (d.add (Val.sum (B.map (fun e => e.2.mulWeight (w p e.1 z epsilon)))),
          s + (B.map (fun e => w p e.1 z epsilon)).sum) := by
  intro B
  induction B with
  | nil => intro d s; simp [regularSums, Val.sum, Val.addZero]
  | cons e rest ih =>
    intro d s
    obtain ⟨q, v⟩ := e
    simp only [regularSums, List.map_cons, List.sum_cons, Val.sum]
    rw [ih, Val.addAssoc, add_assoc]

theorem regularValue_eq_weightedMean (hf : HoleFiller) (p : Pixel) :
    regularValue hf p = weightedMean hf.weightFunc_ p hf.z_ hf.epsilon_ hf.boundary := by
  unfold regularValue weightedMean
  simp only [regularSums_eq, Val.zeroAdd, zero_add]

theorem regularLoop_ok (hf : HoleFiller) :
    ∀ (ps : List Pixel) (m out : Mat), regularLoop hf ps m = Except.ok out →
      out.rows = m.rows ∧ out.cols = m.cols ∧
      (∀ p ∈ ps, m.inRange p.1 p.2 ∧ out.data p.1 p.2 = regularValue hf p) ∧
      (∀ c : Pixel, c ∉ ps → out.data c.1 c.2 = m.data c.1 c.2) := by
  intro ps
  induction ps with
  | nil =>
    intro m out h
    simp only [regularLoop, Except.ok.injEq] at h
    subst h
    simp
  | cons p rest ih =>
    intro m out h
    simp only [regularLoop] at h
    split at h
    · simp at h
    · rename_i m1 hset
      obtain ⟨hr, hrows, hcols, hdata⟩ := Mat.set_eq_ok hset
      obtain ⟨h1, h2, h3, h4⟩ := ih m1 out h
      refine ⟨h1.trans hrows, h2.trans hcols, ?_, ?_⟩
      · intro q hq
        by_cases hqr : q ∈ rest
        · obtain ⟨h5, h6⟩ := h3 q hqr
          refine ⟨?_, h6⟩
          unfold Mat.inRange at h5 ⊢
          rw [hrows, hcols] at h5
          exact h5
        · rcases List.mem_cons.mp hq with rfl | hq
          · refine ⟨hr, ?_⟩
            rw [h4 q hqr, hdata]
            simp
          · exact absurd hq hqr
      · intro c hc
        rw [List.mem_cons, not_or] at hc
        rw [h4 c hc.2, hdata]
        have : ¬ (c.1 = p.1 ∧ c.2 = p.2) := fun hh => hc.1 (Prod.ext hh.1 hh.2)
        simp [this]

theorem regularLoop_total (hf : HoleFiller) :
    ∀ (ps : List Pixel) (m : Mat), (∀ p ∈ ps, m.inRange p.1 p.2) →
      ∃ out, regularLoop hf ps m = Except.ok out := by
  intro ps
  induction ps with
  | nil => intro m _; exact ⟨m, rfl⟩
  | cons p rest ih =>
    intro m h
    simp only [regularLoop]
    obtain ⟨m1, hset⟩ := Mat.set_of_inRange (regularValue hf p) (h p (List.mem_cons_self _ _))
    rw [hset]
    simp only
    apply ih
    intro q hq
    obtain ⟨_, hrows, hcols, _⟩ := Mat.set_eq_ok hset
    have := h q (List.mem_cons_of_mem _ hq)
    unfold Mat.inRange at this ⊢
    rw [hrows, hcols]
    exact this

theorem FindHoleAndBoundaryPixels_ok {hf seg : HoleFiller} {image : Mat}
    (h : FindHoleAndBoundaryPixels hf image = Except.ok seg) :
    ∃ seed, FindFirstHolePixel image = Except.ok seed ∧
      FloodFill (floodFuel image) image hf seed = Except.ok seg := by
  unfold FindHoleAndBoundaryPixels at h
  split at h
  · simp at h
  · rename_i seed hseed
    exact ⟨seed, hseed, h⟩

theorem FindHoleAndBoundaryPixels_sameConfig {hf seg : HoleFiller} {image : Mat}
    (h : FindHoleAndBoundaryPixels hf image = Except.ok seg) : sameConfig hf seg := by
  obtain ⟨seed, _, hff⟩ := FindHoleAndBoundaryPixels_ok h
  exact FloodFill_sameConfig image _ hf seed seg hff

theorem FindHoleAndBoundaryPixels_holes {hf seg : HoleFiller} {image : Mat}
    (h : FindHoleAndBoundaryPixels hf image = Except.ok seg)
    (h0 : hf.holePixelsVector_ = []) :
    ∀ q ∈ seg.holePixelsVector_, inBounds image q ∧ image.at q.1 q.2 = Except.ok holeVal := by
  obtain ⟨seed, _, hff⟩ := FindHoleAndBoundaryPixels_ok h
  exact FloodFill_holes image _ hf seed seg hff _ (by simp [h0]) (fun q hb hq => ⟨hb, hq⟩)

theorem FillImage_exact_ok {hf hf1 : HoleFiller} {image out : Mat}
    (halg : hf.algorithmType = ALGORITHM_OPTION_ONE)
    (h : FillImage hf image = Except.ok (out, hf1)) :
    ∃ seg, FindHoleAndBoundaryPixels hf image = Except.ok seg ∧
      regularLoop seg seg.holePixelsVector_ image = Except.ok out ∧ hf1 = ClearFields seg := by
  unfold FillImage at h
  simp only at h
  split at h
  · simp at h
  · rename_i seg hseg
    refine ⟨seg, hseg, ?_⟩
    have hcfg := FindHoleAndBoundaryPixels_sameConfig hseg
    have halg1 : seg.algorithmType = ALGORITHM_OPTION_ONE := hcfg.2.2.2.1.trans halg
    unfold runAlgorithm at h
    rw [if_pos halg1] at h
    unfold RegularAlgorithm at h
    cases hl : regularLoop seg seg.holePixelsVector_ image with
    | error e => rw [hl] at h; simp at h
    | ok out1 =>
      rw [hl] at h
      simp only [Except.ok.injEq, Prod.mk.injEq] at h
      rw [h.1]
      exact ⟨rfl, h.2.symm⟩

theorem FillImage_exact_total (hf : HoleFiller) (image : Mat)
    (halg : hf.algorithmType = ALGORITHM_OPTION_ONE) (h0 : hf.holePixelsVector_ = [])
    (hsq : image.rows = image.cols) :
    ∃ out hf1, FillImage hf image = Except.ok (out, hf1) := by
  obtain ⟨seg, hseg⟩ := FindHoleAndBoundaryPixels_total hf image hsq
  have hcfg := FindHoleAndBoundaryPixels_sameConfig hseg
  have halg1 : seg.algorithmType = ALGORITHM_OPTION_ONE := hcfg.2.2.2.1.trans halg
  obtain ⟨out, hout⟩ := regularLoop_total seg seg.holePixelsVector_ image
    (fun p hp => inRange_of_inBounds_square hsq (FindHoleAndBoundaryPixels_holes hseg h0 p hp).1)
  refine ⟨out, ClearFields seg, ?_⟩
  unfold FillImage
  simp only
  rw [hseg]
  simp only
  unfold runAlgorithm
  rw [if_pos halg1]
  unfold RegularAlgorithm
  rw [hout]

theorem exact_output_at_hole {hf hf1 seg : HoleFiller} {image out : Mat}
    (halg : hf.algorithmType = ALGORITHM_OPTION_ONE)
    (h : FillImage hf image = Except.ok (out, hf1))
    (hseg : FindHoleAndBoundaryPixels hf image = Except.ok seg) :
    ∀ p ∈ seg.holePixelsVector_,
      out.at p.1 p.2 = Except.ok (weightedMean hf.weightFunc_ p hf.z_ hf.epsilon_ seg.boundary) := by
  obtain ⟨seg1, hseg1, hloop, _⟩ := FillImage_exact_ok halg h
  rw [hseg] at hseg1
  simp only [Except.ok.injEq] at hseg1
  subst hseg1
  obtain ⟨hrows, hcols, hin, _⟩ := regularLoop_ok seg _ _ _ hloop
  have hcfg := FindHoleAndBoundaryPixels_sameConfig hseg
  intro p hp
  obtain ⟨hr, hd⟩ := hin p hp
  have hr1 : out.inRange p.1 p.2 := by
    unfold Mat.inRange at hr ⊢
    rw [hrows, hcols]
    exact hr
  rw [Mat.at_of_inRange hr1, hd, regularValue_eq_weightedMean, hcfg.1, hcfg.2.1, hcfg.2.2.2.2]

theorem segmentation_imageGradient3 (w : WeightFunctionType) :
    (FindHoleAndBoundaryPixels (HoleFiller.new 2 (1 / 100) 4 1 w) imageGradient3).map
        (fun hf => (hf.holePixelsVector_, hf.boundary)) =
      Except.ok ([(1, 1)], [((2, 1), Val.fin 100), ((0, 1), Val.fin 0),
        ((1, 2), Val.fin 50), ((1, 0), Val.fin 50)]) := rfl

/-- Where neither `std::pow` nor the sum overflows, the weight is `1 / (d ^ z + ε)`. -/
theorem GetWeight_finite (sqrt : ℚ → ℚ) (p q : Pixel) (z : Int) (epsilon : ℚ)
    (h0 : ¬ (EuclideanDistance sqrt p q = 0 ∧ z < 0))
    (h1 : EuclideanDistance sqrt p q ^ z ≤ DBL_MAX)
    (h2 : EuclideanDistance sqrt p q ^ z + epsilon ≤ DBL_MAX) :
    GetWeight sqrt p q z epsilon = 1 / (EuclideanDistance sqrt p q ^ z + epsilon) := by
  unfold GetWeight std_pow
  simp only
  rw [if_neg h0, if_neg (not_lt.mpr h1)]
  simp only
  rw [if_neg (not_lt.mpr h2)]

theorem DBL_MAX_pos : (0 : ℚ) < DBL_MAX := by
  unfold DBL_MAX
  norm_num

theorem GetWeight_unit_distance (sqrt : ℚ → ℚ) (p q : Pixel)
    (hd : EuclideanDistance sqrt p q = 1) : GetWeight sqrt p q 2 (1 / 100) = 100 / 101 := by
  rw [GetWeight_finite sqrt p q 2 (1 / 100) (by rw [hd]; norm_num)
    (by rw [hd]; unfold DBL_MAX; norm_num) (by rw [hd]; unfold DBL_MAX; norm_num), hd]
  norm_num

/-- C1. Exact algorithm: whenever `FillImage` returns, every pixel of the segmented hole
vector holds the weighted mean `(Σ w·v) / (Σ w)` over all segmented boundary entries; on
every square image `FillImage` does return; and on the 3×3 gradient image (centre `-1`,
top row `0`, bottom row `100`, sides `50`, `z = 2`, `ε = 0.01`, connectivity 4) the centre
becomes `50`. -/
theorem exact_fill_is_weighted_mean :
    (∀ (image : Mat) (z : Int) (epsilon : ℚ) (connectivity : Int) (w : WeightFunctionType)
        (out : Mat) (hf1 : HoleFiller),
        FillImage (HoleFiller.new z epsilon connectivity ALGORITHM_OPTION_ONE w) image
            = Except.ok (out, hf1) →
        ∃ seg, FindHoleAndBoundaryPixels
            (HoleFiller.new z epsilon connectivity ALGORITHM_OPTION_ONE w) image = Except.ok seg ∧
          ∀ p ∈ seg.holePixelsVector_,
            out.at p.1 p.2 = Except.ok (weightedMean w p z epsilon seg.boundary)) ∧
    (∀ (image : Mat) (z : Int) (epsilon : ℚ) (connectivity : Int) (w : WeightFunctionType),
        image.rows = image.cols →
        ∃ out hf1, FillImage (HoleFiller.new z epsilon connectivity ALGORITHM_OPTION_ONE w) image
            = Except.ok (out, hf1)) ∧
    (∀ sqrt : ℚ → ℚ, sqrt 1 = 1 →
        outputAt (FillImage (HoleFiller.new 2 (1 / 100) 4 1 (GetWeight sqrt)) imageGradient3) 1 1
          = some (Val.fin 50)) := by
  refine ⟨?_, ?_, ?_⟩
  · intro image z epsilon connectivity w out hf1 h
    obtain ⟨seg, hseg, _, _⟩ := FillImage_exact_ok rfl h
    exact ⟨seg, hseg, exact_output_at_hole rfl h hseg⟩
  · intro image z epsilon connectivity w hsq
    exact FillImage_exact_total _ image rfl rfl hsq
  · intro sqrt hsqrt
    obtain ⟨out, hf1, h⟩ := FillImage_exact_total
      (HoleFiller.new 2 (1 / 100) 4 1 (GetWeight sqrt)) imageGradient3 rfl rfl rfl
    obtain ⟨seg, hseg, _, _⟩ := FillImage_exact_ok rfl h
    have hs := segmentation_imageGradient3 (GetWeight sqrt)
    rw [hseg] at hs
    simp only [Except.map, Except.ok.injEq, Prod.mk.injEq] at hs
    have hp : ((1, 1) : Pixel) ∈ seg.holePixelsVector_ := by rw [hs.1]; simp
    have hv := exact_output_at_hole rfl h hseg (1, 1) hp
    rw [h]
    simp only [outputAt]
    rw [hv, hs.2]
    have hw : ∀ q : Pixel, (((q.1 - 1 : Int) : ℚ) * ((q.1 - 1 : Int) : ℚ)
        + ((q.2 - 1 : Int) : ℚ) * ((q.2 - 1 : Int) : ℚ)) = 1 →
        GetWeight sqrt (1, 1) q 2 (1 / 100) = 100 / 101 := by
      intro q hq
      apply GetWeight_unit_distance
      unfold EuclideanDistance
      simp only
      rw [hq, hsqrt]
    simp only [HoleFiller.new, weightedMean, List.map_cons, List.map_nil, Val.sum, Val.mulWeight,
      Val.add, List.sum_cons, List.sum_nil, Except.toOption]
    rw [hw (2, 1) (by norm_num), hw (0, 1) (by norm_num), hw (1, 2) (by norm_num),
      hw (1, 0) (by norm_num)]
    norm_num [Val.divBy]

theorem Mat.at_congr {m n : Mat} {i0 i1 : Int} (hr : m.rows = n.rows) (hc : m.cols = n.cols)
    (hd : m.data i0 i1 = n.data i0 i1) : m.at i0 i1 = n.at i0 i1 := by
  have hiff : m.inRange i0 i1 ↔ n.inRange i0 i1 := by
    unfold Mat.inRange
    rw [hr, hc]
  unfold Mat.at
  by_cases h : n.inRange i0 i1
  · rw [if_pos h, if_pos (hiff.mpr h), hd]
  · rw [if_neg h, if_neg (fun hm => h (hiff.mp hm))]

/-! ## Boundary entries and hole component -/

theorem FloodFill_boundary (image : Mat) (fuel : Nat) (hf : HoleFiller) (p : Pixel)
    (hf1 : HoleFiller) (h : FloodFill fuel image hf p = Except.ok hf1)
    (P : Pixel × Val → Prop)
    (hlen : hf.boundaryPixelsCoordinatesVector_.length = hf.boundaryPixelsValuesVector_.length)
    (h0 : ∀ e ∈ hf.boundary, P e)
    (hP : ∀ q v, inBounds image q → image.at q.1 q.2 = Except.ok v → v ≠ holeVal → P (q, v)) :
    hf1.boundaryPixelsCoordinatesVector_.length = hf1.boundaryPixelsValuesVector_.length ∧
      ∀ e ∈ hf1.boundary, P e := by
  have key := FloodFill_invariant image hf.connectivity_
    (fun st => (st.boundaryPixelsCoordinatesVector_.length = st.boundaryPixelsValuesVector_.length ∧
      ∀ e ∈ st.boundary, P e) ∧ st.connectivity_ = hf.connectivity_)
    (fun _ => True) (fun st hst => hst.2) (fun _ _ _ _ _ _ => trivial) ?_ ?_ ?_
    fuel hf p hf1 ⟨⟨hlen, h0⟩, rfl⟩ trivial h
  · exact key.1
  · intro st q hst _ _; exact hst
  · intro st q v hst _ hb hv hne
    refine ⟨⟨?_, ?_⟩, hst.2⟩
    · simp only [List.length_append, List.length_singleton, hst.1.1]
    · intro e he
      unfold HoleFiller.boundary at he
      simp only at he
      rw [List.zip_append hst.1.1] at he
      simp only [List.zip_cons_cons, List.zip_nil_right, List.mem_append, List.mem_singleton] at he
      rcases he with he | rfl
      · exact hst.1.2 e he
      · exact hP q v hb hv hne
  · intro st q hst _ _ _; exact hst

theorem FloodFill_reach (image : Mat) (fuel : Nat) (hf : HoleFiller) (seed : Pixel)
    (hf1 : HoleFiller) (h : FloodFill fuel image hf seed = Except.ok hf1)
    (h0 : hf.holePixelsVector_ = []) :
    ∀ q ∈ hf1.holePixelsVector_, HoleReach image hf.connectivity_ seed q := by
  have hA : ∀ p : Pixel,
      (p = seed ∨ ∃ r, HoleReach image hf.connectivity_ seed r ∧ p ∈ neighborPixels hf.connectivity_ r) →
      image.at p.1 p.2 = Except.ok holeVal → HoleReach image hf.connectivity_ seed p := by
    intro p hp hv
    rcases hp with rfl | ⟨r, hr, hm⟩
    · exact HoleReach.seed hv
    · exact HoleReach.step r p hr hm hv
  have key := FloodFill_invariant image hf.connectivity_
    (fun st => (∀ q ∈ st.holePixelsVector_, HoleReach image hf.connectivity_ seed q) ∧
      st.connectivity_ = hf.connectivity_)
    (fun p => p = seed ∨
      ∃ r, HoleReach image hf.connectivity_ seed r ∧ p ∈ neighborPixels hf.connectivity_ r)
    (fun st hst => hst.2) ?_ ?_ ?_ ?_
    fuel hf seed hf1 ⟨by simp [h0], rfl⟩ (Or.inl rfl) h
  · exact key.1
  · intro p q hp _ hv hq
    exact Or.inr ⟨p, hA p hp hv, hq⟩
  · intro st q hst _ _; exact hst
  · intro st q v hst _ _ _ _; exact hst
  · intro st q hst hq _ hv
    refine ⟨?_, hst.2⟩
    intro r hr
    simp only [List.mem_append, List.mem_singleton] at hr
    rcases hr with hr | rfl
    · exact hst.1 r hr
    · exact hA r hq hv

/-- C2. Exact algorithm: whenever `FillImage` returns, the returned image has the
dimensions of the input and, at every coordinate outside the hole component of the seed,
exactly the input's sample; on every square image `FillImage` does return. -/
theorem exact_fill_preserves_outside_hole :
    (∀ (image : Mat) (z : Int) (epsilon : ℚ) (connectivity : Int) (w : WeightFunctionType)
        (out : Mat) (hf1 : HoleFiller) (seed : Pixel),
        FillImage (HoleFiller.new z epsilon connectivity ALGORITHM_OPTION_ONE w) image
            = Except.ok (out, hf1) →
        FindFirstHolePixel image = Except.ok seed →
        out.rows = image.rows ∧ out.cols = image.cols ∧
        ∀ c : Pixel, ¬ HoleReach image connectivity seed c →
          out.at c.1 c.2 = image.at c.1 c.2) ∧
    (∀ (image : Mat) (z : Int) (epsilon : ℚ) (connectivity : Int) (w : WeightFunctionType),
        image.rows = image.cols →
        ∃ out hf1 seed,
          FillImage (HoleFiller.new z epsilon connectivity ALGORITHM_OPTION_ONE w) image
            = Except.ok (out, hf1) ∧ FindFirstHolePixel image = Except.ok seed) := by
  refine ⟨?_, ?_⟩
  · intro image z epsilon connectivity w out hf1 seed h hseed
    obtain ⟨seg, hseg, hloop, _⟩ := FillImage_exact_ok rfl h
    obtain ⟨seed1, hseed1, hff⟩ := FindHoleAndBoundaryPixels_ok hseg
    rw [hseed] at hseed1
    simp only [Except.ok.injEq] at hseed1
    subst hseed1
    have hreach := FloodFill_reach image _ _ seed seg hff rfl
    obtain ⟨hrows, hcols, _, hout⟩ := regularLoop_ok seg _ _ _ hloop
    refine ⟨hrows, hcols, ?_⟩
    intro c hc
    have hnot : c ∉ seg.holePixelsVector_ := fun hm => hc (hreach c hm)
    exact Mat.at_congr hrows hcols (hout c hnot)
  · intro image z epsilon connectivity w hsq
    obtain ⟨out, hf1, h⟩ := FillImage_exact_total
      (HoleFiller.new z epsilon connectivity ALGORITHM_OPTION_ONE w) image rfl rfl hsq
    obtain ⟨seed, hseed⟩ := FindFirstHolePixel_total image hsq
    exact ⟨out, hf1, seed, h, hseed⟩

/-! ## Bounds of the weighted mean -/

theorem weighted_sums_bounds (w : WeightFunctionType) (p : Pixel) (z : Int) (epsilon : ℚ)
    (lo hi : ℚ) :
    ∀ (B : List (Pixel × Val)),
      (∀ e ∈ B, 0 < w p e.1 z epsilon) →
      (∀ e ∈ B, ∃ q, e.2 = Val.fin q ∧ lo ≤ q ∧ q ≤ hi) →
      ∃ S, Val.sum (B.map (fun e => e.2.mulWeight (w p e.1 z epsilon))) = Val.fin S ∧
        lo * (B.map (fun e => w p e.1 z epsilon)).sum ≤ S ∧
        S ≤ hi * (B.map (fun e => w p e.1 z epsilon)).sum ∧
        0 ≤ (B.map (fun e => w p e.1 z epsilon)).sum ∧
        (B ≠ [] → 0 < (B.map (fun e => w p e.1 z epsilon)).sum) := by
  intro B
  induction B with
  | nil => intro _ _; exact ⟨0, by simp [Val.sum]⟩
  | cons e rest ih =>
    intro hw hv
    obtain ⟨S, hS, h1, h2, h3, _⟩ := ih (fun x hx => hw x (List.mem_cons_of_mem _ hx))
      (fun x hx => hv x (List.mem_cons_of_mem _ hx))
    obtain ⟨q, hq, hlo, hhi⟩ := hv e (List.mem_cons_self _ _)
    have hwe := hw e (List.mem_cons_self _ _)
    refine ⟨q * w p e.1 z epsilon + S, ?_, ?_, ?_, ?_, ?_⟩
    · simp only [List.map_cons, Val.sum, hS, hq]
      rfl
    · simp only [List.map_cons, List.sum_cons]
      nlinarith
    · simp only [List.map_cons, List.sum_cons]
      nlinarith
    · simp only [List.map_cons, List.sum_cons]
      linarith
    · intro _
      simp only [List.map_cons, List.sum_cons]
      linarith

theorem weightedMean_bounds (w : WeightFunctionType) (p : Pixel) (z : Int) (epsilon : ℚ)
    (lo hi : ℚ) (B : List (Pixel × Val)) (hB : B ≠ [])
    (hw : ∀ e ∈ B, 0 < w p e.1 z epsilon)
    (hv : ∀ e ∈ B, ∃ q, e.2 = Val.fin q ∧ lo ≤ q ∧ q ≤ hi) :
    ∃ u, weightedMean w p z epsilon B = Val.fin u ∧ lo ≤ u ∧ u ≤ hi := by
  obtain ⟨S, hS, h1, h2, _, h4⟩ := weighted_sums_bounds w p z epsilon lo hi B hw hv
  have hpos := h4 hB
  refine ⟨S / (B.map (fun e => w p e.1 z epsilon)).sum, ?_, ?_, ?_⟩
  · unfold weightedMean
    rw [hS]
    simp only [Val.divBy]
    rw [if_neg (ne_of_gt hpos)]
  · rw [le_div_iff₀ hpos]; exact h1
  · rw [div_le_iff₀ hpos]; exact h2

theorem segmentation_imageConst3 (w : WeightFunctionType) :
    (FindHoleAndBoundaryPixels (HoleFiller.new 2 (1 / 100) 4 1 w) imageConst3).map
        (fun hf => (hf.holePixelsVector_, hf.boundary)) =
      Except.ok ([(1, 1)], [((2, 1), Val.fin 10), ((0, 1), Val.fin 10),
        ((1, 2), Val.fin 10), ((1, 0), Val.fin 10)]) := rfl

/-- Instance of C1 at the gradient image, with the constant `1` standing for `std::sqrt`
on the only argument it receives there. -/
theorem exact_fill_is_weighted_mean_witness :
    outputAt (FillImage (HoleFiller.new 2 (1 / 100) 4 1 (GetWeight (fun _ => 1))) imageGradient3) 1 1
      = some (Val.fin 50) :=
  exact_fill_is_weighted_mean.2.2 (fun _ => 1) rfl

/-! ## Flood fill at the image border -/

/-- C7 (failing input). On `imageBorderHole` with connectivity 4 the seed is `(0, 0)` and
the sentinel pixel `(0, 1)` is its neighbour, yet the hole vector after
`FindHoleAndBoundaryPixels` is `[(0,0), (1,0), (2,0)]`: `(0, 1)` is missing, because the
out-of-bounds neighbour `(3, 0)` of `(2, 0)` marked its linear index `3` as visited. -/
theorem floodfill_misses_hole_pixel :
    FindFirstHolePixel imageBorderHole = Except.ok (0, 0) ∧
    HoleReach imageBorderHole 4 (0, 0) (0, 1) ∧
    (FindHoleAndBoundaryPixels (HoleFiller.new 2 (1 / 100) 4 1 unitWeight) imageBorderHole).map
        (fun hf => hf.holePixelsVector_) = Except.ok [(0, 0), (1, 0), (2, 0)] ∧
    INDEX 0 3 imageBorderHole.cols = INDEX 1 0 imageBorderHole.cols := by
  refine ⟨by decide!, ?_, by decide!, by decide!⟩
  exact HoleReach.step (0, 0) (0, 1) (HoleReach.seed (by decide!)) (by decide!) (by decide!)

/-- C8 (failing input). On `imageBorderColumn` with connectivity 4 the hole vector is
column `0` and the sample pixel `(0, 1)` (value `1`) is a neighbour of the hole pixel
`(0, 0)`, yet the boundary after `FindHoleAndBoundaryPixels` is `[(2,1), (1,1)]`:
`(0, 1)` is not reported. -/
theorem floodfill_misses_boundary_pixel :
    (FindHoleAndBoundaryPixels (HoleFiller.new 2 (1 / 100) 4 1 unitWeight) imageBorderColumn).map
        (fun hf => (hf.holePixelsVector_, hf.boundary)) =
      Except.ok ([(0, 0), (1, 0), (2, 0)], [((2, 1), Val.fin 5), ((1, 1), Val.fin 3)]) ∧
    ((0, 1) : Pixel) ∈ neighborPixels 4 (0, 0) ∧
    imageBorderColumn.at 0 1 = Except.ok (Val.fin 1) := by
  refine ⟨by decide!, by decide!, by decide!⟩

/-- C4 (failing input). On `imageBorderHole` with the Exact algorithm, connectivity 4 and
the unit weight function, `FillImage` returns an image that still holds the sentinel at
`(0, 1)`, a sentinel pixel of the seed's hole component; all samples are non-negative. -/
theorem fill_leaves_sentinel_in_hole :
    FindFirstHolePixel imageBorderHole = Except.ok (0, 0) ∧
    HoleReach imageBorderHole 4 (0, 0) (0, 1) ∧
    outputAt (FillImage (HoleFiller.new 2 (1 / 100) 4 1 unitWeight) imageBorderHole) 0 1
      = some holeVal ∧
    outputAt (FillImage (HoleFiller.new 2 (1 / 100) 4 1 unitWeight) imageBorderHole) 0 0
      = some (Val.fin 9) := by
  refine ⟨by decide!, ?_, by decide!, by decide!⟩
  exact HoleReach.step (0, 0) (0, 1) (HoleReach.seed (by decide!)) (by decide!) (by decide!)

/-! ## Iterative filler: one pixel update -/

theorem sameButLayerMap_refl (hf : HoleFiller) : sameButLayerMap hf hf :=
  ⟨hf.layerMap, rfl, fun _ => rfl⟩

theorem sameButLayerMap_trans {a b c : HoleFiller} (h1 : sameButLayerMap a b)
    (h2 : sameButLayerMap b c) : sameButLayerMap a c := by
  obtain ⟨lm1, rfl, hl1⟩ := h1
  obtain ⟨lm2, rfl, hl2⟩ := h2
  exact ⟨lm2, rfl, fun k => (hl2 k).trans (hl1 k)⟩

theorem sameButLayerMap_layerOf {a b : HoleFiller} (h : sameButLayerMap a b) (cols : Nat)
    (q : Pixel) : layerOf cols b q = layerOf cols a q := by
  obtain ⟨lm, rfl, hl⟩ := h
  exact hl _

theorem layerMapIndex_spec (hf : HoleFiller) (k : Int) :
    (layerMapIndex hf k).1 = (hf.layerMap k).getD 0 ∧ sameButLayerMap hf (layerMapIndex hf k).2 := by
  unfold layerMapIndex
  cases h : hf.layerMap k with
  | some v => exact ⟨rfl, sameButLayerMap_refl hf⟩
  | none =>
    refine ⟨rfl, _, rfl, ?_⟩
    intro j
    by_cases hj : j = k
    · subst hj; simp [h]
    · simp [hj]

theorem IsPixelAffecting_ok {m : Mat} {hf hf1 : HoleFiller} {q : Pixel} {K : Int} {b : Bool}
    (h : IsPixelAffecting m hf q K = Except.ok (b, hf1)) :
    m.inRange q.1 q.2 ∧ sameButLayerMap hf hf1 ∧
      (b = true ↔ (m.data q.1 q.2 ≠ holeVal ∧ layerOf m.cols hf q ≤ K)) := by
  unfold IsPixelAffecting at h
  simp only at h
  split at h
  · simp at h
  · rename_i v hv
    obtain ⟨hr, hd⟩ := Mat.at_eq_ok hv
    obtain ⟨hl1, hl2⟩ := layerMapIndex_spec hf (INDEX q.2 q.1 m.cols)
    split at h
    · rename_i hne
      split at h
      · rename_i hle
        simp only [Except.ok.injEq, Prod.mk.injEq] at h
        refine ⟨hr, h.2 ▸ hl2, ?_⟩
        rw [← h.1, hd]
        simp only [true_iff]
        refine ⟨hne, ?_⟩
        unfold layerOf
        rw [← hl1]
        exact hle
      · rename_i hle
        simp only [Except.ok.injEq, Prod.mk.injEq] at h
        refine ⟨hr, h.2 ▸ hl2, ?_⟩
        rw [← h.1, hd]
        simp only [Bool.false_eq_true, false_iff, not_and]
        intro _
        unfold layerOf
        rw [← hl1]
        exact hle
    · rename_i hne
      simp only [Except.ok.injEq, Prod.mk.injEq] at h
      refine ⟨hr, h.2 ▸ sameButLayerMap_refl hf, ?_⟩
      rw [← h.1, hd]
      simp only [Bool.false_eq_true, false_iff, not_and]
      intro h1
      exact absurd h1 hne

/-- Contribution of one neighbour to the two sums. -/
theorem CalculatePixelAffect_ok {m : Mat} {p q : Pixel} {K : Int} {s s1 : Sums}
    (h : CalculatePixelAffect m p K q s = Except.ok s1) :
    m.inRange q.1 q.2 ∧ sameButLayerMap s.hf s1.hf ∧
      ((m.data q.1 q.2 ≠ holeVal ∧ layerOf m.cols s.hf q ≤ K) →
        s1.dividendSum = s.dividendSum.add
          ((m.data q.1 q.2).mulWeight (s.hf.weightFunc_ p q s.hf.z_ s.hf.epsilon_)) ∧
        s1.divisorSum = s.divisorSum + s.hf.weightFunc_ p q s.hf.z_ s.hf.epsilon_) ∧
      (¬ (m.data q.1 q.2 ≠ holeVal ∧ layerOf m.cols s.hf q ≤ K) →
        s1.dividendSum = s.dividendSum ∧ s1.divisorSum = s.divisorSum) := by
  unfold CalculatePixelAffect at h
  simp only at h
  split at h
  · simp at h
  · rename_i hf1 hip
    obtain ⟨hr, hsame, hb⟩ := IsPixelAffecting_ok hip
    rw [Mat.at_of_inRange hr] at h
    simp only [Except.ok.injEq] at h
    subst h
    obtain ⟨lm, rfl, _⟩ := hsame
    refine ⟨hr, ⟨lm, rfl, by assumption⟩, ?_, ?_⟩
    · intro _
      exact ⟨rfl, rfl⟩
    · intro hn
      exact absurd (hb.mp rfl) hn
  · rename_i hf1 hip
    obtain ⟨hr, hsame, hb⟩ := IsPixelAffecting_ok hip
    simp only [Except.ok.injEq] at h
    subst h
    refine ⟨hr, hsame, ?_, ?_⟩
    · intro hc
      have := hb.mpr hc
      simp at this
    · intro _
      exact ⟨rfl, rfl⟩

theorem affectLoop_ok {m : Mat} {p : Pixel} {K : Int} :
    ∀ (qs : List Pixel) (s s1 : Sums), affectLoop m p K qs s = Except.ok s1 →
      (∀ q ∈ qs, m.inRange q.1 q.2) ∧ sameButLayerMap s.hf s1.hf ∧
      s1.dividendSum = s.dividendSum.add (Val.sum ((qs.filterMap (fun q =>
        if m.data q.1 q.2 ≠ holeVal ∧ layerOf m.cols s.hf q ≤ K
        then some (q, m.data q.1 q.2) else none)).map
          (fun e => e.2.mulWeight (s.hf.weightFunc_ p e.1 s.hf.z_ s.hf.epsilon_)))) ∧
      s1.divisorSum = s.divisorSum + ((qs.filterMap (fun q =>
        if m.data q.1 q.2 ≠ holeVal ∧ layerOf m.cols s.hf q ≤ K
        then some (q, m.data q.1 q.2) else none)).map
          (fun e => s.hf.weightFunc_ p e.1 s.hf.z_ s.hf.epsilon_)).sum := by
  intro qs
  induction qs with
  | nil =>
    intro s s1 h
    simp only [affectLoop, Except.ok.injEq] at h
    subst h
    simp [sameButLayerMap_refl, Val.sum, Val.addZero]
  | cons q rest ih =>
    intro s s1 h
    simp only [affectLoop] at h
    split at h
    · simp at h
    · rename_i s2 hc
      obtain ⟨hr, hsame, hyes, hno⟩ := CalculatePixelAffect_ok hc
      obtain ⟨hrs, hsame2, hd, hs⟩ := ih s2 s1 h
      have hlay : ∀ r, layerOf m.cols s2.hf r = layerOf m.cols s.hf r :=
        fun r => sameButLayerMap_layerOf hsame m.cols r
      have hw : s2.hf.weightFunc_ = s.hf.weightFunc_ ∧ s2.hf.z_ = s.hf.z_ ∧
          s2.hf.epsilon_ = s.hf.epsilon_ := by
        obtain ⟨lm, he, _⟩ := hsame
        rw [he]
        exact ⟨rfl, rfl, rfl⟩
      simp only [hlay, hw.1, hw.2.1, hw.2.2] at hd hs
      refine ⟨?_, sameButLayerMap_trans hsame hsame2, ?_, ?_⟩
      · intro r hr1
        rcases List.mem_cons.mp hr1 with rfl | hr1
        · exact hr
        · exact hrs r hr1
      · by_cases hcond : m.data q.1 q.2 ≠ holeVal ∧ layerOf m.cols s.hf q ≤ K
        · rw [hd, (hyes hcond).1, List.filterMap_cons_some (by rw [if_pos hcond])]
          simp only [List.map_cons, Val.sum]
          rw [Val.addAssoc]
        · rw [hd, (hno hcond).1, List.filterMap_cons_none (by rw [if_neg hcond])]
      · by_cases hcond : m.data q.1 q.2 ≠ holeVal ∧ layerOf m.cols s.hf q ≤ K
        · rw [hs, (hyes hcond).2, List.filterMap_cons_some (by rw [if_pos hcond])]
          simp only [List.map_cons, List.sum_cons]
          rw [add_assoc]
        · rw [hs, (hno hcond).2, List.filterMap_cons_none (by rw [if_neg hcond])]

/-- Effect of one pixel update of the iterative filler. -/
theorem updatePixel_ok {image m m1 : Mat} {hf hf1 : HoleFiller} {p : Pixel}
    (hcols : m.cols = image.cols)
    (h : updatePixel image (m, hf) p = Except.ok (m1, hf1)) :
    m.inRange p.1 p.2 ∧ (∀ q ∈ neighborPixels hf.connectivity_ p, m.inRange q.1 q.2) ∧
      sameButLayerMap hf hf1 ∧ m1.rows = m.rows ∧ m1.cols = m.cols ∧
      m1.data p.1 p.2 = weightedMean hf.weightFunc_ p hf.z_ hf.epsilon_ (contributing m hf p) ∧
      (∀ c : Pixel, c ≠ p → m1.data c.1 c.2 = m.data c.1 c.2) := by
  unfold updatePixel at h
  simp only at h
  obtain ⟨hl1, hl2⟩ := layerMapIndex_spec hf (INDEX p.2 p.1 image.cols)
  split at h
  · simp at h
  · rename_i s hloop
    obtain ⟨hrs, hsame, hd, hs⟩ := affectLoop_ok _ _ _ hloop
    simp only at hrs hsame hd hs
    split at h
    · simp at h
    · rename_i m2 hset
      simp only [Except.ok.injEq, Prod.mk.injEq] at h
      obtain ⟨hr, hrows, hcs, hdata⟩ := Mat.set_eq_ok hset
      obtain ⟨rfl, rfl⟩ := h
      have hcfg : (layerMapIndex hf (INDEX p.2 p.1 image.cols)).2.connectivity_ = hf.connectivity_ ∧
          (layerMapIndex hf (INDEX p.2 p.1 image.cols)).2.weightFunc_ = hf.weightFunc_ ∧
          (layerMapIndex hf (INDEX p.2 p.1 image.cols)).2.z_ = hf.z_ ∧
          (layerMapIndex hf (INDEX p.2 p.1 image.cols)).2.epsilon_ = hf.epsilon_ := by
        obtain ⟨lm, he, _⟩ := hl2
        rw [he]
        exact ⟨rfl, rfl, rfl, rfl⟩
      have hlay : ∀ r, layerOf m.cols (layerMapIndex hf (INDEX p.2 p.1 image.cols)).2 r
          = layerOf m.cols hf r := fun r => sameButLayerMap_layerOf hl2 m.cols r
      rw [hcfg.1] at hrs
      refine ⟨hr, hrs, sameButLayerMap_trans hl2 hsame, hrows, hcs, ?_, ?_⟩
      · rw [hdata]
        simp only [and_self, if_true]
        rw [hd, hs]
        simp only [hlay, hcfg.1, hcfg.2.1, hcfg.2.2.1, hcfg.2.2.2, Val.zeroAdd, zero_add, hl1]
        unfold weightedMean contributing layerOf
        rw [hcols]
      · intro c hc
        rw [hdata]
        have : ¬ (c.1 = p.1 ∧ c.2 = p.2) := fun hh => hc (Prod.ext hh.1 hh.2)
        simp [this]

/-! ## Iterative filler: sweeps -/

theorem updateLayer_invariant (image : Mat) (J : Mat × HoleFiller → Prop) (P : Pixel → Prop)
    (hJ : ∀ st p st1, J st → P p → updatePixel image st p = Except.ok st1 → J st1) :
    ∀ (ps : List Pixel) (st st1 : Mat × HoleFiller), (∀ p ∈ ps, P p) → J st →
      updateLayer image ps st = Except.ok st1 → J st1 := by
  intro ps
  induction ps with
  | nil =>
    intro st st1 _ hst h
    simp only [updateLayer, Except.ok.injEq] at h
    exact h ▸ hst
  | cons p rest ih =>
    intro st st1 hP hst h
    simp only [updateLayer] at h
    split at h
    · simp at h
    · rename_i st2 hu
      exact ih st2 st1 (fun q hq => hP q (List.mem_cons_of_mem _ hq))
        (hJ st p st2 hst (hP p (List.mem_cons_self _ _)) hu) h

theorem sweepLayers_invariant (image : Mat) (J : Mat × HoleFiller → Prop) (P : Pixel → Prop)
    (hJ : ∀ st p st1, J st → P p → updatePixel image st p = Except.ok st1 → J st1) :
    ∀ (layers : List (Int × List Pixel)) (st st1 : Mat × HoleFiller),
      (∀ p, inLayers layers p → P p) → J st →
      sweepLayers image layers st = Except.ok st1 → J st1 := by
  intro layers
  induction layers with
  | nil =>
    intro st st1 _ hst h
    simp only [sweepLayers, Except.ok.injEq] at h
    exact h ▸ hst
  | cons l rest ih =>
    intro st st1 hP hst h
    simp only [sweepLayers] at h
    split at h
    · simp at h
    · rename_i st2 hu
      refine ih st2 st1 (fun q hq => ?_) ?_ h
      · obtain ⟨l1, hl1, hq1⟩ := hq
        exact hP q ⟨l1, List.mem_cons_of_mem _ hl1, hq1⟩
      · exact updateLayer_invariant image J P hJ l.2 st st2
          (fun q hq => hP q ⟨l, List.mem_cons_self _ _, hq⟩) hst hu

theorem sweeps_invariant (image : Mat) (J : Mat × HoleFiller → Prop) (P : Pixel → Prop)
    (hJ : ∀ st p st1, J st → P p → updatePixel image st p = Except.ok st1 → J st1)
    (hL : ∀ st, J st → ∀ p, inLayers st.2.layerMapReverse p → P p) :
    ∀ (n : Nat) (st st1 : Mat × HoleFiller), J st → sweeps image n st = Except.ok st1 → J st1 := by
  intro n
  induction n with
  | zero =>
    intro st st1 hst h
    simp only [sweeps, Except.ok.injEq] at h
    exact h ▸ hst
  | succ k ih =>
    intro st st1 hst h
    simp only [sweeps] at h
    split at h
    · simp at h
    · rename_i st2 hu
      exact ih st2 st1 (sweepLayers_invariant image J P hJ _ st st2 (hL st hst) hst hu) h

/-! ## Layer builder: invariants -/

theorem SetLayer_invariant (image : Mat) (I : HoleFiller → Prop)
    (hadd : ∀ (st : HoleFiller) (q : Pixel) (L : Int), I st →
      image.at q.1 q.2 = Except.ok holeVal → st.layerMap (INDEX q.2 q.1 image.cols) = none →
      I { st with
          tempLayerVector := st.tempLayerVector ++ [q],
          layerMap := fun k => if k = INDEX q.2 q.1 image.cols then some (L + 1) else st.layerMap k,
          layerMapReverse := mapPushBack st.layerMapReverse (L + 1) q })
    (hf hf1 : HoleFiller) (q : Pixel) (L : Int) (hI : I hf)
    (h : SetLayer image hf q L = Except.ok hf1) : I hf1 := by
  unfold SetLayer at h
  simp only at h
  split at h
  · simp at h
  · rename_i v hv
    split at h
    · rename_i hhole
      subst hhole
      split at h
      · rename_i hnone
        simp only [Except.ok.injEq] at h
        exact h ▸ hadd hf q L hI hv hnone
      · simp only [Except.ok.injEq] at h
        exact h ▸ hI
    · simp only [Except.ok.injEq] at h
      exact h ▸ hI

theorem setLayersLoop_invariant (image : Mat) (I : HoleFiller → Prop)
    (hadd : ∀ (st : HoleFiller) (q : Pixel) (L : Int), I st →
      image.at q.1 q.2 = Except.ok holeVal → st.layerMap (INDEX q.2 q.1 image.cols) = none →
      I { st with
          tempLayerVector := st.tempLayerVector ++ [q],
          layerMap := fun k => if k = INDEX q.2 q.1 image.cols then some (L + 1) else st.layerMap k,
          layerMapReverse := mapPushBack st.layerMapReverse (L + 1) q })
    (hmark : ∀ (st : HoleFiller) (p : Pixel) (L : Int), I st → L = 1 →
      I { st with layerMap := fun k =>
            if k = INDEX p.2 p.1 image.cols then some L else st.layerMap k })
    (hswap : ∀ st : HoleFiller, I st →
      I { st with curLayerVector := st.tempLayerVector, tempLayerVector := [] }) :
    ∀ (fuel : Nat) (hf hf1 : HoleFiller) (L : Int), I hf →
      setLayersLoop fuel image hf L = Except.ok hf1 → I hf1 := by
  intro fuel
  induction fuel with
  | zero => intro hf hf1 L _ h; simp [setLayersLoop] at h
  | succ n ih =>
    intro hf hf1 L hI h
    rw [setLayersLoop] at h
    split at h
    · simp only [Except.ok.injEq] at h
      exact h ▸ hI
    · split at h
      · simp at h
      · rename_i hf2 hround
        refine ih _ hf1 (L + 1) (hswap hf2 ?_) h
        refine forPixels_invariant I (fun _ => True) ?_ hf.curLayerVector hf hf2
          (fun _ _ => trivial) hI hround
        intro st p st1 hst _ hstep
        unfold setLayersStep at hstep
        simp only at hstep
        unfold SetLayerHelper at hstep
        by_cases hL : L = 1
        · rw [if_pos hL] at hstep
          exact forPixels_invariant I (fun _ => True)
            (fun a q b ha _ hab => SetLayer_invariant image I hadd a b q L ha hab)
            _ _ st1 (fun _ _ => trivial) (hmark st p L hst hL) hstep
        · rw [if_neg hL] at hstep
          exact forPixels_invariant I (fun _ => True)
            (fun a q b ha _ hab => SetLayer_invariant image I hadd a b q L ha hab)
            _ _ st1 (fun _ _ => trivial) hst hstep

theorem mem_mapPushBack {layers : List (Int × List Pixel)} {k : Int} {p q : Pixel} :
    inLayers (mapPushBack layers k p) q ↔ (q = p ∨ inLayers layers q) := by
  induction layers with
  | nil => simp [mapPushBack, inLayers]
  | cons l rest ih =>
    obtain ⟨k0, ps⟩ := l
    unfold mapPushBack
    split
    · simp only [inLayers, List.mem_cons, exists_eq_or_imp, List.mem_append, List.mem_singleton]
      tauto
    · split
      · simp only [inLayers, List.mem_cons, exists_eq_or_imp, List.mem_singleton,
          List.not_mem_nil, or_false]
      · unfold inLayers at ih ⊢
        simp only [List.mem_cons, exists_eq_or_imp]
        rw [ih]
        tauto

/-! ## Iterative algorithm: frame -/

theorem SetLayers_layers_sentinel {hf lay : HoleFiller} {image : Mat}
    (h : SetLayers hf image = Except.ok lay)
    (h0 : ∀ p, inLayers hf.layerMapReverse p → image.at p.1 p.2 = Except.ok holeVal) :
    ∀ p, inLayers lay.layerMapReverse p → image.at p.1 p.2 = Except.ok holeVal := by
  unfold SetLayers at h
  refine setLayersLoop_invariant image
    (fun st => ∀ p, inLayers st.layerMapReverse p → image.at p.1 p.2 = Except.ok holeVal)
    ?_ ?_ ?_ _ _ lay 0 (by exact h0) h
  · intro st q L hst hq _ p hp
    simp only at hp
    rcases mem_mapPushBack.mp hp with rfl | hp
    · exact hq
    · exact hst p hp
  · intro st p L hst _
    exact hst
  · intro st hst
    exact hst

theorem SetLayers_sameConfig {hf lay : HoleFiller} {image : Mat}
    (h : SetLayers hf image = Except.ok lay) :
    sameConfig hf lay ∧ lay.holePixelsVector_ = hf.holePixelsVector_ ∧
      lay.boundaryPixelsCoordinatesVector_ = hf.boundaryPixelsCoordinatesVector_ ∧
      lay.boundaryPixelsValuesVector_ = hf.boundaryPixelsValuesVector_ := by
  unfold SetLayers at h
  refine setLayersLoop_invariant image
    (fun st => sameConfig hf st ∧ st.holePixelsVector_ = hf.holePixelsVector_ ∧
      st.boundaryPixelsCoordinatesVector_ = hf.boundaryPixelsCoordinatesVector_ ∧
      st.boundaryPixelsValuesVector_ = hf.boundaryPixelsValuesVector_)
    ?_ ?_ ?_ _ _ lay 0 (by exact ⟨⟨rfl, rfl, rfl, rfl, rfl⟩, rfl, rfl, rfl⟩) h
  · intro st q L hst _ _; exact hst
  · intro st p L hst _; exact hst
  · intro st hst; exact hst

theorem FillImage_iterative_ok {hf hf1 : HoleFiller} {image out : Mat}
    (halg : hf.algorithmType = ALGORITHM_OPTION_TWO)
    (h : FillImage hf image = Except.ok (out, hf1)) :
    ∃ seg lay hf2, FindHoleAndBoundaryPixels hf image = Except.ok seg ∧
      SetLayers seg image = Except.ok lay ∧
      sweeps image APPROXIMATE_ALGORITHM_ROUTINE_AMOUNT (image, lay) = Except.ok (out, hf2) ∧
      hf1 = ClearFields hf2 := by
  unfold FillImage at h
  simp only at h
  split at h
  · simp at h
  · rename_i seg hseg
    have hcfg := FindHoleAndBoundaryPixels_sameConfig hseg
    have halg1 : seg.algorithmType = ALGORITHM_OPTION_TWO := hcfg.2.2.2.1.trans halg
    have hne : ¬ seg.algorithmType = ALGORITHM_OPTION_ONE := by
      rw [halg1]; decide
    unfold runAlgorithm at h
    rw [if_neg hne, if_pos halg1] at h
    cases hl : SetLayers seg image with
    | error e => rw [hl] at h; simp at h
    | ok lay =>
      rw [hl] at h
      simp only at h
      unfold ApproximateAlgorithm at h
      cases hs : sweeps image APPROXIMATE_ALGORITHM_ROUTINE_AMOUNT (image, lay) with
      | error e => rw [hs] at h; simp at h
      | ok r =>
        rw [hs] at h
        obtain ⟨out2, hf2⟩ := r
        simp only [Except.ok.injEq, Prod.mk.injEq] at h
        exact ⟨seg, lay, hf2, hseg, hl, by rw [hs, h.1], h.2.symm⟩

/-- Frame of the sweeps: what lies outside the layered index keeps its value. -/
theorem sweeps_frame (image : Mat) (n : Nat) (lay hf2 : HoleFiller) (out : Mat)
    (h : sweeps image n (image, lay) = Except.ok (out, hf2)) :
    out.rows = image.rows ∧ out.cols = image.cols ∧ sameButLayerMap lay hf2 ∧
      ∀ c : Pixel, ¬ inLayers lay.layerMapReverse c → out.data c.1 c.2 = image.data c.1 c.2 := by
  have key := sweeps_invariant image
    (fun st => st.1.rows = image.rows ∧ st.1.cols = image.cols ∧ sameButLayerMap lay st.2 ∧
      ∀ c : Pixel, ¬ inLayers lay.layerMapReverse c → st.1.data c.1 c.2 = image.data c.1 c.2)
    (fun p => inLayers lay.layerMapReverse p) ?_ ?_ n (image, lay) (out, hf2)
    ⟨rfl, rfl, sameButLayerMap_refl lay, fun _ _ => rfl⟩ h
  · exact key
  · intro st p st1 hst hp hu
    obtain ⟨m, a⟩ := st
    obtain ⟨m1, a1⟩ := st1
    obtain ⟨_, _, hsame, hrows, hcols, _, hframe⟩ := updatePixel_ok hst.2.1 hu
    refine ⟨hrows.trans hst.1, hcols.trans hst.2.1, sameButLayerMap_trans hst.2.2.1 hsame, ?_⟩
    intro c hc
    have hne : c ≠ p := fun hcp => hc (hcp ▸ hp)
    rw [hframe c hne]
    exact hst.2.2.2 c hc
  · intro st hst p hp
    obtain ⟨lm, he, _⟩ := hst.2.2.1
    rw [he] at hp
    exact hp

theorem holeReach_imageTwoHoles (c : Pixel) (h : HoleReach imageTwoHoles 4 (2, 2) c) :
    c = (2, 2) := by
  induction h with
  | seed _ => rfl
  | step p q _ hq hv ih =>
    subst ih
    have hq1 : q = (3, 2) ∨ q = (1, 2) ∨ q = (2, 3) ∨ q = (2, 1) := by
      have : neighborPixels 4 ((2, 2) : Pixel) = [(3, 2), (1, 2), (2, 3), (2, 1)] := by decide!
      rw [this] at hq
      simpa using hq
    rcases hq1 with rfl | rfl | rfl | rfl
    · exact absurd hv (by decide!)
    · exact absurd hv (by decide!)
    · exact absurd hv (by decide!)
    · exact absurd hv (by decide!)

/-- C3 (counterexample). On `imageTwoHoles` with connectivity 4 the seed is `(2, 2)`, the
sentinel pixel `(3, 3)` is not in the seed's hole component, and `FillImage` with the
Iterative algorithm returns an image whose value at `(3, 3)` is `8`, not the input's `-1`. -/
theorem iterative_fill_changes_pixel_outside_hole :
    FindFirstHolePixel imageTwoHoles = Except.ok (2, 2) ∧
    ¬ HoleReach imageTwoHoles 4 (2, 2) (3, 3) ∧
    imageTwoHoles.at 3 3 = Except.ok holeVal ∧
    outputAt (FillImage (HoleFiller.new 2 (1 / 100) 4 2 unitWeight) imageTwoHoles) 3 3
      = some (Val.fin 8) := by
  refine ⟨by decide!, ?_, by decide!, by decide!⟩
  intro h
  have := holeReach_imageTwoHoles _ h
  simp at this

/-- Whenever the Iterative run returns, the returned image has the dimensions of the input
and keeps every position whose input value is not the sentinel. -/
theorem iterative_frame_core (image : Mat) (z : Int) (epsilon : ℚ)
    (connectivity : Int) (w : WeightFunctionType) (out : Mat) (hf1 : HoleFiller)
    (h : FillImage (HoleFiller.new z epsilon connectivity ALGORITHM_OPTION_TWO w) image
      = Except.ok (out, hf1)) :
    out.rows = image.rows ∧ out.cols = image.cols ∧
      ∀ c : Pixel, image.at c.1 c.2 ≠ Except.ok holeVal → out.at c.1 c.2 = image.at c.1 c.2 := by
  obtain ⟨seg, lay, hf2, hseg, hlay, hsw, _⟩ := FillImage_iterative_ok rfl h
  obtain ⟨hrows, hcols, _, hframe⟩ := sweeps_frame image _ lay hf2 out hsw
  obtain ⟨seed, _, hff⟩ := FindHoleAndBoundaryPixels_ok hseg
  have hrev : seg.layerMapReverse = [] := by
    have := FloodFill_invariant image connectivity
      (fun st => st.layerMapReverse = [] ∧ st.connectivity_ = connectivity) (fun _ => True)
      (fun st hst => hst.2) (fun _ _ _ _ _ _ => trivial) (fun st q hst _ _ => hst)
      (fun st q v hst _ _ _ _ => hst) (fun st q hst _ _ _ => hst)
      _ _ seed seg ⟨rfl, rfl⟩ trivial hff
    exact this.1
  have hsent := SetLayers_layers_sentinel hlay (by
    intro p hp
    rw [hrev] at hp
    obtain ⟨l, hl, _⟩ := hp
    simp at hl)
  refine ⟨hrows, hcols, ?_⟩
  intro c hc
  exact Mat.at_congr hrows hcols (hframe c (fun hin => hc (hsent c hin)))

/-! ## Iterative filler: the value of one update -/

/-- C10 (counterexample). On `imageTwoPixelHole` (connectivity 4, unit weights) both hole
pixels have depth 1.  The first update of the first sweep writes `3` at `(2, 2)`: the mean
of its three boundary neighbours `5, 1, 3`.  The neighbour `(2, 3)` is in `H` with depth
`1 ≤ 1`, so the mean over the neighbours in `B` or in `H` with `D(q) ≤ k` would include its
current value `-1` and be `2`. -/
theorem first_sweep_update_excludes_unfilled_neighbour :
    (layeredState (HoleFiller.new 2 (1 / 100) 4 2 unitWeight) imageTwoPixelHole).toOption.map
        (fun lay => (lay.holePixelsVector_, lay.layerMapReverse)) =
      some ([(2, 2), (2, 3)], [(1, [(2, 2), (2, 3)])]) ∧
    layerOf imageTwoPixelHole.cols layeredTwoPixelHole (2, 2) = 1 ∧
    layerOf imageTwoPixelHole.cols layeredTwoPixelHole (2, 3) = 1 ∧
    (updatePixel imageTwoPixelHole (imageTwoPixelHole, layeredTwoPixelHole) (2, 2)).toOption.map
        (fun r => r.1.data 2 2) = some (Val.fin 3) ∧
    (sweeps imageTwoPixelHole 1 (imageTwoPixelHole, layeredTwoPixelHole)).toOption.map
        (fun r => r.1.data 2 2) = some (Val.fin 3) ∧
    weightedMean unitWeight (2, 2) 2 (1 / 100)
        (specContributing imageTwoPixelHole layeredTwoPixelHole (2, 2)) = Val.fin 2 := by
  refine ⟨by decide!, by decide!, by decide!, by decide!, by decide!, by decide!⟩

/-- Whenever a pixel update returns, it has written the weighted mean over the contributing
neighbours at that pixel and changed no other pixel. -/
theorem updatePixel_mean (image m m1 : Mat) (hf hf1 : HoleFiller) (p : Pixel)
    (hcols : m.cols = image.cols)
    (h : updatePixel image (m, hf) p = Except.ok (m1, hf1)) :
    m1.at p.1 p.2 = Except.ok
        (weightedMean hf.weightFunc_ p hf.z_ hf.epsilon_ (contributing m hf p)) ∧
      (∀ (q : Pixel) (v : Val), (q, v) ∈ contributing m hf p ↔
        (q ∈ neighborPixels hf.connectivity_ p ∧ v = m.data q.1 q.2 ∧ v ≠ holeVal ∧
          layerOf m.cols hf q ≤ layerOf m.cols hf p)) ∧
      (∀ c : Pixel, c ≠ p → m1.at c.1 c.2 = m.at c.1 c.2) := by
  obtain ⟨hr, _, _, hrows, hcs, hval, hframe⟩ := updatePixel_ok hcols h
  refine ⟨?_, ?_, ?_⟩
  · have hr1 : m1.inRange p.1 p.2 := by
      unfold Mat.inRange at hr ⊢
      rw [hrows, hcs]
      exact hr
    rw [Mat.at_of_inRange hr1, hval]
  · intro q v
    unfold contributing
    rw [List.mem_filterMap]
    constructor
    · rintro ⟨r, hr1, hr2⟩
      split at hr2
      · rename_i hc
        simp only [Option.some.injEq, Prod.mk.injEq] at hr2
        obtain ⟨rfl, rfl⟩ := hr2
        exact ⟨hr1, rfl, hc.1, hc.2⟩
      · simp at hr2
    · rintro ⟨h1, h2, h3, h4⟩
      refine ⟨q, h1, ?_⟩
      rw [if_pos ⟨h2 ▸ h3, h4⟩, h2]
  · intro c hc
    exact Mat.at_congr hrows hcs (hframe c hc)

/-! ## Layer builder: breadth-first invariants -/

theorem INDEX_injective {image : Mat} (hsq : image.rows = image.cols) {p q : Pixel}
    (hp : image.inRange p.1 p.2) (hq : image.inRange q.1 q.2)
    (h : INDEX p.2 p.1 image.cols = INDEX q.2 q.1 image.cols) : p = q := by
  unfold Mat.inRange at hp hq
  unfold INDEX at h
  rw [hsq] at hp hq
  obtain ⟨hp1, hp2, hp3, hp4⟩ := hp
  obtain ⟨hq1, hq2, hq3, hq4⟩ := hq
  have h2 : p.2 = q.2 := by
    rcases lt_trichotomy p.2 q.2 with hlt | heq | hgt
    · exfalso
      have : (p.2 + 1) * (image.cols : Int) ≤ q.2 * image.cols :=
        mul_le_mul_of_nonneg_right (by omega) (by omega)
      nlinarith
    · exact heq
    · exfalso
      have : (q.2 + 1) * (image.cols : Int) ≤ p.2 * image.cols :=
        mul_le_mul_of_nonneg_right (by omega) (by omega)
      nlinarith
  have h1 : p.1 = q.1 := by
    rw [h2] at h
    omega
  exact Prod.ext h1 h2

theorem keyed_mapPushBack {layers : List (Int × List Pixel)} {k k1 : Int} {p q : Pixel} :
    keyed (mapPushBack layers k p) k1 q ↔ ((k1 = k ∧ q = p) ∨ keyed layers k1 q) := by
  induction layers with
  | nil => simp [mapPushBack, keyed]; tauto
  | cons l rest ih =>
    obtain ⟨k0, ps⟩ := l
    unfold mapPushBack
    split
    · rename_i hk
      subst hk
      simp only [keyed, List.mem_cons, exists_eq_or_imp, List.mem_append, List.mem_singleton]
      tauto
    · split
      · simp only [keyed, List.mem_cons, exists_eq_or_imp, List.mem_singleton]
        tauto
      · have hsplit : ∀ (ls : List (Int × List Pixel)),
            keyed ((k0, ps) :: ls) k1 q ↔ ((k0 = k1 ∧ q ∈ ps) ∨ keyed ls k1 q) := by
          intro ls
          simp only [keyed, List.mem_cons, exists_eq_or_imp]
        rw [hsplit, hsplit, ih]
        constructor
        · rintro (h1 | h1 | h1)
          · exact Or.inr (Or.inl h1)
          · exact Or.inl h1
          · exact Or.inr (Or.inr h1)
        · rintro (h1 | h1 | h1)
          · exact Or.inr (Or.inl h1)
          · exact Or.inl h1
          · exact Or.inr (Or.inr h1)

theorem keys_mapPushBack {layers : List (Int × List Pixel)} {k : Int} {p : Pixel} :
    ∀ a ∈ (mapPushBack layers k p).map Prod.fst, a = k ∨ a ∈ layers.map Prod.fst := by
  induction layers with
  | nil => simp [mapPushBack]
  | cons l rest ih =>
    obtain ⟨k0, ps⟩ := l
    unfold mapPushBack
    split
    · intro a ha
      right
      simpa using ha
    · split
      · intro a ha
        simp only [List.map_cons, List.mem_cons] at ha ⊢
        tauto
      · intro a ha
        simp only [List.map_cons, List.mem_cons] at ha ⊢
        rcases ha with ha | ha
        · tauto
        · rcases ih a ha with h1 | h1
          · tauto
          · tauto

theorem keysSorted_mapPushBack {layers : List (Int × List Pixel)} {k : Int} {p : Pixel}
    (h : keysSorted layers) : keysSorted (mapPushBack layers k p) := by
  unfold keysSorted at h ⊢
  induction layers with
  | nil => simp [mapPushBack]
  | cons l rest ih =>
    obtain ⟨k0, ps⟩ := l
    simp only [List.map_cons, List.pairwise_cons] at h
    unfold mapPushBack
    split
    · simp only [List.map_cons, List.pairwise_cons]
      exact h
    · rename_i hne
      split
      · rename_i hlt
        simp only [List.map_cons, List.pairwise_cons, List.mem_cons]
        refine ⟨?_, h⟩
        intro a ha
        rcases ha with rfl | ha
        · exact hlt
        · exact lt_trans hlt (h.1 a ha)
      · rename_i hnlt
        simp only [List.map_cons, List.pairwise_cons]
        refine ⟨?_, ih h.2⟩
        intro a ha
        rcases keys_mapPushBack a ha with rfl | ha
        · omega
        · exact h.1 a ha

theorem forPixels_post {step : HoleFiller → Pixel → Except Fault HoleFiller}
    (Rel : HoleFiller → HoleFiller → Prop) (hrefl : ∀ a, Rel a a)
    (htrans : ∀ a b c, Rel a b → Rel b c → Rel a c)
    (Inv : HoleFiller → Prop) (Pre : Pixel → Prop) (Post : Pixel → HoleFiller → Prop)
    (hstep : ∀ st p st1, Inv st → Pre p → step st p = Except.ok st1 →
      Inv st1 ∧ Post p st1 ∧ Rel st st1)
    (hstable : ∀ a b q, Rel a b → Post q a → Post q b) :
    ∀ (ps : List Pixel) (st st1 : HoleFiller), (∀ p ∈ ps, Pre p) → Inv st →
      forPixels step ps st = Except.ok st1 →
      Inv st1 ∧ (∀ p ∈ ps, Post p st1) ∧ Rel st st1 := by
  intro ps
  induction ps with
  | nil =>
    intro st st1 _ hI h
    simp only [forPixels, Except.ok.injEq] at h
    subst h
    exact ⟨hI, by simp, hrefl _⟩
  | cons p rest ih =>
    intro st st1 hP hI h
    simp only [forPixels] at h
    cases hs : step st p with
    | error e => rw [hs] at h; simp at h
    | ok st2 =>
      rw [hs] at h
      have hp := hP p (List.mem_cons_self _ _)
      obtain ⟨hI2, hpost, hrel⟩ := hstep st p st2 hI hp hs
      obtain ⟨hI1, hrest, hrel1⟩ :=
        ih st2 st1 (fun q hq => hP q (List.mem_cons_of_mem _ hq)) hI2 h
      refine ⟨hI1, ?_, htrans _ _ _ hrel hrel1⟩
      intro q hq
      rcases List.mem_cons.mp hq with rfl | hq
      · exact hstable _ _ q hrel1 hpost
      · exact hrest q hq

theorem RoundInv_add {image : Mat} (hsq : image.rows = image.cols) {L : Int} (hL : 0 ≤ L)
    {st0 st : HoleFiller} {q p : Pixel} (hI : RoundInv image L st0 st)
    (hq : frontierPixel image L st q) (hp : p ∈ neighborPixels st.connectivity_ q)
    (hr : image.inRange p.1 p.2) (hv : image.at p.1 p.2 = Except.ok holeVal)
    (hnone : depthOf image.cols st p = none) :
    RoundInv image L st0
      { st with
        tempLayerVector := st.tempLayerVector ++ [p],
        layerMap := fun k => if k = INDEX p.2 p.1 image.cols then some (L + 1) else st.layerMap k,
        layerMapReverse := mapPushBack st.layerMapReverse (L + 1) p } := by
  have hdep : ∀ r : Pixel, image.inRange r.1 r.2 →
      depthOf image.cols { st with
        tempLayerVector := st.tempLayerVector ++ [p],
        layerMap := fun k => if k = INDEX p.2 p.1 image.cols then some (L + 1) else st.layerMap k,
        layerMapReverse := mapPushBack st.layerMapReverse (L + 1) p } r
        = if r = p then some (L + 1) else depthOf image.cols st r := by
    intro r hrr
    unfold depthOf
    simp only
    by_cases hrp : r = p
    · subst hrp; simp
    · have : ¬ INDEX r.2 r.1 image.cols = INDEX p.2 p.1 image.cols :=
        fun he => hrp (INDEX_injective hsq hrr hr he)
      rw [if_neg this, if_neg hrp]
  have hold : ∀ (r : Pixel) (d : Int), image.inRange r.1 r.2 →
      depthOf image.cols st r = some d →
      depthOf image.cols { st with
        tempLayerVector := st.tempLayerVector ++ [p],
        layerMap := fun k => if k = INDEX p.2 p.1 image.cols then some (L + 1) else st.layerMap k,
        layerMapReverse := mapPushBack st.layerMapReverse (L + 1) p } r = some d := by
    intro r d hrr hd
    rw [hdep r hrr]
    have : r ≠ p := by
      intro he
      subst he
      rw [hnone] at hd
      simp at hd
    rw [if_neg this, hd]
  constructor
  · exact hI.conn
  · exact hI.bnd
  · exact hI.cur
  · intro r d hrr hd
    rw [hdep r hrr] at hd
    by_cases hrp : r = p
    · subst hrp
      rw [if_pos rfl] at hd
      simp only [Option.some.injEq] at hd
      subst hd
      exact ⟨hv, by omega, le_refl _⟩
    · rw [if_neg hrp] at hd
      exact hI.sent r d hrr hd
  · intro r
    simp only [List.mem_append, List.mem_singleton]
    constructor
    · rintro (h1 | rfl)
      · have := (hI.temp r).mp h1
        exact ⟨this.1, hold r _ this.1 this.2⟩
      · refine ⟨hr, ?_⟩
        rw [hdep r hr, if_pos rfl]
    · rintro ⟨hrr, hd⟩
      rw [hdep r hrr] at hd
      by_cases hrp : r = p
      · exact Or.inr hrp
      · rw [if_neg hrp] at hd
        exact Or.inl ((hI.temp r).mpr ⟨hrr, hd⟩)
  · intro r d hrr hd
    exact hold r d hrr (hI.mono r d hrr hd)
  · intro r d hrr hd
    rw [hdep r hrr] at hd
    by_cases hrp : r = p
    · rw [if_pos hrp] at hd
      simp only [Option.some.injEq] at hd
      exact Or.inr hd.symm
    · rw [if_neg hrp] at hd
      exact hI.fresh r d hrr hd
  · intro r d hrr hd
    rw [hdep r hrr] at hd
    by_cases hrp : r = p
    · subst hrp
      rw [if_pos rfl] at hd
      simp only [Option.some.injEq] at hd
      subst hd
      rcases hq with ⟨hL0, hqB⟩ | ⟨hL1, hqr, hqd⟩
      · refine ⟨fun _ => ⟨q, hqB, hp⟩, fun h2 => ?_⟩
        omega
      · refine ⟨fun h1 => ?_, fun _ => ⟨q, hqr, ?_, hp⟩⟩
        · omega
        · rw [hold q L hqr hqd]
          congr 1
          omega
    · rw [if_neg hrp] at hd
      obtain ⟨h1, h2⟩ := hI.parent r d hrr hd
      refine ⟨h1, fun hd2 => ?_⟩
      obtain ⟨q1, hq1, hq2, hq3⟩ := h2 hd2
      exact ⟨q1, hq1, hold q1 _ hq1 hq2, hq3⟩
  · intro k r
    simp only
    rw [keyed_mapPushBack, hI.rev]
    constructor
    · rintro (⟨rfl, rfl⟩ | ⟨hrr, hd⟩)
      · refine ⟨hr, ?_⟩
        rw [hdep r hr, if_pos rfl]
      · exact ⟨hrr, hold r k hrr hd⟩
    · rintro ⟨hrr, hd⟩
      rw [hdep r hrr] at hd
      by_cases hrp : r = p
      · rw [if_pos hrp] at hd
        simp only [Option.some.injEq] at hd
        exact Or.inl ⟨hd.symm, hrp⟩
      · rw [if_neg hrp] at hd
        exact Or.inr ⟨hrr, hd⟩
  · exact keysSorted_mapPushBack hI.sorted

theorem depthMono_refl (cols : Nat) (a : HoleFiller) : depthMono cols a a :=
  ⟨rfl, rfl, fun _ _ h => h⟩

theorem depthMono_trans (cols : Nat) (a b c : HoleFiller) (h1 : depthMono cols a b)
    (h2 : depthMono cols b c) : depthMono cols a c :=
  ⟨h2.1.trans h1.1, h2.2.1.trans h1.2.1, fun r d h => h2.2.2 r d (h1.2.2 r d h)⟩

theorem frontierPixel_mono {image : Mat} {L : Int} {a b : HoleFiller} {q : Pixel}
    (h : depthMono image.cols a b) (hq : frontierPixel image L a q) :
    frontierPixel image L b q := by
  rcases hq with ⟨h0, hB⟩ | ⟨h1, hr, hd⟩
  · exact Or.inl ⟨h0, by rw [h.2.1]; exact hB⟩
  · exact Or.inr ⟨h1, hr, h.2.2 q L hd⟩

theorem neighboursLayered_mono {image : Mat} {bound : Int} {a b : HoleFiller} {q : Pixel}
    (h : depthMono image.cols a b) (hq : neighboursLayered image bound a q) :
    neighboursLayered image bound b q := by
  intro p hp
  rw [h.1] at hp
  obtain ⟨hr, hs⟩ := hq p hp
  refine ⟨hr, fun hv => ?_⟩
  obtain ⟨d, hd, hle⟩ := hs hv
  exact ⟨d, h.2.2 p d hd, hle⟩

/-- One call of `SetLayer` on a neighbour `p` of the frontier pixel `q`. -/
theorem SetLayer_round {image : Mat} (hsq : image.rows = image.cols) {L : Int} (hL : 0 ≤ L)
    {st0 st st1 : HoleFiller} {q p : Pixel} (hI : RoundInv image L st0 st)
    (hq : frontierPixel image L st q) (hp : p ∈ neighborPixels st.connectivity_ q)
    (h : SetLayer image st p L = Except.ok st1) :
    RoundInv image L st0 st1 ∧
      (image.inRange p.1 p.2 ∧ (image.at p.1 p.2 = Except.ok holeVal →
        ∃ d, depthOf image.cols st1 p = some d ∧ d ≤ L + 1)) ∧
      depthMono image.cols st st1 := by
  unfold SetLayer at h
  simp only at h
  split at h
  · simp at h
  · rename_i v hv
    obtain ⟨hr, _⟩ := Mat.at_eq_ok hv
    split at h
    · rename_i hhole
      subst hhole
      split at h
      · rename_i hnone
        simp only [Except.ok.injEq] at h
        subst h
        have hinv := RoundInv_add hsq hL hI hq hp hr hv hnone
        refine ⟨hinv, ⟨hr, fun _ => ⟨L + 1, ?_, le_refl _⟩⟩, rfl, rfl, ?_⟩
        · unfold depthOf
          simp
        · intro r d hd
          unfold depthOf at hd ⊢
          simp only
          by_cases he : INDEX r.2 r.1 image.cols = INDEX p.2 p.1 image.cols
          · rw [he] at hd
            rw [hnone] at hd
            simp at hd
          · rw [if_neg he]
            exact hd
      · rename_i hsome
        simp only [Except.ok.injEq] at h
        subst h
        refine ⟨hI, ⟨hr, fun _ => ?_⟩, depthMono_refl _ _⟩
        cases hd : depthOf image.cols st p with
        | none => exact absurd hd hsome
        | some d => exact ⟨d, rfl, (hI.sent p d hr hd).2.2⟩
    · rename_i hne
      simp only [Except.ok.injEq] at h
      subst h
      refine ⟨hI, ⟨hr, fun hv2 => ?_⟩, depthMono_refl _ _⟩
      rw [hv] at hv2
      simp only [Except.ok.injEq] at hv2
      exact absurd hv2 hne

/-- One call of `SetLayerHelper` on the frontier pixel `q`. -/
theorem SetLayerHelper_round {image : Mat} (hsq : image.rows = image.cols) {L : Int}
    (hL : 0 ≤ L) {st0 st st1 : HoleFiller} {q : Pixel} (hI : RoundInv image L st0 st)
    (hq : frontierPixel image L st q)
    (h : SetLayerHelper image st q L = Except.ok st1) :
    RoundInv image L st0 st1 ∧ neighboursLayered image (L + 1) st1 q ∧
      depthMono image.cols st st1 := by
  unfold SetLayerHelper at h
  have key := forPixels_post (depthMono image.cols) (depthMono_refl _) (depthMono_trans _)
    (fun a => (RoundInv image L st0 a ∧ frontierPixel image L a q) ∧
      a.connectivity_ = st.connectivity_)
    (fun p => p ∈ neighborPixels st.connectivity_ q)
    (fun p a => image.inRange p.1 p.2 ∧ (image.at p.1 p.2 = Except.ok holeVal →
        ∃ d, depthOf image.cols a p = some d ∧ d ≤ L + 1))
    ?_ ?_ _ st st1 (fun _ hp => hp) ⟨⟨hI, hq⟩, rfl⟩ h
  · obtain ⟨⟨⟨hI1, _⟩, hc⟩, hpost, hrel⟩ := key
    refine ⟨hI1, ?_, hrel⟩
    intro p hp
    rw [hc] at hp
    exact hpost p hp
  · intro a p a1 ha hp hs
    rw [← ha.2] at hp
    obtain ⟨h1, h2, h3⟩ := SetLayer_round hsq hL ha.1.1 ha.1.2 hp hs
    exact ⟨⟨⟨h1, frontierPixel_mono h3 ha.1.2⟩, h3.1.trans ha.2⟩, h2, h3⟩
  · intro a b p hrel hpost
    refine ⟨hpost.1, fun hv => ?_⟩
    obtain ⟨d, hd, hle⟩ := hpost.2 hv
    exact ⟨d, hrel.2.2 p d hd, hle⟩

theorem setLayersStep_round {image : Mat} (hsq : image.rows = image.cols) {L : Int}
    (hL : 0 ≤ L) {st0 st st1 : HoleFiller} {q : Pixel} (hI : RoundInv image L st0 st)
    (hq : frontierPixel image L st q)
    (h : setLayersStep image L st q = Except.ok st1) :
    RoundInv image L st0 st1 ∧ neighboursLayered image (L + 1) st1 q ∧
      depthMono image.cols st st1 := by
  unfold setLayersStep at h
  simp only at h
  by_cases hL1 : L = 1
  · rw [if_pos hL1] at h
    have hd : depthOf image.cols st q = some L := by
      rcases hq with ⟨h0, _⟩ | ⟨_, _, hd⟩
      · omega
      · exact hd
    have hfun : (fun k => if k = INDEX q.2 q.1 image.cols then some L else st.layerMap k)
        = st.layerMap := by
      funext k
      by_cases hk : k = INDEX q.2 q.1 image.cols
      · rw [if_pos hk, hk]
        exact hd.symm
      · rw [if_neg hk]
    rw [hfun] at h
    exact SetLayerHelper_round hsq hL hI hq h
  · rw [if_neg hL1] at h
    exact SetLayerHelper_round hsq hL hI hq h

theorem RoundInv_start {image : Mat} {L : Int} {st : HoleFiller} (h : LoopInv image L st) :
    RoundInv image L st st := by
  constructor
  · rfl
  · rfl
  · rfl
  · intro p d hr hd
    obtain ⟨h1, h2, h3⟩ := h.sent p d hr hd
    exact ⟨h1, h2, by omega⟩
  · intro p
    rw [h.temp]
    simp only [List.not_mem_nil, false_iff, not_and]
    intro hr hd
    have := (h.sent p _ hr hd).2.2
    omega
  · intro p d _ hd; exact hd
  · intro p d _ hd; exact Or.inl hd
  · exact h.parent
  · exact h.rev
  · exact h.sorted

/-- One round of the `while` loop of `SetLayers`. -/
theorem setLayers_round {image : Mat} (hsq : image.rows = image.cols) {L : Int}
    {st st2 : HoleFiller} (hI : LoopInv image L st)
    (h : forPixels (setLayersStep image L) st.curLayerVector st = Except.ok st2) :
    LoopInv image (L + 1)
      { st2 with curLayerVector := st2.tempLayerVector, tempLayerVector := [] } ∧
      depthMono image.cols st st2 := by
  have hL := hI.nonneg
  have hfront : ∀ q ∈ st.curLayerVector, frontierPixel image L st q := by
    intro q hq
    by_cases h0 : L = 0
    · rw [hI.front0 h0] at hq
      exact Or.inl ⟨h0, hq⟩
    · have h1 : 1 ≤ L := by omega
      obtain ⟨hr, hd⟩ := (hI.front h1 q).mp hq
      exact Or.inr ⟨h1, hr, hd⟩
  have key := forPixels_post (depthMono image.cols) (depthMono_refl _) (depthMono_trans _)
    (fun a => RoundInv image L st a ∧ depthMono image.cols st a)
    (fun q => q ∈ st.curLayerVector)
    (fun q a => neighboursLayered image (L + 1) a q)
    ?_ ?_ _ st st2 (fun _ hq => hq) ⟨RoundInv_start hI, depthMono_refl _ _⟩ h
  · obtain ⟨⟨hR, hmono⟩, hpost, _⟩ := key
    refine ⟨?_, hmono⟩
    have hsame : depthMono image.cols st2
        { st2 with curLayerVector := st2.tempLayerVector, tempLayerVector := [] } :=
      ⟨rfl, rfl, fun _ _ hd => hd⟩
    constructor
    · omega
    · intro p d hr hd
      exact hR.sent p d hr hd
    · intro h0
      omega
    · intro _ p
      exact hR.temp p
    · rfl
    · exact hR.parent
    · intro q d hr hd hlt
      have hd2 : depthOf image.cols st2 q = some d := hd
      have hd0 : depthOf image.cols st q = some d := by
        rcases hR.fresh q d hr hd2 with h1 | h1
        · exact h1
        · omega
      by_cases hdl : d < L
      · exact neighboursLayered_mono hsame
          (neighboursLayered_mono hmono (hI.closed q d hr hd0 hdl))
      · have hdL : d = L := by omega
        subst hdL
        have h1 : 1 ≤ d := (hI.sent q d hr hd0).2.1
        have hq : q ∈ st.curLayerVector := (hI.front h1 q).mpr ⟨hr, hd0⟩
        exact neighboursLayered_mono hsame (hpost q hq)
    · intro _ b hb
      have hb2 : b ∈ st2.boundaryPixelsCoordinatesVector_ := hb
      rw [hmono.2.1] at hb2
      by_cases h0 : L = 0
      · have hq : b ∈ st.curLayerVector := by rw [hI.front0 h0]; exact hb2
        have := hpost b hq
        rw [h0] at this
        simp only [zero_add] at this
        exact neighboursLayered_mono hsame this
      · have h1 : 1 ≤ L := by omega
        exact neighboursLayered_mono hsame
          (neighboursLayered_mono hmono (hI.closedB h1 b hb2))
    · exact hR.rev
    · exact hR.sorted
  · intro a q a1 ha hq hs
    have hfq := frontierPixel_mono ha.2 (hfront q hq)
    obtain ⟨h1, h2, h3⟩ := setLayersStep_round hsq hL ha.1 hfq hs
    exact ⟨⟨h1, depthMono_trans _ _ _ _ ha.2 h3⟩, h2, h3⟩
  · intro a b q hrel hpost
    exact neighboursLayered_mono hrel hpost

/-- The `while` loop of `SetLayers` keeps the loop invariant up to its exit. -/
theorem setLayersLoop_inv {image : Mat} (hsq : image.rows = image.cols) :
    ∀ (fuel : Nat) (L : Int) (st lay : HoleFiller), LoopInv image L st →
      setLayersLoop fuel image st L = Except.ok lay →
      ∃ L1, LoopInv image L1 lay ∧ lay.curLayerVector = [] ∧ depthMono image.cols st lay := by
  intro fuel
  induction fuel with
  | zero => intro L st lay _ h; simp [setLayersLoop] at h
  | succ n ih =>
    intro L st lay hI h
    rw [setLayersLoop] at h
    split at h
    · rename_i hnil
      simp only [Except.ok.injEq] at h
      subst h
      exact ⟨L, hI, hnil, depthMono_refl _ _⟩
    · split at h
      · simp at h
      · rename_i st2 hround
        obtain ⟨hI2, hmono⟩ := setLayers_round hsq hI hround
        obtain ⟨L1, hI1, hnil, hmono1⟩ := ih (L + 1) _ lay hI2 h
        refine ⟨L1, hI1, hnil, depthMono_trans _ _ _ _ hmono ?_⟩
        exact depthMono_trans _ _ _ _ ⟨rfl, rfl, fun _ _ hd => hd⟩ hmono1

theorem Layered_of_LoopInv {image : Mat} {L : Int} {lay : HoleFiller}
    (hI : LoopInv image L lay) (hnil : lay.curLayerVector = []) : Layered image lay := by
  have hlt : ∀ q d, image.inRange q.1 q.2 → depthOf image.cols lay q = some d → d < L := by
    intro q d hr hd
    obtain ⟨_, h1, h2⟩ := hI.sent q d hr hd
    by_contra hcon
    have hdL : d = L := by omega
    subst hdL
    have := (hI.front h1 q).mpr ⟨hr, hd⟩
    rw [hnil] at this
    simp at this
  constructor
  · intro p d hr hd
    exact ⟨(hI.sent p d hr hd).1, (hI.sent p d hr hd).2.1⟩
  · exact hI.parent
  · intro q d hr hd
    exact hI.closed q d hr hd (hlt q d hr hd)
  · intro b hb
    by_cases h0 : L = 0
    · have := hI.front0 h0
      rw [hnil] at this
      rw [← this] at hb
      simp at hb
    · exact hI.closedB (by have := hI.nonneg; omega) b hb
  · exact hI.rev
  · exact hI.sorted

theorem neighborIndices_eight : neighborIndices 8 = [0, 1, 2, 3, 4, 5, 6, 7] := by decide

theorem neighborIndices_other {c : Int} (h : c ≠ 8) : neighborIndices c = [0, 1, 2, 3] := by
  unfold neighborIndices CONNECTIVITY_OPTION_2
  simp [List.filter, h]

theorem mem_neighborPixels (c : Int) (q p : Pixel) :
    p ∈ neighborPixels c q ↔
      ((p.1 = q.1 + 1 ∧ p.2 = q.2) ∨ (p.1 = q.1 - 1 ∧ p.2 = q.2) ∨
       (p.1 = q.1 ∧ p.2 = q.2 + 1) ∨ (p.1 = q.1 ∧ p.2 = q.2 - 1) ∨
       (c = 8 ∧ ((p.1 = q.1 + 1 ∧ p.2 = q.2 + 1) ∨ (p.1 = q.1 + 1 ∧ p.2 = q.2 - 1) ∨
         (p.1 = q.1 - 1 ∧ p.2 = q.2 + 1) ∨ (p.1 = q.1 - 1 ∧ p.2 = q.2 - 1)))) := by
  obtain ⟨p1, p2⟩ := p
  obtain ⟨q1, q2⟩ := q
  unfold neighborPixels
  by_cases hc : c = 8
  · subst hc
    rw [neighborIndices_eight]
    simp [GetNeighborPixel]
  · rw [neighborIndices_other hc]
    simp [GetNeighborPixel, hc]

theorem neighborPixels_symm (c : Int) (q p : Pixel) (h : p ∈ neighborPixels c q) :
    q ∈ neighborPixels c p := by
  rw [mem_neighborPixels] at h ⊢
  rcases h with h | h | h | h | ⟨hc, h | h | h | h⟩
  · right; left; omega
  · left; omega
  · right; right; right; left; omega
  · right; right; left; omega
  · right; right; right; right; exact ⟨hc, by right; right; right; omega⟩
  · right; right; right; right; exact ⟨hc, by right; right; left; omega⟩
  · right; right; right; right; exact ⟨hc, by right; left; omega⟩
  · right; right; right; right; exact ⟨hc, by left; omega⟩

theorem FloodFill_layerFields (image : Mat) (fuel : Nat) (hf : HoleFiller) (p : Pixel)
    (hf1 : HoleFiller) (h : FloodFill fuel image hf p = Except.ok hf1) :
    hf1.layerMap = hf.layerMap ∧ hf1.layerMapReverse = hf.layerMapReverse ∧
      hf1.tempLayerVector = hf.tempLayerVector ∧ hf1.curLayerVector = hf.curLayerVector := by
  have key := FloodFill_invariant image hf.connectivity_
    (fun st => (st.layerMap = hf.layerMap ∧ st.layerMapReverse = hf.layerMapReverse ∧
      st.tempLayerVector = hf.tempLayerVector ∧ st.curLayerVector = hf.curLayerVector) ∧
      st.connectivity_ = hf.connectivity_)
    (fun _ => True) (fun st hst => hst.2) (fun _ _ _ _ _ _ => trivial)
    (fun st q hst _ _ => hst) (fun st q v hst _ _ _ _ => hst) (fun st q hst _ _ _ => hst)
    fuel hf p hf1 ⟨⟨rfl, rfl, rfl, rfl⟩, rfl⟩ trivial h
  exact key.1

theorem LoopInv_init (image : Mat) (seg : HoleFiller) (hmap : seg.layerMap = fun _ => none)
    (hrev : seg.layerMapReverse = []) (htmp : seg.tempLayerVector = []) :
    LoopInv image 0 { seg with curLayerVector := seg.boundaryPixelsCoordinatesVector_ } := by
  have hnone : ∀ p, depthOf image.cols
      { seg with curLayerVector := seg.boundaryPixelsCoordinatesVector_ } p = none := by
    intro p
    unfold depthOf
    simp only
    rw [hmap]
  constructor
  · exact le_refl _
  · intro p d _ hd
    rw [hnone] at hd
    simp at hd
  · intro _; rfl
  · intro h1
    omega
  · exact htmp
  · intro p d _ hd
    rw [hnone] at hd
    simp at hd
  · intro q d _ hd
    rw [hnone] at hd
    simp at hd
  · intro h1
    omega
  · intro k q
    rw [hnone]
    simp only [hrev, keyed, List.not_mem_nil, false_and, exists_false, false_iff, not_and]
    intro _ h
    simp at h
  · unfold keysSorted
    simp only [hrev, List.map_nil, List.Pairwise.nil]

/-- Layer builder on a freshly segmented square image: the depth map it returns is a
breadth-first layering from the boundary through sentinel pixels. -/
theorem SetLayers_layered {image : Mat} (hsq : image.rows = image.cols) {seg lay : HoleFiller}
    (hmap : seg.layerMap = fun _ => none) (hrev : seg.layerMapReverse = [])
    (htmp : seg.tempLayerVector = [])
    (h : SetLayers seg image = Except.ok lay) : Layered image lay := by
  unfold SetLayers at h
  obtain ⟨L1, hI, hnil, _⟩ := setLayersLoop_inv hsq _ 0 _ lay
    (LoopInv_init image seg hmap hrev htmp) h
  exact Layered_of_LoopInv hI hnil

theorem layeredState_ok {hf lay : HoleFiller} {image : Mat}
    (h : layeredState hf image = Except.ok lay) :
    ∃ seg, FindHoleAndBoundaryPixels hf image = Except.ok seg ∧
      SetLayers seg image = Except.ok lay := by
  unfold layeredState at h
  split at h
  · simp at h
  · rename_i seg hseg
    exact ⟨seg, hseg, h⟩

/-! ## Flood fill of a hole away from the border -/

theorem floodExtends_refl (image : Mat) (a : HoleFiller) : floodExtends image a a :=
  ⟨rfl, fun _ h => h, fun _ h => h, fun _ h => h, fun _ h => Or.inl h⟩

theorem neighboursVisited_mono {image : Mat} {a b : HoleFiller} {h : Pixel}
    (hc : b.connectivity_ = a.connectivity_) (hv : a.visitedSet ⊆ b.visitedSet)
    (hn : neighboursVisited image a h) : neighboursVisited image b h := by
  intro q hq
  rw [hc] at hq
  exact hv (hn q hq)

theorem floodExtends_trans (image : Mat) (a b c : HoleFiller) (h1 : floodExtends image a b)
    (h2 : floodExtends image b c) : floodExtends image a c := by
  obtain ⟨hc1, hv1, hh1, hb1, hcl1⟩ := h1
  obtain ⟨hc2, hv2, hh2, hb2, hcl2⟩ := h2
  refine ⟨hc2.trans hc1, fun _ h => hv2 (hv1 h), fun _ h => hh2 (hh1 h),
    fun _ h => hb2 (hb1 h), ?_⟩
  intro h hh
  rcases hcl2 h hh with h3 | h3
  · rcases hcl1 h h3 with h4 | h4
    · exact Or.inl h4
    · exact Or.inr (neighboursVisited_mono hc2 hv2 h4)
  · exact Or.inr h3

theorem HoleReach_sentinel {image : Mat} {c : Int} {seed h : Pixel}
    (hr : HoleReach image c seed h) : image.at h.1 h.2 = Except.ok holeVal := by
  cases hr with
  | seed hv => exact hv
  | step p _ _ _ hv => exact hv

theorem inBounds_of_inRange_square {image : Mat} (hsq : image.rows = image.cols) {p : Pixel}
    (hr : image.inRange p.1 p.2) : inBounds image p := by
  unfold inBounds
  unfold Mat.inRange at hr
  push_neg
  omega

/-- Flood fill from a pixel that is the seed or a neighbour of the hole component, when
the component is away from the border: the visited set stays recorded, and every hole
pixel added has all its neighbours visited. -/
theorem FloodFill_complete {image : Mat} (hsq : image.rows = image.cols) (c : Int)
    (seed : Pixel) (hseed : inBounds image seed) (hint : Interior image c seed) :
    ∀ (fuel : Nat) (st st1 : HoleFiller) (p : Pixel),
      st.connectivity_ = c →
      (p = seed ∨ ∃ h, HoleReach image c seed h ∧ p ∈ neighborPixels c h) →
      visitedRecorded image st →
      FloodFill fuel image st p = Except.ok st1 →
      visitedRecorded image st1 ∧ floodExtends image st st1 ∧
        INDEX p.2 p.1 image.cols ∈ st1.visitedSet := by
  intro fuel
  induction fuel with
  | zero => intro st st1 p _ _ _ h; simp [FloodFill] at h
  | succ n ih =>
    intro st st1 p hc hA hrec h
    have hpb : inBounds image p := by
      rcases hA with rfl | ⟨h0, hr0, hm⟩
      · exact hseed
      · exact inBounds_of_inRange_square hsq (hint h0 hr0 p hm)
    rw [FloodFill] at h
    simp only at h
    split at h
    · rename_i hvis
      simp only [Except.ok.injEq] at h
      subst h
      exact ⟨hrec, floodExtends_refl _ _, hvis⟩
    · rename_i hnv
      rw [if_neg hpb] at h
      split at h
      · simp at h
      · rename_i v hv
        split at h
        · rename_i hne
          simp only [Except.ok.injEq] at h
          subst h
          refine ⟨?_, ⟨rfl, ?_, fun _ hh => hh, ?_, fun _ hh => Or.inl hh⟩, ?_⟩
          · intro k hk
            simp only [List.mem_cons] at hk
            rcases hk with rfl | hk
            · exact ⟨p, hpb, rfl, Or.inr (by simp)⟩
            · obtain ⟨r, hr1, hr2, hr3⟩ := hrec k hk
              refine ⟨r, hr1, hr2, ?_⟩
              rcases hr3 with hr3 | hr3
              · exact Or.inl hr3
              · exact Or.inr (by simp [hr3])
          · intro k hk
            exact List.mem_cons_of_mem _ hk
          · intro k hk
            simp [hk]
          · simp
        · rename_i heq
          have hvv : v = holeVal := by simpa using heq
          subst hvv
          have hreach : HoleReach image c seed p := by
            rcases hA with rfl | ⟨h0, hr0, hm⟩
            · exact HoleReach.seed hv
            · exact HoleReach.step h0 p hr0 hm hv
          have key := forPixels_post (floodExtends image) (floodExtends_refl image)
            (floodExtends_trans image)
            (fun a => visitedRecorded image a ∧ a.connectivity_ = c)
            (fun q => q ∈ neighborPixels c p)
            (fun q a => INDEX q.2 q.1 image.cols ∈ a.visitedSet)
            ?_ ?_ _ _ st1 ?_ ?_ h
          · obtain ⟨⟨hrec1, hc1⟩, hpost, hext⟩ := key
            obtain ⟨he1, he2, he3, he4, he5⟩ := hext
            simp only at he1 he2 he3 he4 he5
            refine ⟨hrec1, ⟨he1, ?_, ?_, he4, ?_⟩, ?_⟩
            · intro k hk
              exact he2 (List.mem_cons_of_mem _ hk)
            · intro k hk
              exact he3 (by simp [hk])
            · intro h0 hh0
              rcases he5 h0 hh0 with h1 | h1
              · simp only [List.mem_append, List.mem_singleton] at h1
                rcases h1 with h1 | rfl
                · exact Or.inl h1
                · right
                  intro q hq
                  rw [hc1, ← hc] at hq
                  exact hpost q hq
              · exact Or.inr h1
            · exact he2 (List.mem_cons_self _ _)
          · intro a q a1 ha hq hs
            obtain ⟨h1, h2, h3⟩ := ih a a1 q ha.2 (Or.inr ⟨p, hreach, hq⟩) ha.1 hs
            exact ⟨⟨h1, h2.1.trans ha.2⟩, h3, h2⟩
          · intro a b q hrel hpost
            exact hrel.2.1 hpost
          · intro q hq
            simp only at hq
            rw [hc] at hq
            exact hq
          · refine ⟨?_, hc⟩
            intro k hk
            simp only [List.mem_cons] at hk
            rcases hk with rfl | hk
            · exact ⟨p, hpb, rfl, Or.inl (by simp)⟩
            · obtain ⟨r, hr1, hr2, hr3⟩ := hrec k hk
              refine ⟨r, hr1, hr2, ?_⟩
              rcases hr3 with hr3 | hr3
              · exact Or.inl (by simp [hr3])
              · exact Or.inr hr3

theorem HoleReach_seed_sentinel {image : Mat} {c : Int} {seed h : Pixel}
    (hr : HoleReach image c seed h) : image.at seed.1 seed.2 = Except.ok holeVal := by
  induction hr with
  | seed hv => exact hv
  | step _ _ _ _ _ ih => exact ih

theorem FloodFill_boundary_adjacent (image : Mat) (fuel : Nat) (hf : HoleFiller) (seed : Pixel)
    (hf1 : HoleFiller) (h : FloodFill fuel image hf seed = Except.ok hf1)
    (h0 : hf.boundaryPixelsCoordinatesVector_ = [])
    (hseed : image.at seed.1 seed.2 = Except.ok holeVal ∨ ¬ inBounds image seed) :
    ∀ b ∈ hf1.boundaryPixelsCoordinatesVector_,
      inBounds image b ∧ (∃ v, image.at b.1 b.2 = Except.ok v ∧ v ≠ holeVal) ∧
      ∃ r, HoleReach image hf.connectivity_ seed r ∧ b ∈ neighborPixels hf.connectivity_ r := by
  have hA : ∀ p : Pixel,
      (p = seed ∨ ∃ r, HoleReach image hf.connectivity_ seed r ∧ p ∈ neighborPixels hf.connectivity_ r) →
      image.at p.1 p.2 = Except.ok holeVal → HoleReach image hf.connectivity_ seed p := by
    intro p hp hv
    rcases hp with rfl | ⟨r, hr, hm⟩
    · exact HoleReach.seed hv
    · exact HoleReach.step r p hr hm hv
  have key := FloodFill_invariant image hf.connectivity_
    (fun st => (∀ b ∈ st.boundaryPixelsCoordinatesVector_,
      inBounds image b ∧ (∃ v, image.at b.1 b.2 = Except.ok v ∧ v ≠ holeVal) ∧
      ∃ r, HoleReach image hf.connectivity_ seed r ∧ b ∈ neighborPixels hf.connectivity_ r) ∧
      st.connectivity_ = hf.connectivity_)
    (fun p => p = seed ∨
      ∃ r, HoleReach image hf.connectivity_ seed r ∧ p ∈ neighborPixels hf.connectivity_ r)
    (fun st hst => hst.2) ?_ ?_ ?_ ?_
    fuel hf seed hf1 ⟨by simp [h0], rfl⟩ (Or.inl rfl) h
  · exact key.1
  · intro p q hp _ hv hq
    exact Or.inr ⟨p, hA p hp hv, hq⟩
  · intro st q hst _ _; exact hst
  · intro st q v hst hq hb hv hne
    refine ⟨?_, hst.2⟩
    intro b hb1
    simp only [List.mem_append, List.mem_singleton] at hb1
    rcases hb1 with hb1 | rfl
    · exact hst.1 b hb1
    · refine ⟨hb, ⟨v, hv, hne⟩, ?_⟩
      rcases hq with rfl | hq
      · rcases hseed with hs | hs
        · rw [hv] at hs
          simp only [Except.ok.injEq] at hs
          exact absurd hs hne
        · exact absurd hb hs
      · exact hq
  · intro st q hst _ _ _; exact hst

theorem FindFirstHolePixel_seed {image : Mat} {seed : Pixel}
    (h : FindFirstHolePixel image = Except.ok seed) :
    (inBounds image seed ∧ image.at seed.1 seed.2 = Except.ok holeVal) ∨ ¬ inBounds image seed := by
  rcases findFirstHoleIn_ok image _ seed h with ⟨h1, h2⟩ | ⟨h1, _⟩
  · exact Or.inl ⟨(mem_scanOrder image seed).mp h1, h2⟩
  · right
    rw [h1]
    unfold inBounds HOLE_VALUE
    simp

/-- Layering reaches the whole hole component once the boundary is not empty, and the
component is then away from the border. -/
theorem interior_of_layered {image : Mat} {c : Int} {seed : Pixel} {lay : HoleFiller}
    (hlay : Layered image lay) (hc : lay.connectivity_ = c)
    {b h0 : Pixel} (hb : b ∈ lay.boundaryPixelsCoordinatesVector_)
    (hh0 : HoleReach image c seed h0) (hadj : b ∈ neighborPixels c h0) :
    (∀ h, HoleReach image c seed h →
      image.inRange h.1 h.2 ∧ ∃ d, depthOf image.cols lay h = some d) ∧
    Interior image c seed := by
  have hstep : ∀ q p : Pixel, (image.inRange q.1 q.2 ∧ ∃ d, depthOf image.cols lay q = some d) →
      p ∈ neighborPixels c q → image.at p.1 p.2 = Except.ok holeVal →
      (image.inRange p.1 p.2 ∧ ∃ d, depthOf image.cols lay p = some d) := by
    intro q p ⟨hqr, d, hd⟩ hp hv
    have := hlay.closed q d hqr hd p (by rw [hc]; exact hp)
    obtain ⟨d1, hd1, _⟩ := this.2 hv
    exact ⟨this.1, d1, hd1⟩
  have h0lay : image.inRange h0.1 h0.2 ∧ ∃ d, depthOf image.cols lay h0 = some d := by
    have := hlay.closedB b hb h0 (by rw [hc]; exact neighborPixels_symm c h0 b hadj)
    obtain ⟨d1, hd1, _⟩ := this.2 (HoleReach_sentinel hh0)
    exact ⟨this.1, d1, hd1⟩
  have hback : ∀ h, HoleReach image c seed h →
      (image.inRange h.1 h.2 ∧ ∃ d, depthOf image.cols lay h = some d) →
      (image.inRange seed.1 seed.2 ∧ ∃ d, depthOf image.cols lay seed = some d) := by
    intro h hr
    induction hr with
    | seed _ => exact fun hh => hh
    | step p q hp hq _ ih =>
      intro hql
      exact ih (hstep q p hql (neighborPixels_symm c p q hq) (HoleReach_sentinel hp))
  have hseedlay := hback h0 hh0 h0lay
  have hall : ∀ h, HoleReach image c seed h →
      (image.inRange h.1 h.2 ∧ ∃ d, depthOf image.cols lay h = some d) := by
    intro h hr
    induction hr with
    | seed _ => exact hseedlay
    | step p q _ hq hv ih => exact hstep p q ih hq hv
  refine ⟨hall, ?_⟩
  intro h hr q hq
  obtain ⟨hhr, d, hd⟩ := hall h hr
  exact (hlay.closed h d hhr hd q (by rw [hc]; exact hq)).1

theorem recorded_of_visited {image : Mat} (hsq : image.rows = image.cols) {st : HoleFiller}
    (hrec : visitedRecorded image st) {q : Pixel} (hq : image.inRange q.1 q.2)
    (hv : INDEX q.2 q.1 image.cols ∈ st.visitedSet) :
    q ∈ st.holePixelsVector_ ∨ q ∈ st.boundaryPixelsCoordinatesVector_ := by
  obtain ⟨r, hr1, hr2, hr3⟩ := hrec _ hv
  have : r = q := INDEX_injective hsq (inRange_of_inBounds_square hsq hr1) hq hr2
  rw [← this]
  exact hr3

/-- Segmentation and layer building on a square image with a non-empty boundary. -/
theorem iterative_setup {image : Mat} (hsq : image.rows = image.cols) (z : Int) (epsilon : ℚ)
    (c a : Int) (w : WeightFunctionType) {seg lay : HoleFiller}
    (hseg : FindHoleAndBoundaryPixels (HoleFiller.new z epsilon c a w) image = Except.ok seg)
    (hlay : SetLayers seg image = Except.ok lay)
    (hB : seg.boundaryPixelsCoordinatesVector_ ≠ []) :
    ∃ seed, IterativeSetup image c seg lay seed := by
  obtain ⟨seed, hseed, hff⟩ := FindHoleAndBoundaryPixels_ok hseg
  have hfields := FloodFill_layerFields image _ _ seed seg hff
  have hcfg := FloodFill_sameConfig image _ _ seed seg hff
  have hconnSeg : seg.connectivity_ = c := hcfg.2.2.1
  have hlayered : Layered image lay :=
    SetLayers_layered hsq hfields.1 hfields.2.1 hfields.2.2.1 hlay
  obtain ⟨hcfg2, hholes, hbnd, _⟩ := SetLayers_sameConfig hlay
  have hconn : lay.connectivity_ = c := hcfg2.2.2.1.trans hconnSeg
  have hseedcases := FindFirstHolePixel_seed hseed
  have hadj := FloodFill_boundary_adjacent image _ _ seed seg hff rfl
    (by rcases hseedcases with h1 | h1
        · exact Or.inl h1.2
        · exact Or.inr h1)
  simp only [HoleFiller.new] at hadj
  obtain ⟨b, hb⟩ := List.exists_mem_of_ne_nil _ hB
  obtain ⟨_, _, h0, hh0, hbh0⟩ := hadj b hb
  have hseedHole := HoleReach_seed_sentinel hh0
  have hseedB : inBounds image seed := by
    rcases hseedcases with h1 | h1
    · exact h1.1
    · exact absurd (inBounds_of_inRange_square hsq (Mat.at_eq_ok hseedHole).1) h1
  obtain ⟨hdepth, hint⟩ := interior_of_layered hlayered hconn (by rw [hbnd]; exact hb) hh0 hbh0
  obtain ⟨hrec, hext, hvis⟩ := FloodFill_complete hsq c seed hseedB hint _ _ seg seed rfl
    (Or.inl rfl) (by intro k hk; simp [HoleFiller.new] at hk) hff
  have hHsent := FloodFill_holes image _ _ seed seg hff
    (fun q => image.at q.1 q.2 = Except.ok holeVal) (by simp [HoleFiller.new])
    (fun q _ hq => hq)
  have hHreach := FloodFill_reach image _ _ seed seg hff rfl
  simp only [HoleFiller.new] at hHreach
  have hclosed : ∀ h ∈ seg.holePixelsVector_, neighboursVisited image seg h := by
    intro h hh
    rcases hext.2.2.2.2 h hh with h1 | h1
    · simp [HoleFiller.new] at h1
    · exact h1
  have hsplit : ∀ q, image.inRange q.1 q.2 → INDEX q.2 q.1 image.cols ∈ seg.visitedSet →
      (image.at q.1 q.2 = Except.ok holeVal → q ∈ seg.holePixelsVector_) ∧
      (image.at q.1 q.2 ≠ Except.ok holeVal → q ∈ seg.boundaryPixelsCoordinatesVector_) := by
    intro q hq hv
    rcases recorded_of_visited hsq hrec hq hv with h1 | h1
    · exact ⟨fun _ => h1, fun hne => absurd (hHsent q h1) hne⟩
    · refine ⟨fun hs => ?_, fun _ => h1⟩
      obtain ⟨_, ⟨v, hv1, hv2⟩, _⟩ := hadj q h1
      rw [hv1] at hs
      simp only [Except.ok.injEq] at hs
      exact absurd hs hv2
  have hreachH : ∀ p, HoleReach image c seed p → p ∈ seg.holePixelsVector_ := by
    intro p hp
    induction hp with
    | seed hv => exact (hsplit seed (Mat.at_eq_ok hv).1 hvis).1 hv
    | step p q _ hq hv ih =>
      have := hclosed p ih q (by rw [hconnSeg]; exact hq)
      exact (hsplit q (Mat.at_eq_ok hv).1 this).1 hv
  refine ⟨seed, hseed, hseedHole, hlayered, hconn, hconnSeg, hholes, hbnd, hint,
    fun p => ⟨hHreach p, hreachH p⟩, ?_, hdepth⟩
  intro q
  constructor
  · intro hq
    obtain ⟨hqb, ⟨v, hv1, hv2⟩, r, hr1, hr2⟩ := hadj q hq
    refine ⟨(Mat.at_eq_ok hv1).1, ?_, r, hr1, hr2⟩
    rw [hv1]
    intro he
    simp only [Except.ok.injEq] at he
    exact hv2 he
  · rintro ⟨hqr, hne, r, hr1, hr2⟩
    have := hclosed r (hreachH r hr1) q (by rw [hconnSeg]; exact hr2)
    exact (hsplit q hqr this).2 hne

/-! ## Depth map -/

/-- C9 (counterexample). On the 3×3 image that holds only sentinels (connectivity 4) the
segmentation and `SetLayers` return, the hole vector contains `(0, 0)`, the boundary is
empty, and `layerMap` has no entry for `(0, 0)`: the depth map is not total on `H`. -/
theorem depth_map_not_total_without_boundary :
    (layeredState (HoleFiller.new 2 (1 / 100) 4 2 unitWeight) imageAllHole3).toOption.map
        (fun lay => (decide ((0, 0) ∈ lay.holePixelsVector_),
          lay.boundaryPixelsCoordinatesVector_)) = some (true, []) ∧
    (layeredState (HoleFiller.new 2 (1 / 100) 4 2 unitWeight) imageAllHole3).toOption.map
        (fun lay => lay.layerMap (INDEX 0 0 imageAllHole3.cols)) = some none ∧
    (layeredState (HoleFiller.new 2 (1 / 100) 4 2 unitWeight) imageAllHole3).toOption.map
        (fun lay => lay.layerMapReverse) = some [] := by
  refine ⟨by decide!, by decide!, by decide!⟩

/-- Whenever the layer builder returns on a square image with a non-empty boundary, the
depth map is the breadth-first layering of the hole vector. -/
theorem depth_map_core (image : Mat) (hsq : image.rows = image.cols)
    (z : Int) (epsilon : ℚ) (c a : Int) (w : WeightFunctionType) (seg lay : HoleFiller)
    (hseg : FindHoleAndBoundaryPixels (HoleFiller.new z epsilon c a w) image = Except.ok seg)
    (hlay : SetLayers seg image = Except.ok lay)
    (hB : seg.boundaryPixelsCoordinatesVector_ ≠ []) :
    (∀ p ∈ seg.holePixelsVector_, ∃ d, lay.layerMap (INDEX p.2 p.1 image.cols) = some d ∧
      1 ≤ d ∧
      (d = 1 ↔ ∃ b ∈ seg.boundaryPixelsCoordinatesVector_, b ∈ neighborPixels c p) ∧
      (d ≠ 1 →
        (∃ q ∈ seg.holePixelsVector_, q ∈ neighborPixels c p ∧
          lay.layerMap (INDEX q.2 q.1 image.cols) = some (d - 1)) ∧
        (∀ q ∈ seg.holePixelsVector_, q ∈ neighborPixels c p →
          ∀ dq, lay.layerMap (INDEX q.2 q.1 image.cols) = some dq → d - 1 ≤ dq))) ∧
    (∃ p ∈ seg.holePixelsVector_, lay.layerMap (INDEX p.2 p.1 image.cols) = some 1) := by
  obtain ⟨seed, hS⟩ := iterative_setup hsq z epsilon c a w hseg hlay hB
  have hL := hS.layered
  have hmain : ∀ p ∈ seg.holePixelsVector_, ∃ d, depthOf image.cols lay p = some d ∧
      1 ≤ d ∧
      (d = 1 ↔ ∃ b ∈ seg.boundaryPixelsCoordinatesVector_, b ∈ neighborPixels c p) ∧
      (d ≠ 1 →
        (∃ q ∈ seg.holePixelsVector_, q ∈ neighborPixels c p ∧
          depthOf image.cols lay q = some (d - 1)) ∧
        (∀ q ∈ seg.holePixelsVector_, q ∈ neighborPixels c p →
          ∀ dq, depthOf image.cols lay q = some dq → d - 1 ≤ dq)) := by
    intro p hp
    have hreach := (hS.holeIff p).mp hp
    obtain ⟨hpr, d, hd⟩ := hS.depth p hreach
    have hsent := HoleReach_sentinel hreach
    obtain ⟨_, hd1⟩ := hL.sent p d hpr hd
    obtain ⟨hpar1, hpar2⟩ := hL.parent p d hpr hd
    refine ⟨d, hd, hd1, ⟨fun h1 => ?_, fun hb => ?_⟩, fun hne => ⟨?_, ?_⟩⟩
    · obtain ⟨b, hb1, hb2⟩ := hpar1 h1
      rw [hS.conn] at hb2
      exact ⟨b, by rw [← hS.bnd]; exact hb1, neighborPixels_symm c b p hb2⟩
    · obtain ⟨b, hb1, hb2⟩ := hb
      have := hL.closedB b (by rw [hS.bnd]; exact hb1) p
        (by rw [hS.conn]; exact neighborPixels_symm c p b hb2)
      obtain ⟨d2, hd2, hle⟩ := this.2 hsent
      rw [hd] at hd2
      simp only [Option.some.injEq] at hd2
      omega
    · obtain ⟨q, hq1, hq2, hq3⟩ := hpar2 (by omega)
      rw [hS.conn] at hq3
      have hqn := neighborPixels_symm c q p hq3
      have hqs := (hL.sent q _ hq1 hq2).1
      exact ⟨q, (hS.holeIff q).mpr (HoleReach.step p q hreach hqn hqs), hqn, hq2⟩
    · intro q hq hqn dq hdq
      have hqreach := (hS.holeIff q).mp hq
      have := hL.closed q dq (hS.depth q hqreach).1 hdq p
        (by rw [hS.conn]; exact neighborPixels_symm c p q hqn)
      obtain ⟨d2, hd2, hle⟩ := this.2 hsent
      rw [hd] at hd2
      simp only [Option.some.injEq] at hd2
      omega
  refine ⟨hmain, ?_⟩
  obtain ⟨b, hb⟩ := List.exists_mem_of_ne_nil _ hB
  obtain ⟨_, _, h0, hh0, hbh0⟩ := (hS.bndIff b).mp hb
  have hh0H := (hS.holeIff h0).mpr hh0
  obtain ⟨d, hd, _, hiff, _⟩ := hmain h0 hh0H
  have : d = 1 := hiff.mpr ⟨b, hb, hbh0⟩
  subst this
  exact ⟨h0, hh0H, hd⟩

/-- The layer builder reads outside the image when a boundary pixel lies on the border:
on the 3×3 image with only the centre a hole, segmentation returns and layer building
stops with an out-of-range access. -/
theorem layer_builder_reads_outside_image :
    layeredState (HoleFiller.new 2 (1 / 100) 4 2 unitWeight) imageConst3
      = Except.error Fault.outOfRange := by
  have h : ∀ r : Except Fault HoleFiller,
      (match r with
        | Except.error e => decide (e = Fault.outOfRange)
        | Except.ok _ => false) = true → r = Except.error Fault.outOfRange := by
    intro r hr
    cases r with
    | error e => simp at hr; rw [hr]
    | ok v => simp at hr
  exact h _ (by decide!)

/-! ## Iterative filler: bounds -/

theorem mem_contributing (m : Mat) (hf : HoleFiller) (p q : Pixel) (v : Val) :
    (q, v) ∈ contributing m hf p ↔
      (q ∈ neighborPixels hf.connectivity_ p ∧ v = m.data q.1 q.2 ∧ v ≠ holeVal ∧
        layerOf m.cols hf q ≤ layerOf m.cols hf p) := by
  unfold contributing
  rw [List.mem_filterMap]
  constructor
  · rintro ⟨r, hr1, hr2⟩
    split at hr2
    · rename_i hc
      simp only [Option.some.injEq, Prod.mk.injEq] at hr2
      obtain ⟨rfl, rfl⟩ := hr2
      exact ⟨hr1, rfl, hc.1, hc.2⟩
    · simp at hr2
  · rintro ⟨h1, h2, h3, h4⟩
    refine ⟨q, h1, ?_⟩
    rw [if_pos ⟨h2 ▸ h3, h4⟩, h2]

theorem goodVal_ne_hole {lo hi : ℚ} (hout : (HOLE_VALUE : ℚ) < lo ∨ hi < (HOLE_VALUE : ℚ))
    {v : Val} (hv : goodVal lo hi v) : v ≠ holeVal := by
  obtain ⟨u, rfl, h1, h2⟩ := hv
  unfold holeVal
  intro he
  simp only [Val.fin.injEq] at he
  subst he
  rcases hout with h | h
  · exact absurd h1 (not_le.mpr h)
  · exact absurd h2 (not_le.mpr h)

theorem keyed_inLayers {layers : List (Int × List Pixel)} {k : Int} {q : Pixel}
    (h : keyed layers k q) : inLayers layers q := by
  obtain ⟨l, hl, _, hq⟩ := h
  exact ⟨l, hl, hq⟩

theorem inLayers_keyed {layers : List (Int × List Pixel)} {q : Pixel}
    (h : inLayers layers q) : ∃ k, keyed layers k q := by
  obtain ⟨l, hl, hq⟩ := h
  exact ⟨l.1, l, hl, rfl, hq⟩

/-- Values that a pixel update of a hole pixel may read are within the bounds. -/
theorem contributing_good {image : Mat} {c : Int} {seg lay : HoleFiller} {seed : Pixel}
    {lo hi : ℚ} (ctx : FillContext image c seg lay seed lo hi) {Pend : Pixel → Prop}
    {st : Mat × HoleFiller}
    (hinv : SweepInv image lay seg.holePixelsVector_ lo hi Pend st) {p : Pixel}
    (hp : p ∈ seg.holePixelsVector_) :
    ∀ e ∈ contributing st.1 st.2 p, goodVal lo hi e.2 := by
  intro e he
  obtain ⟨q, v⟩ := e
  obtain ⟨hq, hv, hne, _⟩ := (mem_contributing _ _ _ _ _).mp he
  have hS := ctx.setup
  have hconn : st.2.connectivity_ = c := by
    obtain ⟨lm, hlm, _⟩ := hinv.same
    rw [hlm]
    exact hS.conn
  rw [hconn] at hq
  have hreach := (hS.holeIff p).mp hp
  have hqr := hS.interior p hreach q hq
  simp only
  by_cases hqs : image.at q.1 q.2 = Except.ok holeVal
  · have hqH := (hS.holeIff q).mpr (HoleReach.step p q hreach hq hqs)
    rcases hinv.good q hqH with hg | ⟨hh, _⟩
    · rw [hv]; exact hg
    · rw [hv] at hne
      exact absurd hh hne
  · have hqB : q ∈ seg.boundaryPixelsCoordinatesVector_ :=
      (hS.bndIff q).mpr ⟨hqr, hqs, p, hreach, hq⟩
    have hnl : ¬ inLayers lay.layerMapReverse q := by
      intro hin
      obtain ⟨k, hk⟩ := inLayers_keyed hin
      obtain ⟨_, hd⟩ := (hS.layered.rev k q).mp hk
      exact hqs (hS.layered.sent q k hqr hd).1
    rw [hv, hinv.frame q hnl]
    exact ctx.bvals q hqB

/-- Some neighbour contributes to the update of a hole pixel whose parents are not
pending. -/
theorem contributing_nonempty {image : Mat} {c : Int} {seg lay : HoleFiller} {seed : Pixel}
    {lo hi : ℚ} (ctx : FillContext image c seg lay seed lo hi) {Pend : Pixel → Prop}
    {st : Mat × HoleFiller}
    (hinv : SweepInv image lay seg.holePixelsVector_ lo hi Pend st) {p : Pixel} {k : Int}
    (hp : p ∈ seg.holePixelsVector_) (hk : depthOf image.cols lay p = some k)
    (hPR : ∀ q, depthOf image.cols lay q = some (k - 1) → ¬ Pend q) :
    contributing st.1 st.2 p ≠ [] := by
  have hS := ctx.setup
  have hL := hS.layered
  have hconn : st.2.connectivity_ = c := by
    obtain ⟨lm, hlm, _⟩ := hinv.same
    rw [hlm]
    exact hS.conn
  have hlayer : ∀ r, layerOf st.1.cols st.2 r = layerOf image.cols lay r := by
    intro r
    rw [hinv.cols]
    exact sameButLayerMap_layerOf hinv.same image.cols r
  have hreach := (hS.holeIff p).mp hp
  have hpr := (hS.depth p hreach).1
  have hlp : layerOf image.cols lay p = k := by
    unfold layerOf
    unfold depthOf at hk
    rw [hk]
    rfl
  obtain ⟨_, hk1⟩ := hL.sent p k hpr hk
  obtain ⟨hpar1, hpar2⟩ := hL.parent p k hpr hk
  by_cases hk1' : k = 1
  · obtain ⟨b, hb1, hb2⟩ := hpar1 hk1'
    rw [hS.conn] at hb2
    rw [hS.bnd] at hb1
    have hbn := neighborPixels_symm c b p hb2
    obtain ⟨hbr, hbns, _⟩ := (hS.bndIff b).mp hb1
    have hnl : ¬ inLayers lay.layerMapReverse b := by
      intro hin
      obtain ⟨k2, hk2⟩ := inLayers_keyed hin
      obtain ⟨_, hd⟩ := (hL.rev k2 b).mp hk2
      exact hbns (hL.sent b k2 hbr hd).1
    have hbd : depthOf image.cols lay b = none := by
      cases hd : depthOf image.cols lay b with
      | none => rfl
      | some d => exact absurd (hL.sent b d hbr hd).1 hbns
    have hlb : layerOf image.cols lay b = 0 := by
      unfold layerOf
      unfold depthOf at hbd
      rw [hbd]
      rfl
    have hmem : (b, st.1.data b.1 b.2) ∈ contributing st.1 st.2 p := by
      rw [mem_contributing, hconn, hlayer, hlayer, hlb, hlp]
      refine ⟨hbn, rfl, ?_, by omega⟩
      rw [hinv.frame b hnl]
      exact goodVal_ne_hole ctx.sentinelOut (ctx.bvals b hb1)
    exact List.ne_nil_of_mem hmem
  · obtain ⟨q, hq1, hq2, hq3⟩ := hpar2 (by omega)
    rw [hS.conn] at hq3
    have hqn := neighborPixels_symm c q p hq3
    have hqs := (hL.sent q _ hq1 hq2).1
    have hqH := (hS.holeIff q).mpr (HoleReach.step p q hreach hqn hqs)
    have hlq : layerOf image.cols lay q = k - 1 := by
      unfold layerOf
      unfold depthOf at hq2
      rw [hq2]
      rfl
    have hmem : (q, st.1.data q.1 q.2) ∈ contributing st.1 st.2 p := by
      rw [mem_contributing, hconn, hlayer, hlayer, hlq, hlp]
      refine ⟨hqn, rfl, ?_, by omega⟩
      rcases hinv.good q hqH with hg | ⟨_, hpend⟩
      · exact goodVal_ne_hole ctx.sentinelOut hg
      · exact absurd hpend (hPR q hq2)
    exact List.ne_nil_of_mem hmem

/-- One pixel update keeps the sweep invariant; the updated pixel is no longer pending. -/
theorem updatePixel_good {image : Mat} {c : Int} {seg lay : HoleFiller} {seed : Pixel}
    {lo hi : ℚ} (ctx : FillContext image c seg lay seed lo hi) {Pend : Pixel → Prop}
    {st st1 : Mat × HoleFiller} {p : Pixel} {k : Int}
    (hk : keyed lay.layerMapReverse k p)
    (hPR : ∀ q, depthOf image.cols lay q = some (k - 1) → ¬ Pend q)
    (hinv : SweepInv image lay seg.holePixelsVector_ lo hi Pend st)
    (h : updatePixel image st p = Except.ok st1) :
    SweepInv image lay seg.holePixelsVector_ lo hi (fun q => Pend q ∧ q ≠ p) st1 := by
  obtain ⟨m, hf⟩ := st
  obtain ⟨m1, hf1⟩ := st1
  obtain ⟨_, _, hsame, hrows, hcols, hval, hframe⟩ := updatePixel_ok hinv.cols h
  have hd := ((ctx.setup.layered.rev k p).mp hk).2
  constructor
  · exact hrows.trans hinv.rows
  · exact hcols.trans hinv.cols
  · exact sameButLayerMap_trans hinv.same hsame
  · intro q hq
    have hne : q ≠ p := fun he => hq (he ▸ keyed_inLayers hk)
    simp only
    rw [hframe q hne]
    exact hinv.frame q hq
  · intro r hr
    simp only
    by_cases hrp : r = p
    · subst hrp
      left
      rw [hval]
      have hw : ∀ e ∈ contributing m hf r, 0 < hf.weightFunc_ r e.1 hf.z_ hf.epsilon_ := by
        intro e he
        have hn := ((mem_contributing m hf r e.1 e.2).mp he).1
        obtain ⟨lm, hlm, _⟩ := hinv.same
        simp only at hlm
        rw [hlm] at hn ⊢
        exact ctx.wpos _ _ hn
      exact weightedMean_bounds hf.weightFunc_ r hf.z_ hf.epsilon_ lo hi _
        (contributing_nonempty ctx hinv hr hd hPR) hw
        (fun e he => contributing_good ctx hinv hr e he)
    · rw [hframe r hrp]
      rcases hinv.good r hr with hg | ⟨hh, hpend⟩
      · exact Or.inl hg
      · exact Or.inr ⟨hh, hpend, hrp⟩

theorem SweepInv_weaken {image : Mat} {lay : HoleFiller} {H : List Pixel} {lo hi : ℚ}
    {P Q : Pixel → Prop} {st : Mat × HoleFiller} (hPQ : ∀ q, P q → Q q)
    (h : SweepInv image lay H lo hi P st) : SweepInv image lay H lo hi Q st := by
  constructor
  · exact h.rows
  · exact h.cols
  · exact h.same
  · exact h.frame
  · intro p hp
    rcases h.good p hp with hg | ⟨hh, hpend⟩
    · exact Or.inl hg
    · exact Or.inr ⟨hh, hPQ p hpend⟩

/-- The updates of one layer: its pixels stop being pending. -/
theorem updateLayer_good {image : Mat} {c : Int} {seg lay : HoleFiller} {seed : Pixel}
    {lo hi : ℚ} (ctx : FillContext image c seg lay seed lo hi) (k : Int)
    (Rest : Pixel → Prop)
    (hRest : ∀ q, depthOf image.cols lay q = some (k - 1) → ¬ Rest q) :
    ∀ (ps : List Pixel) (st st1 : Mat × HoleFiller),
      (∀ p ∈ ps, keyed lay.layerMapReverse k p) →
      SweepInv image lay seg.holePixelsVector_ lo hi (fun q => q ∈ ps ∨ Rest q) st →
      updateLayer image ps st = Except.ok st1 →
      SweepInv image lay seg.holePixelsVector_ lo hi Rest st1 := by
  intro ps
  induction ps with
  | nil =>
    intro st st1 _ hinv h
    simp only [updateLayer, Except.ok.injEq] at h
    subst h
    exact SweepInv_weaken (fun q hq => by simpa using hq) hinv
  | cons p rest ih =>
    intro st st1 hks hinv h
    simp only [updateLayer] at h
    split at h
    · simp at h
    · rename_i st2 hu
      have hkp := hks p (List.mem_cons_self _ _)
      have hPR : ∀ q, depthOf image.cols lay q = some (k - 1) →
          ¬ (q ∈ p :: rest ∨ Rest q) := by
        intro q hq hpend
        rcases hpend with hin | hr
        · have := ((ctx.setup.layered.rev k q).mp (hks q hin)).2
          rw [hq] at this
          simp only [Option.some.injEq] at this
          omega
        · exact hRest q hq hr
      have hinv2 := updatePixel_good ctx hkp hPR hinv hu
      refine ih st2 st1 (fun q hq => hks q (List.mem_cons_of_mem _ hq)) ?_ h
      refine SweepInv_weaken ?_ hinv2
      rintro q ⟨hq1 | hq1, hq2⟩
      · rcases List.mem_cons.mp hq1 with h1 | h1
        · exact absurd h1 hq2
        · exact Or.inl h1
      · exact Or.inr hq1

/-- The layers of one sweep, in key order: nothing stays pending. -/
theorem sweepLayers_good {image : Mat} {c : Int} {seg lay : HoleFiller} {seed : Pixel}
    {lo hi : ℚ} (ctx : FillContext image c seg lay seed lo hi) :
    ∀ (layers : List (Int × List Pixel)) (st st1 : Mat × HoleFiller),
      (∀ l ∈ layers, l ∈ lay.layerMapReverse) → keysSorted layers →
      SweepInv image lay seg.holePixelsVector_ lo hi (fun q => inLayers layers q) st →
      sweepLayers image layers st = Except.ok st1 →
      SweepInv image lay seg.holePixelsVector_ lo hi (fun _ => False) st1 := by
  intro layers
  induction layers with
  | nil =>
    intro st st1 _ _ hinv h
    simp only [sweepLayers, Except.ok.injEq] at h
    subst h
    refine SweepInv_weaken ?_ hinv
    rintro q ⟨l, hl, _⟩
    simp at hl
  | cons l rest ih =>
    intro st st1 hsub hsorted hinv h
    simp only [sweepLayers] at h
    split at h
    · simp at h
    · rename_i st2 hu
      unfold keysSorted at hsorted
      simp only [List.map_cons, List.pairwise_cons] at hsorted
      have hl := hsub l (List.mem_cons_self _ _)
      have hkeys : ∀ p ∈ l.2, keyed lay.layerMapReverse l.1 p :=
        fun p hp => ⟨l, hl, rfl, hp⟩
      have hRest : ∀ q, depthOf image.cols lay q = some (l.1 - 1) → ¬ inLayers rest q := by
        intro q hq hin
        obtain ⟨l2, hl2, hq2⟩ := hin
        have hk2 : keyed lay.layerMapReverse l2.1 q :=
          ⟨l2, hsub l2 (List.mem_cons_of_mem _ hl2), rfl, hq2⟩
        have := ((ctx.setup.layered.rev l2.1 q).mp hk2).2
        rw [hq] at this
        simp only [Option.some.injEq] at this
        have hlt := hsorted.1 l2.1 (List.mem_map_of_mem _ hl2)
        omega
      have hinv1 : SweepInv image lay seg.holePixelsVector_ lo hi
          (fun q => q ∈ l.2 ∨ inLayers rest q) st := by
        refine SweepInv_weaken ?_ hinv
        rintro q ⟨l2, hl2, hq2⟩
        rcases List.mem_cons.mp hl2 with h1 | h1
        · left; rw [← h1]; exact hq2
        · exact Or.inr ⟨l2, h1, hq2⟩
      have hinv2 := updateLayer_good ctx l.1 _ hRest l.2 st st2 hkeys hinv1 hu
      exact ih st2 st1 (fun l2 hl2 => hsub l2 (List.mem_cons_of_mem _ hl2)) hsorted.2 hinv2 h

/-- After at least one sweep every pixel of the hole vector is within the bounds. -/
theorem sweeps_good {image : Mat} {c : Int} {seg lay : HoleFiller} {seed : Pixel}
    {lo hi : ℚ} (ctx : FillContext image c seg lay seed lo hi) :
    ∀ (n : Nat) (st st1 : Mat × HoleFiller),
      SweepInv image lay seg.holePixelsVector_ lo hi
        (fun q => inLayers lay.layerMapReverse q) st →
      sweeps image (n + 1) st = Except.ok st1 →
      SweepInv image lay seg.holePixelsVector_ lo hi (fun _ => False) st1 := by
  intro n
  induction n with
  | zero =>
    intro st st1 hinv h
    simp only [sweeps] at h
    split at h
    · simp at h
    · rename_i st2 hu
      simp only [Except.ok.injEq] at h
      subst h
      have hrev : st.2.layerMapReverse = lay.layerMapReverse := by
        obtain ⟨lm, hlm, _⟩ := hinv.same
        rw [hlm]
      rw [hrev] at hu
      exact sweepLayers_good ctx _ st st2 (fun _ hl => hl) ctx.setup.layered.sorted hinv hu
  | succ k ih =>
    intro st st1 hinv h
    rw [sweeps] at h
    split at h
    · simp at h
    · rename_i st2 hu
      have hrev : st.2.layerMapReverse = lay.layerMapReverse := by
        obtain ⟨lm, hlm, _⟩ := hinv.same
        rw [hlm]
      rw [hrev] at hu
      have hinv2 := sweepLayers_good ctx _ st st2 (fun _ hl => hl)
        ctx.setup.layered.sorted hinv hu
      exact ih st2 st1 (SweepInv_weaken (fun _ hf => False.elim hf) hinv2) h

/-! ## Iterative filler: the sweeps return -/

theorem IsPixelAffecting_total {m : Mat} (hf : HoleFiller) {q : Pixel} (K : Int)
    (hq : m.inRange q.1 q.2) : ∃ r, IsPixelAffecting m hf q K = Except.ok r := by
  unfold IsPixelAffecting
  simp only
  rw [Mat.at_of_inRange hq]
  simp only
  split
  · split
    · exact ⟨_, rfl⟩
    · exact ⟨_, rfl⟩
  · exact ⟨_, rfl⟩

theorem CalculatePixelAffect_total {m : Mat} (p : Pixel) (K : Int) {q : Pixel} (s : Sums)
    (hq : m.inRange q.1 q.2) : ∃ s1, CalculatePixelAffect m p K q s = Except.ok s1 := by
  unfold CalculatePixelAffect
  simp only
  obtain ⟨r, hr⟩ := IsPixelAffecting_total s.hf K hq
  rw [hr]
  obtain ⟨b, hf1⟩ := r
  cases b with
  | true =>
    simp only
    rw [Mat.at_of_inRange hq]
    exact ⟨_, rfl⟩
  | false => exact ⟨_, rfl⟩

theorem affectLoop_total {m : Mat} (p : Pixel) (K : Int) :
    ∀ (qs : List Pixel) (s : Sums), (∀ q ∈ qs, m.inRange q.1 q.2) →
      ∃ s1, affectLoop m p K qs s = Except.ok s1 := by
  intro qs
  induction qs with
  | nil => intro s _; exact ⟨s, rfl⟩
  | cons q rest ih =>
    intro s h
    simp only [affectLoop]
    obtain ⟨s1, hs1⟩ := CalculatePixelAffect_total p K s (h q (List.mem_cons_self _ _))
    rw [hs1]
    exact ih s1 (fun r hr => h r (List.mem_cons_of_mem _ hr))

theorem updatePixel_total (image m : Mat) (hf : HoleFiller) {p : Pixel}
    (hp : m.inRange p.1 p.2)
    (hq : ∀ q ∈ neighborPixels hf.connectivity_ p, m.inRange q.1 q.2) :
    ∃ st1, updatePixel image (m, hf) p = Except.ok st1 := by
  unfold updatePixel
  simp only
  have hc : (layerMapIndex hf (INDEX p.2 p.1 image.cols)).2.connectivity_ = hf.connectivity_ := by
    obtain ⟨lm, he, _⟩ := (layerMapIndex_spec hf (INDEX p.2 p.1 image.cols)).2
    rw [he]
  obtain ⟨s, hs⟩ := affectLoop_total (m := m) p (layerMapIndex hf (INDEX p.2 p.1 image.cols)).1
    (neighborPixels (layerMapIndex hf (INDEX p.2 p.1 image.cols)).2.connectivity_ p)
    { hf := (layerMapIndex hf (INDEX p.2 p.1 image.cols)).2, dividendSum := Val.fin 0,
      divisorSum := 0 } (by rw [hc]; exact hq)
  rw [hs]
  simp only
  obtain ⟨m1, hm1⟩ := Mat.set_of_inRange (s.dividendSum.divBy s.divisorSum) hp
  rw [hm1]
  exact ⟨_, rfl⟩

/-- State of the sweeps as far as their control flow goes. -/
theorem updateLayer_total {image : Mat} {lay : HoleFiller}
    (hsafe : ∀ p, inLayers lay.layerMapReverse p → image.inRange p.1 p.2 ∧
      ∀ q ∈ neighborPixels lay.connectivity_ p, image.inRange q.1 q.2) :
    ∀ (ps : List Pixel) (st : Mat × HoleFiller),
      (∀ p ∈ ps, inLayers lay.layerMapReverse p) →
      st.1.rows = image.rows → st.1.cols = image.cols → sameButLayerMap lay st.2 →
      ∃ st1, updateLayer image ps st = Except.ok st1 ∧
        st1.1.rows = image.rows ∧ st1.1.cols = image.cols ∧ sameButLayerMap lay st1.2 := by
  intro ps
  induction ps with
  | nil => intro st _ h1 h2 h3; exact ⟨st, rfl, h1, h2, h3⟩
  | cons p rest ih =>
    intro st hps h1 h2 h3
    obtain ⟨m, hf⟩ := st
    simp only [updateLayer]
    have hconn : hf.connectivity_ = lay.connectivity_ := by
      obtain ⟨lm, he, _⟩ := h3
      simp only at he
      rw [he]
    have hrange : ∀ q : Pixel, image.inRange q.1 q.2 → m.inRange q.1 q.2 := by
      intro q hq
      unfold Mat.inRange at hq ⊢
      simp only at h1 h2
      rw [h1, h2]
      exact hq
    obtain ⟨hp1, hp2⟩ := hsafe p (hps p (List.mem_cons_self _ _))
    obtain ⟨st1, hst1⟩ := updatePixel_total image m hf (hrange p hp1)
      (by rw [hconn]; exact fun q hq => hrange q (hp2 q hq))
    rw [hst1]
    simp only
    obtain ⟨m1, hf1⟩ := st1
    obtain ⟨_, _, hsame, hrows, hcols, _, _⟩ := updatePixel_ok h2 hst1
    exact ih (m1, hf1) (fun q hq => hps q (List.mem_cons_of_mem _ hq))
      (hrows.trans h1) (hcols.trans h2) (sameButLayerMap_trans h3 hsame)

theorem sweepLayers_total {image : Mat} {lay : HoleFiller}
    (hsafe : ∀ p, inLayers lay.layerMapReverse p → image.inRange p.1 p.2 ∧
      ∀ q ∈ neighborPixels lay.connectivity_ p, image.inRange q.1 q.2) :
    ∀ (layers : List (Int × List Pixel)) (st : Mat × HoleFiller),
      (∀ l ∈ layers, l ∈ lay.layerMapReverse) →
      st.1.rows = image.rows → st.1.cols = image.cols → sameButLayerMap lay st.2 →
      ∃ st1, sweepLayers image layers st = Except.ok st1 ∧
        st1.1.rows = image.rows ∧ st1.1.cols = image.cols ∧ sameButLayerMap lay st1.2 := by
  intro layers
  induction layers with
  | nil => intro st _ h1 h2 h3; exact ⟨st, rfl, h1, h2, h3⟩
  | cons l rest ih =>
    intro st hsub h1 h2 h3
    simp only [sweepLayers]
    obtain ⟨st1, hst1, h4, h5, h6⟩ := updateLayer_total hsafe l.2 st
      (fun p hp => ⟨l, hsub l (List.mem_cons_self _ _), hp⟩) h1 h2 h3
    rw [hst1]
    simp only
    exact ih st1 (fun l2 hl2 => hsub l2 (List.mem_cons_of_mem _ hl2)) h4 h5 h6

theorem sweeps_total {image : Mat} {lay : HoleFiller}
    (hsafe : ∀ p, inLayers lay.layerMapReverse p → image.inRange p.1 p.2 ∧
      ∀ q ∈ neighborPixels lay.connectivity_ p, image.inRange q.1 q.2) :
    ∀ (n : Nat) (st : Mat × HoleFiller),
      st.1.rows = image.rows → st.1.cols = image.cols → sameButLayerMap lay st.2 →
      ∃ st1, sweeps image n st = Except.ok st1 := by
  intro n
  induction n with
  | zero => intro st _ _ _; exact ⟨st, rfl⟩
  | succ k ih =>
    intro st h1 h2 h3
    simp only [sweeps]
    have hrev : st.2.layerMapReverse = lay.layerMapReverse := by
      obtain ⟨lm, he, _⟩ := h3
      rw [he]
    rw [hrev]
    obtain ⟨st1, hst1, h4, h5, h6⟩ := sweepLayers_total hsafe lay.layerMapReverse st
      (fun _ hl => hl) h1 h2 h3
    rw [hst1]
    simp only
    exact ih st1 h4 h5 h6

/-- On a square image the iterative algorithm returns as soon as segmentation and layer
building return: the sweeps read and write only inside the image. -/
theorem FillImage_iterative_total (image : Mat) (hsq : image.rows = image.cols)
    (z : Int) (epsilon : ℚ) (c : Int) (w : WeightFunctionType) {lay : HoleFiller}
    (h : layeredState (HoleFiller.new z epsilon c ALGORITHM_OPTION_TWO w) image = Except.ok lay) :
    ∃ out hf1, FillImage (HoleFiller.new z epsilon c ALGORITHM_OPTION_TWO w) image
      = Except.ok (out, hf1) := by
  obtain ⟨seg, hseg, hlay⟩ := layeredState_ok h
  obtain ⟨seed, _, hff⟩ := FindHoleAndBoundaryPixels_ok hseg
  have hfields := FloodFill_layerFields image _ _ seed seg hff
  have hL : Layered image lay :=
    SetLayers_layered hsq hfields.1 hfields.2.1 hfields.2.2.1 hlay
  have hsafe : ∀ p, inLayers lay.layerMapReverse p → image.inRange p.1 p.2 ∧
      ∀ q ∈ neighborPixels lay.connectivity_ p, image.inRange q.1 q.2 := by
    intro p hp
    obtain ⟨k, hk⟩ := inLayers_keyed hp
    obtain ⟨hr, hd⟩ := (hL.rev k p).mp hk
    exact ⟨hr, fun q hq => (hL.closed p k hr hd q hq).1⟩
  obtain ⟨st1, hst1⟩ := sweeps_total hsafe APPROXIMATE_ALGORITHM_ROUTINE_AMOUNT (image, lay)
    rfl rfl (sameButLayerMap_refl lay)
  have hcfg := FindHoleAndBoundaryPixels_sameConfig hseg
  have halg1 : seg.algorithmType = ALGORITHM_OPTION_TWO := hcfg.2.2.2.1
  have hne : ¬ seg.algorithmType = ALGORITHM_OPTION_ONE := by
    rw [halg1]; decide
  refine ⟨st1.1, ClearFields st1.2, ?_⟩
  unfold FillImage
  simp only
  rw [hseg]
  simp only
  unfold runAlgorithm
  rw [if_neg hne, if_pos halg1, hlay]
  simp only
  unfold ApproximateAlgorithm
  rw [hst1]

theorem exists_zip_of_mem {α β : Type} :
    ∀ (l1 : List α) (l2 : List β), l1.length = l2.length → ∀ b ∈ l1, ∃ v, (b, v) ∈ l1.zip l2 := by
  intro l1
  induction l1 with
  | nil => intro l2 _ b hb; simp at hb
  | cons x xs ih =>
    intro l2 hlen b hb
    cases l2 with
    | nil => simp at hlen
    | cons y ys =>
      simp only [List.length_cons, add_left_inj] at hlen
      rcases List.mem_cons.mp hb with rfl | hb
      · exact ⟨y, by simp⟩
      · obtain ⟨v, hv⟩ := ih ys hlen b hb
        exact ⟨v, by simp [hv]⟩

theorem segmentation_boundary_values {hf seg : HoleFiller} {image : Mat}
    (h : FindHoleAndBoundaryPixels hf image = Except.ok seg)
    (h0 : hf.boundaryPixelsCoordinatesVector_ = []) (h1 : hf.boundaryPixelsValuesVector_ = []) :
    ∀ b ∈ seg.boundaryPixelsCoordinatesVector_, (b, image.data b.1 b.2) ∈ seg.boundary := by
  obtain ⟨seed, _, hff⟩ := FindHoleAndBoundaryPixels_ok h
  obtain ⟨hlen, hval⟩ := FloodFill_boundary image _ hf seed seg hff
    (fun e => image.at e.1.1 e.1.2 = Except.ok e.2) (by simp [h0, h1])
    (by simp [HoleFiller.boundary, h0]) (fun q v _ hv _ => hv)
  intro b hb
  obtain ⟨v, hv⟩ := exists_zip_of_mem _ _ hlen b hb
  have := (Mat.at_eq_ok (hval (b, v) hv)).2
  simp only at this
  rw [this]
  exact hv

/-- Bounds of the iterative algorithm on the hole vector, from the run's parts. -/
theorem iterative_bounds_core (image : Mat) (hsq : image.rows = image.cols) (z : Int)
    (epsilon : ℚ) (c : Int) (w : WeightFunctionType) (out : Mat) (hf1 seg : HoleFiller)
    (lo hi : ℚ) (hw : ∀ p q, q ∈ neighborPixels c p → 0 < w p q z epsilon)
    (hout : (-1 : ℚ) < lo ∨ hi < -1)
    (h : FillImage (HoleFiller.new z epsilon c ALGORITHM_OPTION_TWO w) image
      = Except.ok (out, hf1))
    (hseg : FindHoleAndBoundaryPixels (HoleFiller.new z epsilon c ALGORITHM_OPTION_TWO w) image
      = Except.ok seg)
    (hB : seg.boundary ≠ [])
    (hv : ∀ e ∈ seg.boundary, ∃ q, e.2 = Val.fin q ∧ lo ≤ q ∧ q ≤ hi) :
    ∀ p ∈ seg.holePixelsVector_, ∃ u, out.at p.1 p.2 = Except.ok (Val.fin u) ∧ lo ≤ u ∧ u ≤ hi := by
  obtain ⟨seg1, lay, hf2, hseg1, hlay, hsw, _⟩ := FillImage_iterative_ok rfl h
  rw [hseg] at hseg1
  simp only [Except.ok.injEq] at hseg1
  subst hseg1
  have hBc : seg.boundaryPixelsCoordinatesVector_ ≠ [] := by
    intro he
    apply hB
    unfold HoleFiller.boundary
    rw [he]
    rfl
  obtain ⟨seed, hS⟩ := iterative_setup hsq z epsilon c ALGORITHM_OPTION_TWO w hseg hlay hBc
  have hcfg1 := FindHoleAndBoundaryPixels_sameConfig hseg
  have hcfg2 := (SetLayers_sameConfig hlay).1
  have hwf : lay.weightFunc_ = w := hcfg2.2.2.2.2.trans hcfg1.2.2.2.2
  have ctx : FillContext image c seg lay seed lo hi := by
    constructor
    · exact hsq
    · exact hS
    · intro p q hq
      rw [hcfg2.2.2.1.trans hcfg1.2.2.1] at hq
      rw [hwf, hcfg2.1.trans hcfg1.1, hcfg2.2.1.trans hcfg1.2.1]
      exact hw p q hq
    · unfold HOLE_VALUE
      push_cast
      exact hout
    · intro b hb
      have := segmentation_boundary_values hseg rfl rfl b hb
      obtain ⟨q, hq, h1, h2⟩ := hv _ this
      exact ⟨q, hq, h1, h2⟩
  have hinit : SweepInv image lay seg.holePixelsVector_ lo hi
      (fun q => inLayers lay.layerMapReverse q) (image, lay) := by
    constructor
    · rfl
    · rfl
    · exact sameButLayerMap_refl lay
    · intro _ _; rfl
    · intro p hp
      right
      have hreach := (hS.holeIff p).mp hp
      obtain ⟨hr, d, hd⟩ := hS.depth p hreach
      refine ⟨(Mat.at_eq_ok (HoleReach_sentinel hreach)).2, ?_⟩
      exact keyed_inLayers ((hS.layered.rev d p).mpr ⟨hr, hd⟩)
  have hfinal := sweeps_good ctx 99 (image, lay) (out, hf2) hinit hsw
  intro p hp
  rcases hfinal.good p hp with hg | ⟨_, hf⟩
  · obtain ⟨u, hu, h1, h2⟩ := hg
    refine ⟨u, ?_, h1, h2⟩
    have hr := (hS.depth p ((hS.holeIff p).mp hp)).1
    have hr1 : out.inRange p.1 p.2 := by
      unfold Mat.inRange at hr ⊢
      rw [hfinal.rows, hfinal.cols]
      exact hr
    rw [Mat.at_of_inRange hr1]
    simp only at hu
    rw [hu]
  · exact False.elim hf

/-! ## Termination of the layer builder -/

theorem SetLayer_total (image : Mat) (st : HoleFiller) (q : Pixel) (L : Int)
    (hq : image.inRange q.1 q.2) : ∃ st1, SetLayer image st q L = Except.ok st1 := by
  unfold SetLayer
  simp only
  rw [Mat.at_of_inRange hq]
  simp only
  split
  · split
    · exact ⟨_, rfl⟩
    · exact ⟨_, rfl⟩
  · exact ⟨_, rfl⟩

theorem forPixels_total {step : HoleFiller → Pixel → Except Fault HoleFiller}
    (Inv : HoleFiller → Prop) (Pre : Pixel → Prop)
    (hstep : ∀ st p, Inv st → Pre p → ∃ st1, step st p = Except.ok st1 ∧ Inv st1) :
    ∀ (ps : List Pixel) (st : HoleFiller), (∀ p ∈ ps, Pre p) → Inv st →
      ∃ st1, forPixels step ps st = Except.ok st1 ∧ Inv st1 := by
  intro ps
  induction ps with
  | nil => intro st _ hI; exact ⟨st, rfl, hI⟩
  | cons p rest ih =>
    intro st hpre hI
    obtain ⟨st1, h1, hI1⟩ := hstep st p hI (hpre p (List.mem_cons_self _ _))
    obtain ⟨st2, h2, hI2⟩ := ih st1 (fun q hq => hpre q (List.mem_cons_of_mem _ hq)) hI1
    refine ⟨st2, ?_, hI2⟩
    rw [forPixels, h1]
    exact h2

theorem SetLayerHelper_total (image : Mat) (st : HoleFiller) (q : Pixel) (L : Int)
    (hq : ∀ p ∈ neighborPixels st.connectivity_ q, image.inRange p.1 p.2) :
    ∃ st1, SetLayerHelper image st q L = Except.ok st1 ∧
      st1.connectivity_ = st.connectivity_ := by
  unfold SetLayerHelper
  refine forPixels_total (fun s => s.connectivity_ = st.connectivity_)
    (fun p => image.inRange p.1 p.2) ?_ _ st hq rfl
  intro s p hs hp
  obtain ⟨s1, h1⟩ := SetLayer_total image s p L hp
  refine ⟨s1, h1, ?_⟩
  exact SetLayer_invariant image (fun s => s.connectivity_ = st.connectivity_)
    (fun _ _ _ h _ _ => h) s s1 p L hs h1

theorem setLayersStep_total (image : Mat) (L : Int) (st : HoleFiller) (q : Pixel)
    (hq : ∀ p ∈ neighborPixels st.connectivity_ q, image.inRange p.1 p.2) :
    ∃ st1, setLayersStep image L st q = Except.ok st1 ∧
      st1.connectivity_ = st.connectivity_ := by
  unfold setLayersStep
  simp only
  by_cases hL : L = 1
  · rw [if_pos hL]
    exact SetLayerHelper_total image _ q L hq
  · rw [if_neg hL]
    exact SetLayerHelper_total image st q L hq

theorem setLayersRound_total (image : Mat) (L : Int) (st : HoleFiller)
    (hq : ∀ q ∈ st.curLayerVector, ∀ p ∈ neighborPixels st.connectivity_ q,
      image.inRange p.1 p.2) :
    ∃ st2, forPixels (setLayersStep image L) st.curLayerVector st = Except.ok st2 ∧
      st2.connectivity_ = st.connectivity_ := by
  refine forPixels_total (fun s => s.connectivity_ = st.connectivity_)
    (fun q => ∀ p ∈ neighborPixels st.connectivity_ q, image.inRange p.1 p.2) ?_ _ st hq rfl
  intro s q hs hpre
  obtain ⟨s1, h1, hc⟩ := setLayersStep_total image L s q (by rw [hs]; exact hpre)
  exact ⟨s1, h1, hc.trans hs⟩

/-- Below a stored depth every depth from `1` on is stored for some pixel. -/
theorem depths_inhabited {image : Mat} {L : Int} {st : HoleFiller} (hI : LoopInv image L st) :
    ∀ (n : Nat) (q : Pixel), image.inRange q.1 q.2 →
      depthOf image.cols st q = some ((n : Int) + 1) →
      ∀ k : Nat, 1 ≤ k → k ≤ n + 1 →
        ∃ r, image.inRange r.1 r.2 ∧ depthOf image.cols st r = some (k : Int) := by
  intro n
  induction n with
  | zero =>
    intro q hq hd k hk1 hk2
    have hk : k = 1 := by omega
    subst hk
    exact ⟨q, hq, by simpa using hd⟩
  | succ n ih =>
    intro q hq hd k hk1 hk2
    by_cases hk : k = n + 2
    · subst hk
      refine ⟨q, hq, ?_⟩
      rw [hd]
      exact congrArg some (by omega)
    · obtain ⟨q1, hq1, hd1, _⟩ := (hI.parent q _ hq hd).2 (by push_cast; omega)
      have hd2 : depthOf image.cols st q1 = some ((n : Int) + 1) := by
        rw [hd1]
        exact congrArg some (by omega)
      exact ih q1 hq1 hd2 k hk1 (by omega)

/-- Distinct depths are stored under distinct linear indices, so a stored depth cannot
exceed the number of pixels. -/
theorem depth_le_pixels {image : Mat} (hsq : image.rows = image.cols) {L : Int}
    {st : HoleFiller} (hI : LoopInv image L st) {q : Pixel} {d : Int}
    (hq : image.inRange q.1 q.2) (hd : depthOf image.cols st q = some d) :
    d ≤ ((image.rows * image.cols : Nat) : Int) := by
  obtain ⟨_, hd1, _⟩ := hI.sent q d hq hd
  obtain ⟨n, hn⟩ : ∃ n : Nat, d = (n : Int) + 1 := ⟨(d - 1).toNat, by omega⟩
  subst hn
  have hall := depths_inhabited hI n q hq hd
  have hset : ∀ m : Nat, m ≤ n + 1 →
      ∃ S : Finset ℕ, S ⊆ Finset.range (image.rows * image.cols) ∧ S.card = m ∧
        ∀ i ∈ S, ∃ k : Nat, 1 ≤ k ∧ k ≤ m ∧ st.layerMap (i : Int) = some (k : Int) := by
    intro m
    induction m with
    | zero => intro _; exact ⟨∅, by simp, by simp, by simp⟩
    | succ m ih =>
      intro hm
      obtain ⟨S, hS1, hS2, hS3⟩ := ih (by omega)
      obtain ⟨r, hr, hdr⟩ := hall (m + 1) (by omega) hm
      obtain ⟨h0, hlt⟩ := INDEX_inBounds image r (inBounds_of_inRange_square hsq hr)
      have hcast : (((INDEX r.2 r.1 image.cols).toNat : Nat) : Int) = INDEX r.2 r.1 image.cols :=
        Int.toNat_of_nonneg h0
      have hlm : st.layerMap (((INDEX r.2 r.1 image.cols).toNat : Nat) : Int)
          = some ((m + 1 : Nat) : Int) := by
        rw [hcast]
        exact hdr
      have hnot : (INDEX r.2 r.1 image.cols).toNat ∉ S := by
        intro hin
        obtain ⟨k, _, hk2, hk3⟩ := hS3 _ hin
        rw [hlm] at hk3
        simp only [Option.some.injEq] at hk3
        have : (m + 1 : Nat) = k := by exact_mod_cast hk3
        omega
      refine ⟨insert (INDEX r.2 r.1 image.cols).toNat S, ?_, ?_, ?_⟩
      · intro i hi
        rw [Finset.mem_insert] at hi
        rcases hi with hi | hi
        · rw [hi]; exact Finset.mem_range.mpr hlt
        · exact hS1 hi
      · rw [Finset.card_insert_of_not_mem hnot, hS2]
      · intro i hi
        rw [Finset.mem_insert] at hi
        rcases hi with hi | hi
        · rw [hi]; exact ⟨m + 1, by omega, le_refl _, hlm⟩
        · obtain ⟨k, hk1, hk2, hk3⟩ := hS3 i hi
          exact ⟨k, hk1, by omega, hk3⟩
  obtain ⟨S, hS1, hS2, _⟩ := hset (n + 1) (le_refl _)
  have hcard := Finset.card_le_card hS1
  rw [hS2, Finset.card_range] at hcard
  exact_mod_cast hcard

theorem setLayersLoop_total {image : Mat} (hsq : image.rows = image.cols) (c : Int)
    (N : Nat) (hN : image.rows * image.cols = N)
    (hsafeS : ∀ p : Pixel, image.inRange p.1 p.2 → image.at p.1 p.2 = Except.ok holeVal →
      ∀ q ∈ neighborPixels c p, image.inRange q.1 q.2) :
    ∀ (fuel : Nat) (L : Int) (st : HoleFiller), LoopInv image L st →
      st.connectivity_ = c →
      (∀ b ∈ st.boundaryPixelsCoordinatesVector_, ∀ q ∈ neighborPixels c b,
        image.inRange q.1 q.2) →
      (2 ≤ L → ∃ p : Pixel, image.inRange p.1 p.2 ∧ depthOf image.cols st p = some (L - 1)) →
      (N : Int) + 2 ≤ (fuel : Int) + L →
      ∃ lay, setLayersLoop fuel image st L = Except.ok lay := by
  intro fuel
  induction fuel with
  | zero =>
    intro L st hI _ _ hprev hfuel
    exfalso
    obtain ⟨p, hp, hd⟩ := hprev (by omega)
    have := depth_le_pixels hsq hI hp hd
    rw [hN] at this
    omega
  | succ n ih =>
    intro L st hI hc hsafeB hprev hfuel
    rw [setLayersLoop]
    by_cases hnil : st.curLayerVector = []
    · rw [if_pos hnil]
      exact ⟨st, rfl⟩
    · rw [if_neg hnil]
      have hpre : ∀ q ∈ st.curLayerVector, ∀ p ∈ neighborPixels st.connectivity_ q,
          image.inRange p.1 p.2 := by
        intro q hq p hp
        rw [hc] at hp
        by_cases hL : L = 0
        · rw [hI.front0 hL] at hq
          exact hsafeB q hq p hp
        · have hL1 : 1 ≤ L := by have := hI.nonneg; omega
          obtain ⟨hr, hd⟩ := (hI.front hL1 q).mp hq
          exact hsafeS q hr (hI.sent q L hr hd).1 p hp
      obtain ⟨st2, hround, hc2⟩ := setLayersRound_total image L st hpre
      rw [hround]
      simp only
      obtain ⟨hI2, hmono⟩ := setLayers_round hsq hI hround
      refine ih (L + 1) _ hI2 (hc2.trans hc) ?_ ?_ ?_
      · intro b hb
        have hb1 : b ∈ st2.boundaryPixelsCoordinatesVector_ := hb
        rw [hmono.2.1] at hb1
        exact hsafeB b hb1
      · intro hL2
        have hL1 : 1 ≤ L := by omega
        obtain ⟨q, hq⟩ := List.exists_mem_of_ne_nil _ hnil
        obtain ⟨hr, hd⟩ := (hI.front hL1 q).mp hq
        refine ⟨q, hr, ?_⟩
        have := hmono.2.2 q L hd
        have hL : L + 1 - 1 = L := by omega
        rw [hL]
        exact this
      · push_cast at hfuel ⊢
        omega

/-- On a square image whose sentinel pixels keep a distance of two from the border the
layer builder returns: no read leaves the image and the `while` loop ends within
`rows · cols + 2` tests of its condition. -/
theorem SetLayers_total {image : Mat} (hsq : image.rows = image.cols) (z : Int) (epsilon : ℚ)
    (c a : Int) (w : WeightFunctionType) {seg : HoleFiller}
    (hseg : FindHoleAndBoundaryPixels (HoleFiller.new z epsilon c a w) image = Except.ok seg)
    (hclear : awayFromBorder image c) :
    ∃ lay, SetLayers seg image = Except.ok lay := by
  obtain ⟨seed, hseed, hff⟩ := FindHoleAndBoundaryPixels_ok hseg
  have hfields := FloodFill_layerFields image _ _ seed seg hff
  have hcfg := FloodFill_sameConfig image _ _ seed seg hff
  have hconnSeg : seg.connectivity_ = c := hcfg.2.2.1
  have hadj := FloodFill_boundary_adjacent image _ _ seed seg hff rfl
    (by rcases FindFirstHolePixel_seed hseed with h1 | h1
        · exact Or.inl h1.2
        · exact Or.inr h1)
  simp only [HoleFiller.new] at hadj
  have hsent : ∀ p : Pixel, image.at p.1 p.2 = Except.ok holeVal →
      ∀ q ∈ neighborPixels c p, image.inRange q.1 q.2 ∧
        ∀ r ∈ neighborPixels c q, image.inRange r.1 r.2 := by
    intro p hp
    obtain ⟨hr, hv⟩ := Mat.at_eq_ok hp
    exact hclear p ((mem_scanOrder image p).mpr (inBounds_of_inRange_square hsq hr)) hv
  unfold SetLayers
  refine setLayersLoop_total hsq c _ rfl (fun p _ hp q hq => (hsent p hp q hq).1) _ 0 _
    (LoopInv_init image seg hfields.1 hfields.2.1 hfields.2.2.1) hconnSeg ?_ ?_ ?_
  · intro b hb q hq
    obtain ⟨_, _, r, hr, hbr⟩ := hadj b hb
    exact (hsent r (HoleReach_sentinel hr) b hbr).2 q hq
  · intro h
    omega
  · unfold floodFuel
    push_cast
    omega

/-- On a square image whose sentinel pixels keep a distance of two from the border the
Iterative algorithm returns an image. -/
theorem FillImage_iterative_returns (image : Mat) (hsq : image.rows = image.cols)
    (z : Int) (epsilon : ℚ) (c : Int) (w : WeightFunctionType)
    (hclear : awayFromBorder image c) :
    ∃ out hf1, FillImage (HoleFiller.new z epsilon c ALGORITHM_OPTION_TWO w) image
      = Except.ok (out, hf1) := by
  obtain ⟨seg, hseg⟩ := FindHoleAndBoundaryPixels_total
    (HoleFiller.new z epsilon c ALGORITHM_OPTION_TWO w) image hsq
  obtain ⟨lay, hlay⟩ := SetLayers_total hsq z epsilon c ALGORITHM_OPTION_TWO w hseg hclear
  have hls : layeredState (HoleFiller.new z epsilon c ALGORITHM_OPTION_TWO w) image
      = Except.ok lay := by
    unfold layeredState
    rw [hseg]
    exact hlay
  exact FillImage_iterative_total image hsq z epsilon c w hls

/-! ## The iterative algorithm: samples, depth map, bounds, updates -/

/-- C10 (amended). A pixel update of a sweep of the iterative filler, on any working image
`m` and filler state `hf`: when `p` and its neighbours lie inside `m` the update returns;
and whenever it returns, it has written at `p` the quotient `(Σ w(p,q,z,ε)·cur(q)) /
(Σ w(p,q,z,ε))` over exactly those in-connectivity neighbours `q` of `p` whose current
value `cur(q)` in the working image is not the sentinel and whose layer number
`layerMap[q]` (`0` without an entry, as for boundary pixels) is at most `layerMap[p]`,
and has changed no other pixel. -/
theorem update_writes_mean_over_contributing (image m : Mat) (hf : HoleFiller) (p : Pixel)
    (hcols : m.cols = image.cols) :
    (m.inRange p.1 p.2 → (∀ q ∈ neighborPixels hf.connectivity_ p, m.inRange q.1 q.2) →
      ∃ m1 hf1, updatePixel image (m, hf) p = Except.ok (m1, hf1)) ∧
    ∀ (m1 : Mat) (hf1 : HoleFiller), updatePixel image (m, hf) p = Except.ok (m1, hf1) →
      m1.at p.1 p.2 = Except.ok
          (weightedMean hf.weightFunc_ p hf.z_ hf.epsilon_ (contributing m hf p)) ∧
        (∀ (q : Pixel) (v : Val), (q, v) ∈ contributing m hf p ↔
          (q ∈ neighborPixels hf.connectivity_ p ∧ v = m.data q.1 q.2 ∧ v ≠ holeVal ∧
            layerOf m.cols hf q ≤ layerOf m.cols hf p)) ∧
        (∀ c : Pixel, c ≠ p → m1.at c.1 c.2 = m.at c.1 c.2) := by
  refine ⟨fun hp hq => ?_, fun m1 hf1 h => updatePixel_mean image m m1 hf hf1 p hcols h⟩
  obtain ⟨st1, hst1⟩ := updatePixel_total image m hf hp hq
  exact ⟨st1.1, st1.2, hst1⟩

/-- Instance of the amended C10: the first update on `imageTwoPixelHole` returns and
writes `3` at `(2, 2)`. -/
theorem update_writes_mean_over_contributing_witness :
    ∃ m1 hf1, updatePixel imageTwoPixelHole (imageTwoPixelHole, layeredTwoPixelHole) (2, 2)
        = Except.ok (m1, hf1) ∧ m1.at 2 2 = Except.ok (Val.fin 3) := by
  have H := update_writes_mean_over_contributing imageTwoPixelHole imageTwoPixelHole
    layeredTwoPixelHole (2, 2) rfl
  obtain ⟨m1, hf1, hr⟩ := H.1 (by decide) (by decide!)
  refine ⟨m1, hf1, hr, ?_⟩
  rw [(H.2 m1 hf1 hr).1]
  decide!

/-! ## Command-line argument check -/

/-- C16 (failing input). With fully parsed strings, `ε = 1/100`, connectivity `4` and
algorithm type `3`, `ArgumentNumbersCheck` writes the algorithm-type error message and
returns `true`.  In general it returns `true` exactly when the `z`, connectivity and
algorithm strings were fully parsed, `ε > 0` and the connectivity is `4` or `8`, whatever
the algorithm type is. -/
theorem argument_check_accepts_bad_algorithm_type :
    ArgumentNumbersCheck NULL_CHARACTER (1 / 100) 4 NULL_CHARACTER 3 NULL_CHARACTER
        = (true, [MSG_ERR_ALGORITHM_TYPE]) ∧
    ∀ (endPtrZ : Char) (e : ℚ) (connectivity : Int) (endPtrC : Char) (algorithmType : Int)
      (endPtrA : Char),
      (ArgumentNumbersCheck endPtrZ e connectivity endPtrC algorithmType endPtrA).1 = true ↔
        (endPtrZ = NULL_CHARACTER ∧ 0 < e ∧ endPtrC = NULL_CHARACTER ∧
          (connectivity = 4 ∨ connectivity = 8) ∧ endPtrA = NULL_CHARACTER) := by
  constructor
  · simp [ArgumentNumbersCheck, NumbersCheck, CONNECTIVITY_OPTION_1, CONNECTIVITY_OPTION_2,
      ALGORITHM_OPTION_ONE, ALGORITHM_OPTION_TWO]
  · intro endPtrZ e connectivity endPtrC algorithmType endPtrA
    unfold ArgumentNumbersCheck NumbersCheck CONNECTIVITY_OPTION_1 CONNECTIVITY_OPTION_2
    by_cases h1 : endPtrZ = NULL_CHARACTER <;> by_cases h2 : e ≤ 0 <;>
      by_cases h3 : endPtrC = NULL_CHARACTER <;> by_cases h4 : connectivity = 4 <;>
      by_cases h5 : connectivity = 8 <;> by_cases h6 : endPtrA = NULL_CHARACTER <;>
      by_cases h7 : algorithmType ≠ ALGORITHM_OPTION_ONE ∧ algorithmType ≠ ALGORITHM_OPTION_TWO <;>
      simp [h1, h2, h3, h4, h5, h6, h7, not_le.mp, not_lt.mpr]

/-! ## Exact filler with a zero denominator -/

/-- C13 (counterexample). On the 3×3 image of nine sentinels (Exact algorithm, unit
weights) the boundary is empty, so the denominator of the update of the hole pixel `(0, 0)`
is zero; yet `FillImage` returns an image, and that image holds a non-finite value at
`(0, 0)`: no error is raised. -/
theorem exact_fill_returns_with_zero_denominator :
    returned (FillImage (HoleFiller.new 2 (1 / 100) 4 1 unitWeight) imageAllHole3) = true ∧
    (FindHoleAndBoundaryPixels (HoleFiller.new 2 (1 / 100) 4 1 unitWeight)
        imageAllHole3).toOption.map
        (fun seg => (decide ((0, 0) ∈ seg.holePixelsVector_), seg.boundary)) = some (true, []) ∧
    outputAt (FillImage (HoleFiller.new 2 (1 / 100) 4 1 unitWeight) imageAllHole3) 0 0
      = some Val.nonfinite := by
  refine ⟨by decide!, by decide!, by decide!⟩

/-- C13 (amended). Exact algorithm: on every square image `FillImage` returns an image,
whatever the weights are; and whenever it returns, a pixel of the hole vector whose
denominator `Σ w(p, q, z, ε)` over the boundary is zero holds the non-finite quotient in
the returned image. -/
theorem exact_fill_writes_nonfinite_on_zero_denominator (image : Mat) (z : Int) (epsilon : ℚ)
    (connectivity : Int) (w : WeightFunctionType) :
    (image.rows = image.cols →
      ∃ out hf1, FillImage (HoleFiller.new z epsilon connectivity ALGORITHM_OPTION_ONE w) image
        = Except.ok (out, hf1)) ∧
    ∀ (out : Mat) (hf1 seg : HoleFiller),
      FillImage (HoleFiller.new z epsilon connectivity ALGORITHM_OPTION_ONE w) image
        = Except.ok (out, hf1) →
      FindHoleAndBoundaryPixels (HoleFiller.new z epsilon connectivity ALGORITHM_OPTION_ONE w)
        image = Except.ok seg →
      ∀ p ∈ seg.holePixelsVector_,
        (seg.boundary.map (fun e => w p e.1 z epsilon)).sum = 0 →
        out.at p.1 p.2 = Except.ok Val.nonfinite := by
  refine ⟨fun hsq => FillImage_exact_total _ image rfl rfl hsq, ?_⟩
  intro out hf1 seg h hseg p hp hzero
  rw [exact_output_at_hole rfl h hseg p hp]
  simp only [HoleFiller.new, weightedMean]
  rw [hzero]
  cases Val.sum (seg.boundary.map (fun e => e.2.mulWeight (w p e.1 z epsilon))) with
  | fin a => simp [Val.divBy]
  | nonfinite => rfl

/-- Instance of the amended C13 on the 3×3 image of nine sentinels: the run returns and
the hole pixel `(0, 0)` holds a non-finite value. -/
theorem exact_fill_writes_nonfinite_on_zero_denominator_witness :
    ∃ out hf1, FillImage (HoleFiller.new 2 (1 / 100) 4 ALGORITHM_OPTION_ONE unitWeight)
        imageAllHole3 = Except.ok (out, hf1) ∧ out.at 0 0 = Except.ok Val.nonfinite := by
  have hs : (FindHoleAndBoundaryPixels (HoleFiller.new 2 (1 / 100) 4 ALGORITHM_OPTION_ONE
      unitWeight) imageAllHole3).toOption.map
        (fun seg => (decide ((0, 0) ∈ seg.holePixelsVector_), seg.boundary))
      = some (true, []) := by decide!
  have H := exact_fill_writes_nonfinite_on_zero_denominator imageAllHole3 2 (1 / 100) 4
    unitWeight
  obtain ⟨out, hf1, h⟩ := H.1 (by decide)
  obtain ⟨seg, hseg⟩ := FindHoleAndBoundaryPixels_total
    (HoleFiller.new 2 (1 / 100) 4 ALGORITHM_OPTION_ONE unitWeight) imageAllHole3 (by decide)
  rw [hseg] at hs
  simp only [Except.toOption, Option.map_some', Option.some.injEq, Prod.mk.injEq,
    decide_eq_true_eq] at hs
  refine ⟨out, hf1, h, H.2 out hf1 seg h hseg (0, 0) hs.1 ?_⟩
  rw [hs.2]
  rfl

/-! ## Images without a sentinel pixel -/

theorem FloodFill_notFound (image : Mat) (hf : HoleFiller) (fuel : Nat)
    (hv : hf.visitedSet = []) :
    FloodFill (fuel + 1) image hf (HOLE_VALUE, HOLE_VALUE) = Except.ok
      { hf with visitedSet := [INDEX HOLE_VALUE HOLE_VALUE image.cols] } := by
  rw [FloodFill]
  simp [hv, HOLE_VALUE]

theorem sweeps_nil (image : Mat) :
    ∀ (n : Nat) (st : Mat × HoleFiller), st.2.layerMapReverse = [] →
      sweeps image n st = Except.ok st := by
  intro n
  induction n with
  | zero => intro st _; rfl
  | succ n ih =>
    intro st h
    rw [sweeps, h]
    simp only [sweepLayers]
    exact ih st h

theorem ClearFields_eq_new (z : Int) (epsilon : ℚ) (c a : Int) (w : WeightFunctionType)
    (hf : HoleFiller) (h : sameConfig (HoleFiller.new z epsilon c a w) hf) :
    ClearFields hf = HoleFiller.new z epsilon c a w := by
  obtain ⟨h1, h2, h3, h4, h5⟩ := h
  cases hf
  simp only [HoleFiller.new] at h1 h2 h3 h4 h5
  simp only [ClearFields, HoleFiller.new, h1, h2, h3, h4, h5]

theorem runAlgorithm_empty (hf : HoleFiller) (image : Mat)
    (hH : hf.holePixelsVector_ = []) (hB : hf.boundaryPixelsCoordinatesVector_ = [])
    (hR : hf.layerMapReverse = []) :
    ∃ hf2, runAlgorithm hf image image = Except.ok (image, hf2) ∧ sameConfig hf hf2 := by
  unfold runAlgorithm
  by_cases h1 : hf.algorithmType = ALGORITHM_OPTION_ONE
  · rw [if_pos h1]
    have hr : RegularAlgorithm hf image = Except.ok image := by
      unfold RegularAlgorithm
      rw [hH]
      rfl
    rw [hr]
    exact ⟨hf, rfl, rfl, rfl, rfl, rfl, rfl⟩
  · rw [if_neg h1]
    by_cases h2 : hf.algorithmType = ALGORITHM_OPTION_TWO
    · rw [if_pos h2]
      have hlay : SetLayers hf image = Except.ok { hf with curLayerVector := [] } := by
        unfold SetLayers floodFuel
        rw [setLayersLoop, hB]
        simp
      rw [hlay]
      simp only [ApproximateAlgorithm]
      rw [sweeps_nil image _ _ hR]
      exact ⟨_, rfl, rfl, rfl, rfl, rfl, rfl⟩
    · rw [if_neg h2]
      exact ⟨hf, rfl, rfl, rfl, rfl, rfl, rfl⟩

/-- When the seed search reports no sentinel, `FillImage` on a freshly constructed filler
returns the input image and the filler in its state at construction. -/
theorem FillImage_notFound (image : Mat) (z : Int) (epsilon : ℚ) (c a : Int)
    (w : WeightFunctionType)
    (hseed : FindFirstHolePixel image = Except.ok (HOLE_VALUE, HOLE_VALUE)) :
    FindHoleAndBoundaryPixels (HoleFiller.new z epsilon c a w) image = Except.ok
        { HoleFiller.new z epsilon c a w with
          visitedSet := [INDEX HOLE_VALUE HOLE_VALUE image.cols] } ∧
      FillImage (HoleFiller.new z epsilon c a w) image
        = Except.ok (image, HoleFiller.new z epsilon c a w) := by
  have hseg : FindHoleAndBoundaryPixels (HoleFiller.new z epsilon c a w) image = Except.ok
      { HoleFiller.new z epsilon c a w with
        visitedSet := [INDEX HOLE_VALUE HOLE_VALUE image.cols] } := by
    unfold FindHoleAndBoundaryPixels
    rw [hseed]
    exact FloodFill_notFound image _ _ rfl
  refine ⟨hseg, ?_⟩
  obtain ⟨hf2, hrun, hcfg⟩ := runAlgorithm_empty
    { HoleFiller.new z epsilon c a w with
      visitedSet := [INDEX HOLE_VALUE HOLE_VALUE image.cols] } image rfl rfl rfl
  unfold FillImage
  simp only
  rw [hseg]
  simp only
  rw [hrun]
  simp only
  rw [ClearFields_eq_new z epsilon c a w hf2 hcfg]

/-- On an image without a sentinel pixel, for every algorithm type and connectivity:
whenever `FillImage` returns, the returned image is the input image and the segmentation
has found an empty hole vector and an empty boundary; on every square image without a
sentinel pixel `FillImage` does return. -/
theorem FillImage_without_sentinel (image : Mat) (z : Int) (epsilon : ℚ) (c a : Int)
    (w : WeightFunctionType)
    (hno : ∀ i j : Int, image.inRange i j → image.data i j ≠ holeVal) :
    (image.rows = image.cols →
      ∃ out hf1, FillImage (HoleFiller.new z epsilon c a w) image = Except.ok (out, hf1)) ∧
    ∀ (out : Mat) (hf1 : HoleFiller),
      FillImage (HoleFiller.new z epsilon c a w) image = Except.ok (out, hf1) →
      out = image ∧
        ∃ seg, FindHoleAndBoundaryPixels (HoleFiller.new z epsilon c a w) image
            = Except.ok seg ∧
          seg.holePixelsVector_ = [] ∧ seg.boundaryPixelsCoordinatesVector_ = [] ∧
          seg.boundaryPixelsValuesVector_ = [] := by
  have hnf : ∀ seed, FindFirstHolePixel image = Except.ok seed →
      seed = (HOLE_VALUE, HOLE_VALUE) := by
    intro seed hseed
    rcases findFirstHoleIn_ok image _ seed hseed with ⟨_, hv⟩ | ⟨hs, _⟩
    · obtain ⟨hr, hd⟩ := Mat.at_eq_ok hv
      exact absurd hd (hno _ _ hr)
    · exact hs
  constructor
  · intro hsq
    obtain ⟨seed, hseed⟩ := FindFirstHolePixel_total image hsq
    rw [hnf seed hseed] at hseed
    exact ⟨image, _, (FillImage_notFound image z epsilon c a w hseed).2⟩
  · intro out hf1 h
    cases hseed : FindFirstHolePixel image with
    | error e =>
      unfold FillImage FindHoleAndBoundaryPixels at h
      rw [hseed] at h
      simp at h
    | ok seed =>
      rw [hnf seed hseed] at hseed
      obtain ⟨hseg, hfill⟩ := FillImage_notFound image z epsilon c a w hseed
      rw [hfill] at h
      simp only [Except.ok.injEq, Prod.mk.injEq] at h
      exact ⟨h.1.symm, _, hseg, rfl, rfl, rfl⟩

/-! ## State of the filler on return -/

theorem sameConfig_trans {a b c : HoleFiller} (h1 : sameConfig a b) (h2 : sameConfig b c) :
    sameConfig a c :=
  ⟨h2.1.trans h1.1, h2.2.1.trans h1.2.1, h2.2.2.1.trans h1.2.2.1,
    h2.2.2.2.1.trans h1.2.2.2.1, h2.2.2.2.2.trans h1.2.2.2.2⟩

theorem sameConfig_of_sameButLayerMap {a b : HoleFiller} (h : sameButLayerMap a b) :
    sameConfig a b := by
  obtain ⟨lm, he, _⟩ := h
  rw [he]
  exact ⟨rfl, rfl, rfl, rfl, rfl⟩

/-- Whenever `FillImage` returns, the filler it returns has the configuration it was
called with and is the result of `ClearFields`. -/
theorem FillImage_clears {hf hf1 : HoleFiller} {image out : Mat}
    (h : FillImage hf image = Except.ok (out, hf1)) :
    ∃ hf2, sameConfig hf hf2 ∧ hf1 = ClearFields hf2 := by
  by_cases h1 : hf.algorithmType = ALGORITHM_OPTION_ONE
  · obtain ⟨seg, hseg, _, he⟩ := FillImage_exact_ok h1 h
    exact ⟨seg, FindHoleAndBoundaryPixels_sameConfig hseg, he⟩
  · by_cases h2 : hf.algorithmType = ALGORITHM_OPTION_TWO
    · obtain ⟨seg, lay, hf2, hseg, hlay, hsw, he⟩ := FillImage_iterative_ok h2 h
      obtain ⟨_, _, hsame, _⟩ := sweeps_frame image _ lay hf2 out hsw
      exact ⟨hf2, sameConfig_trans (FindHoleAndBoundaryPixels_sameConfig hseg)
        (sameConfig_trans (SetLayers_sameConfig hlay).1
          (sameConfig_of_sameButLayerMap hsame)), he⟩
    · unfold FillImage at h
      simp only at h
      cases hseg : FindHoleAndBoundaryPixels hf image with
      | error e => rw [hseg] at h; simp at h
      | ok seg =>
        rw [hseg] at h
        simp only at h
        have hcfg := FindHoleAndBoundaryPixels_sameConfig hseg
        have ha : seg.algorithmType = hf.algorithmType := hcfg.2.2.2.1
        unfold runAlgorithm at h
        rw [if_neg (by rw [ha]; exact h1), if_neg (by rw [ha]; exact h2)] at h
        simp only [Except.ok.injEq, Prod.mk.injEq] at h
        exact ⟨seg, hcfg, h.2.symm⟩

/-- C14. Whenever `FillImage`, called on a freshly constructed filler, returns: the visited
set, the hole vector, both boundary vectors, both layer maps and both frontier vectors of
the returned filler are empty, the returned filler equals the filler at construction, and
a second call of `FillImage` on the returned filler with the same image returns the same
image and the same filler. -/
theorem fill_leaves_filler_as_constructed (image : Mat) (z : Int) (epsilon : ℚ) (c a : Int)
    (w : WeightFunctionType) (out : Mat) (hf1 : HoleFiller)
    (h : FillImage (HoleFiller.new z epsilon c a w) image = Except.ok (out, hf1)) :
    (hf1.visitedSet = [] ∧ hf1.holePixelsVector_ = [] ∧
      hf1.boundaryPixelsCoordinatesVector_ = [] ∧ hf1.boundaryPixelsValuesVector_ = [] ∧
      hf1.layerMap = (fun _ => none) ∧ hf1.layerMapReverse = [] ∧
      hf1.curLayerVector = [] ∧ hf1.tempLayerVector = []) ∧
    hf1 = HoleFiller.new z epsilon c a w ∧
    FillImage hf1 image = Except.ok (out, hf1) := by
  obtain ⟨hf2, hcfg, he⟩ := FillImage_clears h
  have hnew : hf1 = HoleFiller.new z epsilon c a w := by
    rw [he]
    exact ClearFields_eq_new z epsilon c a w hf2 hcfg
  refine ⟨?_, hnew, ?_⟩
  · rw [hnew]
    exact ⟨rfl, rfl, rfl, rfl, rfl, rfl, rfl, rfl⟩
  · rw [hnew]
    rw [hnew] at h
    exact h

/-- Instance of C14 on the 7×7 ring image, Iterative algorithm: the run returns, and the
second call on the returned filler returns the same image. -/
theorem fill_leaves_filler_as_constructed_witness :
    ∃ out hf1, FillImage (HoleFiller.new 2 (1 / 100) 8 ALGORITHM_OPTION_TWO unitWeight)
        imageRing7 = Except.ok (out, hf1) ∧
      hf1.layerMapReverse = [] ∧ FillImage hf1 imageRing7 = Except.ok (out, hf1) := by
  obtain ⟨out, hf1, h⟩ := FillImage_iterative_returns imageRing7 (by decide) 2 (1 / 100) 8
    unitWeight (by decide!)
  have H := fill_leaves_filler_as_constructed imageRing7 2 (1 / 100) 8 ALGORITHM_OPTION_TWO
    unitWeight out hf1 h
  exact ⟨out, hf1, h, H.1.2.2.2.2.2.1, H.2.2⟩

/-! ## Seed search -/

theorem findFirstHoleIn_first (image : Mat) :
    ∀ (ps : List Pixel) (seed : Pixel), findFirstHoleIn image ps = Except.ok seed →
      (∃ pre post, ps = pre ++ seed :: post ∧
        (∀ q ∈ pre, ∃ v, image.at q.1 q.2 = Except.ok v ∧ v ≠ holeVal) ∧
        image.at seed.1 seed.2 = Except.ok holeVal) ∨
      (seed = (HOLE_VALUE, HOLE_VALUE) ∧
        ∀ p ∈ ps, ∃ v, image.at p.1 p.2 = Except.ok v ∧ v ≠ holeVal) := by
  intro ps
  induction ps with
  | nil =>
    intro seed h
    simp only [findFirstHoleIn, Except.ok.injEq] at h
    exact Or.inr ⟨h.symm, by simp⟩
  | cons p rest ih =>
    intro seed h
    rw [findFirstHoleIn] at h
    cases hv : image.at p.1 p.2 with
    | error e => rw [hv] at h; simp at h
    | ok v =>
      rw [hv] at h
      simp only at h
      by_cases hh : v = holeVal
      · rw [if_pos hh] at h
        simp only [Except.ok.injEq] at h
        subst h
        exact Or.inl ⟨[], rest, rfl, by simp, hh ▸ hv⟩
      · rw [if_neg hh] at h
        rcases ih seed h with ⟨pre, post, he, hpre, hs⟩ | ⟨hs, hall⟩
        · refine Or.inl ⟨p :: pre, post, by rw [he]; rfl, ?_, hs⟩
          intro q hq
          rcases List.mem_cons.mp hq with rfl | hq
          · exact ⟨v, hv, hh⟩
          · exact hpre q hq
        · refine Or.inr ⟨hs, ?_⟩
          intro q hq
          rcases List.mem_cons.mp hq with rfl | hq
          · exact ⟨v, hv, hh⟩
          · exact hall q hq

/-- C20 (failing input). On the image with one row and two columns `[5, -1]` the seed
search reads `image.at (1, 0)`, a position outside the image, and returns no coordinate,
although the image holds a sentinel.  On every square image the seed search returns: either
the first pixel in scan order that holds the sentinel, which lies inside the image, or
the pair `(-1, -1)` when no pixel of the scan holds the sentinel. -/
theorem seed_search_reads_outside_nonsquare_image :
    FindFirstHolePixel imageRow2 = Except.error Fault.outOfRange ∧
    imageRow2.at 0 1 = Except.ok holeVal ∧
    ∀ image : Mat, image.rows = image.cols →
      ∃ seed, FindFirstHolePixel image = Except.ok seed ∧
        ((∃ pre post, scanOrder image = pre ++ seed :: post ∧
            (∀ q ∈ pre, ∃ v, image.at q.1 q.2 = Except.ok v ∧ v ≠ holeVal) ∧
            image.at seed.1 seed.2 = Except.ok holeVal ∧ image.inRange seed.1 seed.2) ∨
          (seed = (HOLE_VALUE, HOLE_VALUE) ∧
            ∀ p ∈ scanOrder image, ∃ v, image.at p.1 p.2 = Except.ok v ∧ v ≠ holeVal)) := by
  refine ⟨by decide!, by decide!, ?_⟩
  intro image hsq
  obtain ⟨seed, hseed⟩ := FindFirstHolePixel_total image hsq
  refine ⟨seed, hseed, ?_⟩
  rcases findFirstHoleIn_first image _ seed hseed with ⟨pre, post, he, hpre, hs⟩ | h
  · exact Or.inl ⟨pre, post, he, hpre, hs, (Mat.at_eq_ok hs).1⟩
  · exact Or.inr h

/-! ## Flood fill: the hole vector and the boundary vectors -/

/-- Invariants of `FloodFill` whose preservation needs to know that the pixel being
recorded was not in the visited set: each case of the function body is one step. -/
theorem FloodFill_steps (image : Mat) (I : HoleFiller → Prop)
    (hout : ∀ (hf : HoleFiller) (p : Pixel), I hf →
      INDEX p.2 p.1 image.cols ∉ hf.visitedSet → ¬ inBounds image p →
      I { hf with visitedSet := INDEX p.2 p.1 image.cols :: hf.visitedSet })
    (hB : ∀ (hf : HoleFiller) (p : Pixel) (v : Val), I hf →
      INDEX p.2 p.1 image.cols ∉ hf.visitedSet → inBounds image p →
      image.at p.1 p.2 = Except.ok v → v ≠ holeVal →
      I { hf with
          visitedSet := INDEX p.2 p.1 image.cols :: hf.visitedSet,
          boundaryPixelsValuesVector_ := hf.boundaryPixelsValuesVector_ ++ [v],
          boundaryPixelsCoordinatesVector_ := hf.boundaryPixelsCoordinatesVector_ ++ [p] })
    (hH : ∀ (hf : HoleFiller) (p : Pixel), I hf →
      INDEX p.2 p.1 image.cols ∉ hf.visitedSet → inBounds image p →
      image.at p.1 p.2 = Except.ok holeVal →
      I { hf with
          visitedSet := INDEX p.2 p.1 image.cols :: hf.visitedSet,
          holePixelsVector_ := hf.holePixelsVector_ ++ [p] }) :
    ∀ (fuel : Nat) (hf : HoleFiller) (p : Pixel) (hf1 : HoleFiller), I hf →
      FloodFill fuel image hf p = Except.ok hf1 → I hf1 := by
  intro fuel
  induction fuel with
  | zero => intro hf p hf1 _ h; simp [FloodFill] at h
  | succ n ih =>
    intro hf p hf1 hI h
    rw [FloodFill] at h
    simp only at h
    split at h
    · simp only [Except.ok.injEq] at h; exact h ▸ hI
    · rename_i hnv
      split at h
      · rename_i hb
        simp only [Except.ok.injEq] at h
        exact h ▸ hout hf p hI hnv (fun hin => hin hb)
      · rename_i hb
        split at h
        · simp at h
        · rename_i v hv
          split at h
          · rename_i hne
            simp only [Except.ok.injEq] at h
            exact h ▸ hB hf p v hI hnv hb hv hne
          · rename_i heq
            have heq1 : v = holeVal := by simpa using heq
            subst heq1
            have hI2 := hH hf p hI hnv hb hv
            exact forPixels_invariant I (fun _ => True)
              (fun st q st1 hst _ hs => ih st q st1 hst hs) _ _ hf1 (fun _ _ => trivial) hI2 h

theorem FloodFill_vectorsOk (image : Mat) (fuel : Nat) (hf : HoleFiller) (p : Pixel)
    (hf1 : HoleFiller) (h0 : VectorsOk image hf)
    (h : FloodFill fuel image hf p = Except.ok hf1) : VectorsOk image hf1 := by
  refine FloodFill_steps image (fun st => VectorsOk image st) ?_ ?_ ?_ fuel hf p hf1 h0 h
  · intro st q hst _ _
    refine ⟨?_, hst.nodup, hst.len, hst.holes, hst.samples⟩
    intro r hr
    exact ⟨(hst.visited r hr).1, List.mem_cons_of_mem _ (hst.visited r hr).2⟩
  · intro st q v hst hnv hb hv hne
    have hnew : q ∉ st.holePixelsVector_ ++ st.boundaryPixelsCoordinatesVector_ :=
      fun hin => hnv (hst.visited q hin).2
    refine ⟨?_, ?_, ?_, hst.holes, ?_⟩
    · intro r hr
      simp only [List.mem_append, List.mem_singleton] at hr
      rcases hr with hr | hr | rfl
      · exact ⟨(hst.visited r (List.mem_append_left _ hr)).1,
          List.mem_cons_of_mem _ (hst.visited r (List.mem_append_left _ hr)).2⟩
      · exact ⟨(hst.visited r (List.mem_append_right _ hr)).1,
          List.mem_cons_of_mem _ (hst.visited r (List.mem_append_right _ hr)).2⟩
      · exact ⟨hb, List.mem_cons_self _ _⟩
    · show (st.holePixelsVector_ ++ (st.boundaryPixelsCoordinatesVector_ ++ [q])).Nodup
      rw [← List.append_assoc]
      exact List.Nodup.append hst.nodup (List.nodup_singleton q)
        (by
          intro a ha hq
          rw [List.mem_singleton] at hq
          exact hnew (hq ▸ ha))
    · show (st.boundaryPixelsCoordinatesVector_ ++ [q]).length
        = (st.boundaryPixelsValuesVector_ ++ [v]).length
      simp only [List.length_append, List.length_singleton, hst.len]
    · intro e he
      unfold HoleFiller.boundary at he
      simp only at he
      rw [List.zip_append hst.len] at he
      simp only [List.zip_cons_cons, List.zip_nil_right, List.mem_append, List.mem_singleton] at he
      rcases he with he | rfl
      · exact hst.samples e he
      · exact ⟨hv, hne⟩
  · intro st q hst hnv hb hv
    have hnew : q ∉ st.holePixelsVector_ ++ st.boundaryPixelsCoordinatesVector_ :=
      fun hin => hnv (hst.visited q hin).2
    refine ⟨?_, ?_, hst.len, ?_, hst.samples⟩
    · intro r hr
      simp only [List.mem_append, List.mem_singleton] at hr
      rcases hr with (hr | rfl) | hr
      · exact ⟨(hst.visited r (List.mem_append_left _ hr)).1,
          List.mem_cons_of_mem _ (hst.visited r (List.mem_append_left _ hr)).2⟩
      · exact ⟨hb, List.mem_cons_self _ _⟩
      · exact ⟨(hst.visited r (List.mem_append_right _ hr)).1,
          List.mem_cons_of_mem _ (hst.visited r (List.mem_append_right _ hr)).2⟩
    · show ((st.holePixelsVector_ ++ [q]) ++ st.boundaryPixelsCoordinatesVector_).Nodup
      have hperm : ((st.holePixelsVector_ ++ [q]) ++ st.boundaryPixelsCoordinatesVector_).Perm
          (q :: (st.holePixelsVector_ ++ st.boundaryPixelsCoordinatesVector_)) := by
        rw [List.append_assoc]
        exact List.perm_middle
      exact hperm.nodup_iff.mpr (List.nodup_cons.mpr ⟨hnew, hst.nodup⟩)
    · intro r hr
      simp only [List.mem_append, List.mem_singleton] at hr
      rcases hr with hr | rfl
      · exact hst.holes r hr
      · exact hv

theorem FloodFill_total (image : Mat) (hsq : image.rows = image.cols) (hf : HoleFiller)
    (hv : hf.visitedSet = []) (p : Pixel) :
    ∃ hf1, FloodFill (floodFuel image) image hf p = Except.ok hf1 := by
  cases h : FloodFill (floodFuel image) image hf p with
  | ok hf1 => exact ⟨hf1, rfl⟩
  | error e =>
    exfalso
    cases e with
    | outOfRange => exact FloodFill_no_outOfRange image hsq _ hf p h
    | outOfFuel =>
      refine FloodFill_fuel image _ hf p ?_ h
      rw [hv, unvisited_nil]
      unfold floodFuel
      omega

/-- C19. `FloodFill` started on a freshly constructed filler at any seed: on a square image
it returns; and whenever it returns, no coordinate occurs in both the hole vector and the
boundary vector, no coordinate occurs twice in either, the boundary coordinate and value
vectors have equal length, every coordinate of the hole vector holds the sentinel, and
every boundary value is the value the image holds at its coordinate and is not the
sentinel. -/
theorem floodfill_vectors_consistent (image : Mat) (z : Int) (epsilon : ℚ) (c a : Int)
    (w : WeightFunctionType) (seed : Pixel) :
    (image.rows = image.cols →
      ∃ seg, FloodFill (floodFuel image) image (HoleFiller.new z epsilon c a w) seed
        = Except.ok seg) ∧
    ∀ (fuel : Nat) (seg : HoleFiller),
      FloodFill fuel image (HoleFiller.new z epsilon c a w) seed = Except.ok seg →
      (∀ q ∈ seg.holePixelsVector_, q ∉ seg.boundaryPixelsCoordinatesVector_) ∧
      seg.holePixelsVector_.Nodup ∧ seg.boundaryPixelsCoordinatesVector_.Nodup ∧
      seg.boundaryPixelsCoordinatesVector_.length = seg.boundaryPixelsValuesVector_.length ∧
      (∀ q ∈ seg.holePixelsVector_, image.at q.1 q.2 = Except.ok holeVal) ∧
      (∀ e ∈ seg.boundaryPixelsCoordinatesVector_.zip seg.boundaryPixelsValuesVector_,
        image.at e.1.1 e.1.2 = Except.ok e.2 ∧ e.2 ≠ holeVal) := by
  refine ⟨fun hsq => FloodFill_total image hsq _ rfl seed, ?_⟩
  intro fuel seg h
  have h0 : VectorsOk image (HoleFiller.new z epsilon c a w) :=
    ⟨by simp [HoleFiller.new], by simp [HoleFiller.new], rfl, by simp [HoleFiller.new],
      by simp [HoleFiller.boundary, HoleFiller.new]⟩
  have hV := FloodFill_vectorsOk image fuel _ seed seg h0 h
  have hnd := List.nodup_append.mp hV.nodup
  exact ⟨fun q hq hb => hnd.2.2 hq hb, hnd.1, hnd.2.1, hV.len, hV.holes, hV.samples⟩

/-- Instance of C19 on the 3×3 image with a hole along its left border, seed `(0, 0)`,
connectivity 4: the flood fill returns and the seed is in the hole vector only. -/
theorem floodfill_vectors_consistent_witness :
    ∃ seg, FloodFill (floodFuel imageBorderHole) imageBorderHole
        (HoleFiller.new 2 (1 / 100) 4 1 unitWeight) (0, 0) = Except.ok seg ∧
      seg.holePixelsVector_.Nodup ∧ seg.boundaryPixelsCoordinatesVector_.Nodup ∧
      ∀ q ∈ seg.holePixelsVector_, q ∉ seg.boundaryPixelsCoordinatesVector_ := by
  have H := floodfill_vectors_consistent imageBorderHole 2 (1 / 100) 4 1 unitWeight (0, 0)
  obtain ⟨seg, h⟩ := H.1 (by decide)
  obtain ⟨h1, h2, h3, _⟩ := H.2 _ seg h
  exact ⟨seg, h, h2, h3, h1⟩

/-! ## Order of the updates in a sweep -/

theorem mapPushBack_cases (k : Int) (q : Pixel) :
    ∀ (layers : List (Int × List Pixel)), ∀ l1 ∈ mapPushBack layers k q,
      l1 ∈ layers ∨ (∃ l ∈ layers, l1 = (l.1, l.2 ++ [q])) ∨ l1 = (k, [q]) := by
  intro layers
  induction layers with
  | nil =>
    intro l1 h
    simp only [mapPushBack, List.mem_singleton] at h
    exact Or.inr (Or.inr h)
  | cons a rest ih =>
    intro l1 h
    obtain ⟨k0, ps⟩ := a
    rw [mapPushBack] at h
    by_cases h1 : k = k0
    · rw [if_pos h1] at h
      rcases List.mem_cons.mp h with rfl | h
      · exact Or.inr (Or.inl ⟨(k0, ps), List.mem_cons_self _ _, rfl⟩)
      · exact Or.inl (List.mem_cons_of_mem _ h)
    · rw [if_neg h1] at h
      by_cases h2 : k < k0
      · rw [if_pos h2] at h
        rcases List.mem_cons.mp h with rfl | h
        · exact Or.inr (Or.inr rfl)
        · exact Or.inl h
      · rw [if_neg h2] at h
        rcases List.mem_cons.mp h with rfl | h
        · exact Or.inl (List.mem_cons_self _ _)
        · rcases ih l1 h with h | ⟨l, hl, he⟩ | h
          · exact Or.inl (List.mem_cons_of_mem _ h)
          · exact Or.inr (Or.inl ⟨l, List.mem_cons_of_mem _ hl, he⟩)
          · exact Or.inr (Or.inr h)

theorem SetLayers_layersNodup {hf lay : HoleFiller} {image : Mat}
    (h : SetLayers hf image = Except.ok lay) (h0 : hf.layerMapReverse = []) :
    layersNodup image.cols lay := by
  unfold SetLayers at h
  refine setLayersLoop_invariant image (fun st => layersNodup image.cols st)
    ?_ ?_ ?_ _ _ lay 0 (by
      show layersNodup image.cols _
      unfold layersNodup
      simp only [h0]
      exact ⟨by simp, by simp⟩) h
  · intro st q L hst _ hnone
    have hq : ∀ l ∈ st.layerMapReverse, q ∉ l.2 := fun l hl hin => hst.2 l hl q hin hnone
    constructor
    · intro l1 hl1
      simp only at hl1
      rcases mapPushBack_cases (L + 1) q _ l1 hl1 with h1 | ⟨l, hl, rfl⟩ | rfl
      · exact hst.1 l1 h1
      · exact List.Nodup.append (hst.1 l hl) (List.nodup_singleton q)
          (by
            intro a ha hq1
            rw [List.mem_singleton] at hq1
            exact hq l hl (hq1 ▸ ha))
      · exact List.nodup_singleton q
    · intro l1 hl1 r hr
      simp only at hl1 ⊢
      by_cases hidx : INDEX r.2 r.1 image.cols = INDEX q.2 q.1 image.cols
      · rw [if_pos hidx]
        simp
      · rw [if_neg hidx]
        rcases mapPushBack_cases (L + 1) q _ l1 hl1 with h1 | ⟨l, hl, rfl⟩ | rfl
        · exact hst.2 l1 h1 r hr
        · simp only [List.mem_append, List.mem_singleton] at hr
          rcases hr with hr | rfl
          · exact hst.2 l hl r hr
          · exact absurd rfl hidx
        · simp only [List.mem_singleton] at hr
          subst hr
          exact absurd rfl hidx
  · intro st p L hst _
    refine ⟨hst.1, ?_⟩
    intro l hl r hr
    simp only
    by_cases hidx : INDEX r.2 r.1 image.cols = INDEX p.2 p.1 image.cols
    · rw [if_pos hidx]
      simp
    · rw [if_neg hidx]
      exact hst.2 l hl r hr
  · intro st hst
    exact hst

theorem mem_updateOrder (hf : HoleFiller) (p : Pixel) :
    p ∈ updateOrder hf ↔ inLayers hf.layerMapReverse p := by
  unfold updateOrder inLayers
  rw [List.mem_flatMap]

theorem keysSorted_pairwise {layers : List (Int × List Pixel)} (h : keysSorted layers) :
    layers.Pairwise (fun a b => a.1 < b.1) := by
  unfold keysSorted at h
  exact List.pairwise_map.mp h

/-- No pixel is updated twice in a sweep. -/
theorem updateOrder_nodup {image : Mat} {lay : HoleFiller} (hL : Layered image lay)
    (hN : layersNodup image.cols lay) : (updateOrder lay).Nodup := by
  unfold updateOrder
  rw [List.nodup_flatMap]
  refine ⟨fun l hl => hN.1 l hl, ?_⟩
  refine (keysSorted_pairwise hL.sorted).imp_of_mem ?_
  intro a b ha hb hlt
  show List.Disjoint a.2 b.2
  intro q hqa hqb
  have h1 := (hL.rev a.1 q).mp ⟨a, ha, rfl, hqa⟩
  have h2 := (hL.rev b.1 q).mp ⟨b, hb, rfl, hqb⟩
  rw [h1.2] at h2
  have := Option.some.inj h2.2
  omega

/-- Pixels are updated in the order of their depth. -/
theorem updateOrder_sorted {image : Mat} {lay : HoleFiller} (hL : Layered image lay) :
    (updateOrder lay).Pairwise
      (fun p q => layerOf image.cols lay p ≤ layerOf image.cols lay q) := by
  have hdepth : ∀ l ∈ lay.layerMapReverse, ∀ q ∈ l.2, layerOf image.cols lay q = l.1 := by
    intro l hl q hq
    have := (hL.rev l.1 q).mp ⟨l, hl, rfl, hq⟩
    unfold layerOf
    unfold depthOf at this
    rw [this.2]
    rfl
  unfold updateOrder
  rw [List.pairwise_flatMap]
  constructor
  · intro l hl
    rw [List.pairwise_iff_forall_sublist]
    intro p q hsub
    have hp : p ∈ l.2 := hsub.subset (by simp)
    have hq : q ∈ l.2 := hsub.subset (by simp)
    rw [hdepth l hl p hp, hdepth l hl q hq]
  · refine (keysSorted_pairwise hL.sorted).imp_of_mem ?_
    intro a b ha hb hlt p hp q hq
    rw [hdepth a ha p hp, hdepth b hb q hq]
    exact le_of_lt hlt

theorem updateLayer_append (image : Mat) :
    ∀ (ps qs : List Pixel) (st : Mat × HoleFiller),
      updateLayer image (ps ++ qs) st =
        match updateLayer image ps st with
        | Except.error e => Except.error e
        | Except.ok st1 => updateLayer image qs st1 := by
  intro ps
  induction ps with
  | nil => intro qs st; rfl
  | cons p rest ih =>
    intro qs st
    simp only [List.cons_append, updateLayer]
    cases updatePixel image st p with
    | error e => rfl
    | ok st1 => exact ih qs st1

/-- One sweep is the sequence of the pixel updates in update order. -/
theorem sweepLayers_flat (image : Mat) :
    ∀ (layers : List (Int × List Pixel)) (st : Mat × HoleFiller),
      sweepLayers image layers st = updateLayer image (layers.flatMap (fun l => l.2)) st := by
  intro layers
  induction layers with
  | nil => intro st; rfl
  | cons l rest ih =>
    intro st
    simp only [sweepLayers, List.flatMap_cons]
    rw [updateLayer_append]
    cases updateLayer image l.2 st with
    | error e => rfl
    | ok st1 => exact ih st1

theorem updateLayer_frame (image : Mat) :
    ∀ (ps : List Pixel) (m m1 : Mat) (hf hf1 : HoleFiller), m.cols = image.cols →
      updateLayer image ps (m, hf) = Except.ok (m1, hf1) →
      m1.rows = m.rows ∧ m1.cols = m.cols ∧ sameButLayerMap hf hf1 ∧
        ∀ c : Pixel, c ∉ ps → m1.data c.1 c.2 = m.data c.1 c.2 := by
  intro ps
  induction ps with
  | nil =>
    intro m m1 hf hf1 _ h
    simp only [updateLayer, Except.ok.injEq, Prod.mk.injEq] at h
    obtain ⟨rfl, rfl⟩ := h
    exact ⟨rfl, rfl, sameButLayerMap_refl _, fun _ _ => rfl⟩
  | cons p rest ih =>
    intro m m1 hf hf1 hcols h
    rw [updateLayer] at h
    cases hu : updatePixel image (m, hf) p with
    | error e => rw [hu] at h; simp at h
    | ok st =>
      obtain ⟨m2, hf2⟩ := st
      rw [hu] at h
      simp only at h
      obtain ⟨_, _, hsame, hrows, hcs, _, hframe⟩ := updatePixel_ok hcols hu
      obtain ⟨h1, h2, h3, h4⟩ := ih m2 m1 hf2 hf1 (hcs.trans hcols) h
      refine ⟨h1.trans hrows, h2.trans hcs, sameButLayerMap_trans hsame h3, ?_⟩
      intro c hc
      rw [h4 c (fun hin => hc (List.mem_cons_of_mem _ hin))]
      exact hframe c (fun he => hc (he ▸ List.mem_cons_self _ _))

theorem sameButLayerMap_layers {a b : HoleFiller} (h : sameButLayerMap a b) :
    b.layerMapReverse = a.layerMapReverse := by
  obtain ⟨lm, he, _⟩ := h
  rw [he]

/-- C18 (counterexample). On `imageTwoHoles` with connectivity 4 the hole vector is
`[(2, 2)]`, yet `layerMapReverse` lists under key `1` the pixels `(2, 2)` and `(3, 3)`:
`(3, 3)` is not a pixel of `H`.  On the 3×3 image of nine sentinels the hole vector is not
empty and `layerMapReverse` is empty: a sweep updates no pixel of `H`. -/
theorem layered_index_differs_from_hole_vector :
    (layeredState (HoleFiller.new 2 (1 / 100) 4 2 unitWeight) imageTwoHoles).toOption.map
        (fun lay => (lay.holePixelsVector_, lay.layerMapReverse))
      = some ([(2, 2)], [(1, [(2, 2), (3, 3)])]) ∧
    (layeredState (HoleFiller.new 2 (1 / 100) 4 2 unitWeight) imageAllHole3).toOption.map
        (fun lay => (decide ((0, 0) ∈ lay.holePixelsVector_), lay.layerMapReverse))
      = some (true, []) := by
  refine ⟨by decide!, by decide!⟩

/-! ## First sweep of the iterative filler -/

/-- C17 (counterexample). On `imageTwoPixelHole` (connectivity 4, unit weights) the hole
pixel `(2, 3)` has depth 1 and its neighbours in `B` hold `6, 2, 4`, whose mean is `4`.
After the first sweep it holds `15/4`: the hole pixel `(2, 2)`, updated just before it
to `3`, has contributed. -/
theorem first_sweep_uses_updated_hole_neighbour :
    (layeredState (HoleFiller.new 2 (1 / 100) 4 2 unitWeight) imageTwoPixelHole).toOption.map
        (fun lay => (lay.holePixelsVector_, lay.layerMapReverse)) =
      some ([(2, 2), (2, 3)], [(1, [(2, 2), (2, 3)])]) ∧
    (layeredState (HoleFiller.new 2 (1 / 100) 4 2 unitWeight) imageTwoPixelHole).toOption.map
        (fun lay => layerOf imageTwoPixelHole.cols lay (2, 3)) = some 1 ∧
    (layeredState (HoleFiller.new 2 (1 / 100) 4 2 unitWeight) imageTwoPixelHole).toOption.map
        (fun lay => boundaryNeighbours lay (2, 3)) =
      some [((3, 3), Val.fin 6), ((1, 3), Val.fin 2), ((2, 4), Val.fin 4)] ∧
    weightedMean unitWeight (2, 3) 2 (1 / 100)
        [((3, 3), Val.fin 6), ((1, 3), Val.fin 2), ((2, 4), Val.fin 4)] = Val.fin 4 ∧
    (sweeps imageTwoPixelHole 1 (imageTwoPixelHole, layeredTwoPixelHole)).toOption.map
        (fun r => (r.1.data 2 2, r.1.data 2 3)) = some (Val.fin 3, Val.fin (15 / 4)) := by
  refine ⟨by decide!, by decide!, by decide!, by decide!, by decide!⟩

theorem layerOf_sample_zero {image : Mat} {lay : HoleFiller} (hL : Layered image lay)
    {q : Pixel} (hr : image.inRange q.1 q.2) (hq : image.data q.1 q.2 ≠ holeVal) :
    layerOf image.cols lay q = 0 := by
  unfold layerOf
  cases hd : lay.layerMap (INDEX q.2 q.1 image.cols) with
  | none => rfl
  | some d =>
    exfalso
    have := (hL.sent q d hr hd).1
    rw [Mat.at_of_inRange hr] at this
    exact hq (Except.ok.inj this)

theorem updateOrder_sentinel {image : Mat} {lay : HoleFiller} (hL : Layered image lay)
    {q : Pixel} (hq : q ∈ updateOrder lay) :
    image.inRange q.1 q.2 ∧ image.data q.1 q.2 = holeVal ∧
      ∃ k, depthOf image.cols lay q = some k ∧ 1 ≤ k := by
  obtain ⟨k, hk⟩ := inLayers_keyed ((mem_updateOrder lay q).mp hq)
  obtain ⟨hr, hd⟩ := (hL.rev k q).mp hk
  obtain ⟨hv, h1⟩ := hL.sent q k hr hd
  exact ⟨hr, (Mat.at_eq_ok hv).2, k, hd, h1⟩

/-- C17 (amended). On a square image, after segmentation and layer building, let `p` be a
pixel of the hole vector of depth 1 and let `pre` be the pixels that a sweep updates
before `p`.  The first sweep returns, and after it `p` holds the weighted mean over its
neighbours in `B`, with their samples, and over its neighbours in `pre` whose value after
the sweep is not the sentinel, with that value.  The pixels of `pre` have depth 1, and
those next to `p` are pixels of the hole vector; no pixel updated after `p` contributes. -/
theorem first_sweep_depth_one_value (image : Mat) (hsq : image.rows = image.cols)
    (z : Int) (epsilon : ℚ) (c a : Int) (w : WeightFunctionType) (seg lay : HoleFiller)
    (p : Pixel) (pre post : List Pixel)
    (hseg : FindHoleAndBoundaryPixels (HoleFiller.new z epsilon c a w) image = Except.ok seg)
    (hlay : SetLayers seg image = Except.ok lay)
    (hp : p ∈ seg.holePixelsVector_)
    (hd : lay.layerMap (INDEX p.2 p.1 image.cols) = some 1)
    (hord : updateOrder lay = pre ++ p :: post) :
    (∃ out1 hf1, sweeps image 1 (image, lay) = Except.ok (out1, hf1)) ∧
    ∀ (out1 : Mat) (hf1 : HoleFiller), sweeps image 1 (image, lay) = Except.ok (out1, hf1) →
      out1.at p.1 p.2 = Except.ok (weightedMean w p z epsilon
        (firstSweepContributors c seg.boundaryPixelsCoordinatesVector_ pre image out1 p)) ∧
      (∀ q ∈ pre, lay.layerMap (INDEX q.2 q.1 image.cols) = some 1) ∧
      (∀ q ∈ pre, q ∈ neighborPixels c p → q ∈ seg.holePixelsVector_) := by
  obtain ⟨seed1, _, hff⟩ := FindHoleAndBoundaryPixels_ok hseg
  have hfields := FloodFill_layerFields image _ _ seed1 seg hff
  have hL : Layered image lay :=
    SetLayers_layered hsq hfields.1 hfields.2.1 hfields.2.2.1 hlay
  have hcfg1 := FindHoleAndBoundaryPixels_sameConfig hseg
  obtain ⟨hcfg2, _, hbnd, _⟩ := SetLayers_sameConfig hlay
  have hpr : image.inRange p.1 p.2 :=
    inRange_of_inBounds_square hsq (FindHoleAndBoundaryPixels_holes hseg rfl p hp).1
  have hB : seg.boundaryPixelsCoordinatesVector_ ≠ [] := by
    obtain ⟨b, hb, _⟩ := (hL.parent p 1 hpr hd).1 rfl
    rw [hbnd] at hb
    exact List.ne_nil_of_mem hb
  obtain ⟨seed, hS⟩ := iterative_setup hsq z epsilon c a w hseg hlay hB
  have hN := SetLayers_layersNodup hlay hfields.2.1
  have hnd := updateOrder_nodup hL hN
  have hsorted := updateOrder_sorted hL
  rw [hord] at hnd hsorted
  have hreach := (hS.holeIff p).mp hp
  have hlp : layerOf image.cols lay p = 1 := by
    unfold layerOf
    rw [hd]
    rfl
  have hsafe : ∀ r, inLayers lay.layerMapReverse r → image.inRange r.1 r.2 ∧
      ∀ q ∈ neighborPixels lay.connectivity_ r, image.inRange q.1 q.2 := by
    intro r hr
    obtain ⟨k, hk⟩ := inLayers_keyed hr
    obtain ⟨hrr, hdr⟩ := (hL.rev k r).mp hk
    exact ⟨hrr, fun q hq => (hL.closed r k hrr hdr q hq).1⟩
  constructor
  · obtain ⟨st1, hst1⟩ := sweeps_total hsafe 1 (image, lay) rfl rfl (sameButLayerMap_refl lay)
    exact ⟨st1.1, st1.2, hst1⟩
  intro out1 hf1 hsweep
  have hflat : updateLayer image (updateOrder lay) (image, lay) = Except.ok (out1, hf1) := by
    rw [sweeps] at hsweep
    simp only at hsweep
    rw [sweepLayers_flat] at hsweep
    unfold updateOrder
    cases hu : updateLayer image (lay.layerMapReverse.flatMap (fun l => l.2)) (image, lay) with
    | error e => rw [hu] at hsweep; simp at hsweep
    | ok st1 =>
      rw [hu] at hsweep
      simp only [sweeps] at hsweep
      exact hsweep
  rw [hord, updateLayer_append] at hflat
  cases hpre : updateLayer image pre (image, lay) with
  | error e => rw [hpre] at hflat; simp at hflat
  | ok st =>
    obtain ⟨m, hf⟩ := st
    rw [hpre] at hflat
    simp only at hflat
    rw [updateLayer] at hflat
    cases hu : updatePixel image (m, hf) p with
    | error e => rw [hu] at hflat; simp at hflat
    | ok st2 =>
      obtain ⟨m2, hf2⟩ := st2
      rw [hu] at hflat
      simp only at hflat
      obtain ⟨hmr, hmc, hsame, hmframe⟩ := updateLayer_frame image pre image m lay hf rfl hpre
      obtain ⟨_, _, _, h2r, h2c, hval, h2frame⟩ := updatePixel_ok hmc hu
      obtain ⟨hor, hoc, _, hoframe⟩ :=
        updateLayer_frame image post m2 out1 hf2 hf1 (h2c.trans hmc) hflat
      obtain ⟨hndpre, hndrest, hdisj⟩ := List.nodup_append.mp hnd
      have hppost : p ∉ post := (List.nodup_cons.mp hndrest).1
      have hprepost : ∀ q ∈ pre, q ∉ post ∧ q ≠ p := by
        intro q hq
        refine ⟨fun hin => hdisj hq (List.mem_cons_of_mem _ hin), fun he => ?_⟩
        exact hdisj hq (he ▸ List.mem_cons_self _ _)
      have hpreval : ∀ q ∈ pre, m.data q.1 q.2 = out1.data q.1 q.2 := by
        intro q hq
        rw [hoframe q (hprepost q hq).1, h2frame q (hprepost q hq).2]
      have hpreOrder : ∀ q ∈ pre, q ∈ updateOrder lay := by
        intro q hq
        rw [hord]
        exact List.mem_append_left _ hq
      have hprele : ∀ q ∈ pre, layerOf image.cols lay q ≤ layerOf image.cols lay p :=
        fun q hq => (List.pairwise_append.mp hsorted).2.2 q hq p (List.mem_cons_self _ _)
      have hcfg : sameConfig (HoleFiller.new z epsilon c a w) hf :=
        sameConfig_trans hcfg1 (sameConfig_trans hcfg2 (sameConfig_of_sameButLayerMap hsame))
      have hlist : contributing m hf p
          = firstSweepContributors c seg.boundaryPixelsCoordinatesVector_ pre image out1 p := by
        unfold contributing firstSweepContributors
        rw [show hf.connectivity_ = c from hcfg.2.2.1]
        apply List.filterMap_congr
        intro q hq
        have hqr : image.inRange q.1 q.2 := hS.interior p hreach q hq
        have hlq : layerOf m.cols hf q = layerOf image.cols lay q := by
          rw [hmc]
          exact sameButLayerMap_layerOf hsame _ q
        have hlp1 : layerOf m.cols hf p = 1 := by
          rw [hmc, sameButLayerMap_layerOf hsame _ p]
          exact hlp
        rw [hlq, hlp1]
        by_cases hqB : q ∈ seg.boundaryPixelsCoordinatesVector_
        · obtain ⟨_, hne, _⟩ := (hS.bndIff q).mp hqB
          have hdata : image.data q.1 q.2 ≠ holeVal := by
            intro he
            apply hne
            rw [Mat.at_of_inRange hqr, he]
          have hnpre : q ∉ pre := fun hin => hdata (updateOrder_sentinel hL (hpreOrder q hin)).2.1
          rw [if_pos hqB, hmframe q hnpre, layerOf_sample_zero hL hqr hdata]
          rw [if_pos ⟨hdata, by norm_num⟩]
        · rw [if_neg hqB]
          by_cases hqpre : q ∈ pre
          · rw [hpreval q hqpre]
            have hle := hprele q hqpre
            rw [hlp] at hle
            by_cases hv : out1.data q.1 q.2 ≠ holeVal
            · rw [if_pos ⟨hv, hle⟩, if_pos ⟨hqpre, hv⟩]
            · rw [if_neg (fun h => hv h.1), if_neg (fun h => hv h.2)]
          · have hdata : image.data q.1 q.2 = holeVal := by
              by_contra hne
              apply hqB
              refine (hS.bndIff q).mpr ⟨hqr, ?_, p, hreach, hq⟩
              rw [Mat.at_of_inRange hqr]
              exact fun he => hne (Except.ok.inj he)
            rw [hmframe q hqpre, if_neg (fun h => h.1 hdata), if_neg (fun h => hqpre h.1)]
      refine ⟨?_, ?_, ?_⟩
      · have hro : out1.inRange p.1 p.2 := by
          unfold Mat.inRange at hpr ⊢
          rw [hor, hoc, h2r, h2c, hmr, hmc]
          exact hpr
        rw [Mat.at_of_inRange hro, hoframe p hppost, hval, hlist]
        rw [show hf.weightFunc_ = w from hcfg.2.2.2.2, show hf.z_ = z from hcfg.1,
          show hf.epsilon_ = epsilon from hcfg.2.1]
      · intro q hq
        obtain ⟨_, _, k, hk, hk1⟩ := updateOrder_sentinel hL (hpreOrder q hq)
        have hle := hprele q hq
        rw [hlp] at hle
        unfold layerOf at hle
        unfold depthOf at hk
        rw [hk] at hle ⊢
        have hk2 : k ≤ 1 := hle
        exact congrArg some (by omega)
      · intro q hq hqn
        obtain ⟨hqr, hqv, _⟩ := updateOrder_sentinel hL (hpreOrder q hq)
        refine (hS.holeIff q).mpr (HoleReach.step p q hreach hqn ?_)
        rw [Mat.at_of_inRange hqr, hqv]

/-- Instance of the amended C17 on `imageTwoPixelHole` at the pixel `(2, 3)`, which is
updated after `(2, 2)`: segmentation, layer building and the first sweep return, and
the value at `(2, 3)` is the mean over its three neighbours in `B` and the updated
pixel `(2, 2)`. -/
theorem first_sweep_depth_one_value_witness :
    ∃ seg lay out1 hf1,
      FindHoleAndBoundaryPixels (HoleFiller.new 2 (1 / 100) 4 2 unitWeight) imageTwoPixelHole
        = Except.ok seg ∧
      SetLayers seg imageTwoPixelHole = Except.ok lay ∧
      sweeps imageTwoPixelHole 1 (imageTwoPixelHole, lay) = Except.ok (out1, hf1) ∧
      out1.at 2 3 = Except.ok (weightedMean unitWeight (2, 3) 2 (1 / 100)
        (firstSweepContributors 4 seg.boundaryPixelsCoordinatesVector_ [(2, 2)]
          imageTwoPixelHole out1 (2, 3))) := by
  have hH : (FindHoleAndBoundaryPixels (HoleFiller.new 2 (1 / 100) 4 2 unitWeight)
      imageTwoPixelHole).toOption.map (fun seg => seg.holePixelsVector_)
        = some [(2, 2), (2, 3)] := by decide!
  have hO : (layeredState (HoleFiller.new 2 (1 / 100) 4 2 unitWeight)
      imageTwoPixelHole).toOption.map
        (fun lay => (updateOrder lay, lay.layerMap (INDEX 3 2 imageTwoPixelHole.cols)))
        = some ([(2, 2), (2, 3)], some 1) := by decide!
  obtain ⟨seg, hseg⟩ := FindHoleAndBoundaryPixels_total
    (HoleFiller.new 2 (1 / 100) 4 2 unitWeight) imageTwoPixelHole (by decide)
  obtain ⟨lay, hlay⟩ := SetLayers_total (by decide) 2 (1 / 100) 4 2 unitWeight hseg
    (by decide!)
  have hls : layeredState (HoleFiller.new 2 (1 / 100) 4 2 unitWeight) imageTwoPixelHole
      = Except.ok lay := by
    unfold layeredState
    rw [hseg]
    exact hlay
  rw [hseg] at hH
  rw [hls] at hO
  simp only [Except.toOption, Option.map_some', Option.some.injEq, Prod.mk.injEq] at hH hO
  have H := first_sweep_depth_one_value imageTwoPixelHole (by decide) 2 (1 / 100) 4 2
    unitWeight seg lay (2, 3) [(2, 2)] [] hseg hlay (by rw [hH]; decide) hO.2 hO.1
  obtain ⟨out1, hf1, hsw⟩ := H.1
  exact ⟨seg, lay, out1, hf1, hseg, hlay, hsw, (H.2 out1 hf1 hsw).1⟩

/-! ## A hole of one pixel -/

theorem Val.addComm (a b : Val) : a.add b = b.add a := by
  cases a <;> cases b <;> simp [Val.add, add_comm]

theorem Val.sum_perm {l1 l2 : List Val} (h : l1.Perm l2) : Val.sum l1 = Val.sum l2 := by
  induction h with
  | nil => rfl
  | cons x _ ih => simp only [Val.sum, ih]
  | swap x y l =>
    simp only [Val.sum]
    rw [← Val.addAssoc, ← Val.addAssoc, Val.addComm y x]
  | trans _ _ ih1 ih2 => exact ih1.trans ih2

theorem weightedMean_perm (w : WeightFunctionType) (p : Pixel) (z : Int) (epsilon : ℚ)
    {B1 B2 : List (Pixel × Val)} (h : B1.Perm B2) :
    weightedMean w p z epsilon B1 = weightedMean w p z epsilon B2 := by
  unfold weightedMean
  rw [Val.sum_perm (h.map _), (h.map (fun e => w p e.1 z epsilon)).sum_eq]

theorem neighborPixels_nodup (c : Int) (p : Pixel) : (neighborPixels c p).Nodup := by
  obtain ⟨x, y⟩ := p
  unfold neighborPixels
  by_cases hc : c = 8
  · subst hc
    rw [neighborIndices_eight]
    simp [GetNeighborPixel]
    omega
  · rw [neighborIndices_other hc]
    simp [GetNeighborPixel]
    omega

theorem not_mem_neighborPixels_self (c : Int) (p : Pixel) : p ∉ neighborPixels c p := by
  intro h
  rw [mem_neighborPixels] at h
  omega

theorem SweepFrame_updatePixel {image : Mat} {lay : HoleFiller} {st st1 : Mat × HoleFiller}
    {r : Pixel} (hJ : SweepFrame image lay st) (hr : inLayers lay.layerMapReverse r)
    (hu : updatePixel image st r = Except.ok st1) : SweepFrame image lay st1 := by
  obtain ⟨m, hf⟩ := st
  obtain ⟨m1, hf1⟩ := st1
  obtain ⟨_, _, hsame, hrows, hcols, _, hframe⟩ := updatePixel_ok hJ.cols hu
  refine ⟨hrows.trans hJ.rows, hcols.trans hJ.cols, sameButLayerMap_trans hJ.same hsame, ?_⟩
  intro q hq
  have hne : q ≠ r := fun he => hq (he ▸ hr)
  show m1.data q.1 q.2 = image.data q.1 q.2
  rw [hframe q hne]
  exact hJ.frame q hq

/-- When all neighbours of `p` are samples inside the image, the contributing neighbours
of `p` are all its neighbours with their samples, at every moment of the sweeps. -/
theorem contributing_of_sample_neighbours {image : Mat} {lay : HoleFiller} {c : Int}
    (hL : Layered image lay) (hc : lay.connectivity_ = c) {p : Pixel}
    (hnb : ∀ q ∈ neighborPixels c p, image.inRange q.1 q.2 ∧ image.data q.1 q.2 ≠ holeVal)
    (hpd : 0 ≤ layerOf image.cols lay p)
    {st : Mat × HoleFiller} (hJ : SweepFrame image lay st) :
    contributing st.1 st.2 p = neighbourSamples image c p := by
  obtain ⟨lm, he, _⟩ := hJ.same
  have hconn : st.2.connectivity_ = c := by rw [he]; exact hc
  unfold contributing neighbourSamples
  rw [hconn, ← List.filterMap_eq_map]
  apply List.filterMap_congr
  intro q hq
  obtain ⟨hqr, hqv⟩ := hnb q hq
  have hnl : ¬ inLayers lay.layerMapReverse q := by
    intro hin
    exact hqv (updateOrder_sentinel hL ((mem_updateOrder lay q).mpr hin)).2.1
  have h1 : layerOf st.1.cols st.2 q = 0 := by
    rw [hJ.cols, sameButLayerMap_layerOf hJ.same]
    exact layerOf_sample_zero hL hqr hqv
  have h2 : layerOf st.1.cols st.2 p = layerOf image.cols lay p := by
    rw [hJ.cols, sameButLayerMap_layerOf hJ.same]
  rw [hJ.frame q hnl, h1, h2, if_pos ⟨hqv, hpd⟩]
  rfl

theorem updateLayer_single_value {image : Mat} {lay : HoleFiller} {c : Int}
    (hL : Layered image lay) (hc : lay.connectivity_ = c) {p : Pixel}
    (hnb : ∀ q ∈ neighborPixels c p, image.inRange q.1 q.2 ∧ image.data q.1 q.2 ≠ holeVal)
    (hpd : 0 ≤ layerOf image.cols lay p) :
    ∀ (ps : List Pixel) (st st1 : Mat × HoleFiller), SweepFrame image lay st →
      (∀ r ∈ ps, inLayers lay.layerMapReverse r) →
      updateLayer image ps st = Except.ok st1 →
      SweepFrame image lay st1 ∧
        ((p ∈ ps ∨ st.1.data p.1 p.2 = weightedMean lay.weightFunc_ p lay.z_ lay.epsilon_
            (neighbourSamples image c p)) →
          st1.1.data p.1 p.2 = weightedMean lay.weightFunc_ p lay.z_ lay.epsilon_
            (neighbourSamples image c p)) := by
  intro ps
  induction ps with
  | nil =>
    intro st st1 hJ _ h
    simp only [updateLayer, Except.ok.injEq] at h
    subst h
    refine ⟨hJ, ?_⟩
    rintro (h | h)
    · simp at h
    · exact h
  | cons r rest ih =>
    intro st st1 hJ hin h
    rw [updateLayer] at h
    cases hu : updatePixel image st r with
    | error e => rw [hu] at h; simp at h
    | ok st2 =>
      rw [hu] at h
      simp only at h
      have hJ2 := SweepFrame_updatePixel hJ (hin r (List.mem_cons_self _ _)) hu
      obtain ⟨hJ1, hval⟩ := ih st2 st1 hJ2 (fun q hq => hin q (List.mem_cons_of_mem _ hq)) h
      refine ⟨hJ1, ?_⟩
      intro hcase
      apply hval
      obtain ⟨m, hf⟩ := st
      obtain ⟨m2, hf2⟩ := st2
      obtain ⟨_, _, _, _, _, hv, hframe⟩ := updatePixel_ok hJ.cols hu
      by_cases hrp : r = p
      · right
        subst hrp
        show m2.data r.1 r.2 = _
        rw [hv]
        have hlist := contributing_of_sample_neighbours hL hc hnb hpd hJ
        simp only at hlist
        rw [hlist]
        obtain ⟨lm, he, _⟩ := hJ.same
        simp only at he
        rw [he]
      · rcases hcase with hmem | hold
        · left
          rcases List.mem_cons.mp hmem with h1 | h1
          · exact absurd h1.symm hrp
          · exact h1
        · right
          show m2.data p.1 p.2 = _
          rw [hframe p (fun he => hrp he.symm)]
          exact hold

theorem sweeps_single_value {image : Mat} {lay : HoleFiller} {c : Int}
    (hL : Layered image lay) (hc : lay.connectivity_ = c) {p : Pixel}
    (hnb : ∀ q ∈ neighborPixels c p, image.inRange q.1 q.2 ∧ image.data q.1 q.2 ≠ holeVal)
    (hpd : 0 ≤ layerOf image.cols lay p) (hp : p ∈ updateOrder lay) :
    ∀ (n : Nat) (st st1 : Mat × HoleFiller), SweepFrame image lay st →
      (1 ≤ n ∨ st.1.data p.1 p.2 = weightedMean lay.weightFunc_ p lay.z_ lay.epsilon_
        (neighbourSamples image c p)) →
      sweeps image n st = Except.ok st1 →
      st1.1.data p.1 p.2 = weightedMean lay.weightFunc_ p lay.z_ lay.epsilon_
        (neighbourSamples image c p) := by
  intro n
  induction n with
  | zero =>
    intro st st1 _ hcase h
    simp only [sweeps, Except.ok.injEq] at h
    subst h
    rcases hcase with h | h
    · omega
    · exact h
  | succ n ih =>
    intro st st1 hJ _ h
    rw [sweeps] at h
    rw [sameButLayerMap_layers hJ.same, sweepLayers_flat] at h
    cases hu : updateLayer image (lay.layerMapReverse.flatMap (fun l => l.2)) st with
    | error e => rw [hu] at h; simp at h
    | ok st2 =>
      rw [hu] at h
      simp only at h
      obtain ⟨hJ2, hval⟩ := updateLayer_single_value hL hc hnb hpd _ st st2 hJ
        (fun r hr => (mem_updateOrder lay r).mp hr) hu
      exact ih st2 st1 hJ2 (Or.inr (hval (Or.inl hp))) h

theorem interior_of_awayFromBorder {image : Mat} (hsq : image.rows = image.cols) {c : Int}
    (hclear : awayFromBorder image c) (seed : Pixel) : Interior image c seed := by
  intro h hreach q hq
  obtain ⟨hr, hv⟩ := Mat.at_eq_ok (HoleReach_sentinel hreach)
  exact (hclear h ((mem_scanOrder image h).mpr (inBounds_of_inRange_square hsq hr)) hv q hq).1

/-- Segmentation of a hole component none of whose pixels has a neighbour outside the
image: the hole vector is the component of the seed and the boundary vector holds exactly
the samples next to it. -/
theorem segmentation_of_interior {image : Mat} (hsq : image.rows = image.cols) (z : Int)
    (epsilon : ℚ) (c a : Int) (w : WeightFunctionType) {seg : HoleFiller} {seed : Pixel}
    (hseg : FindHoleAndBoundaryPixels (HoleFiller.new z epsilon c a w) image = Except.ok seg)
    (hseed : FindFirstHolePixel image = Except.ok seed)
    (hseedB : inBounds image seed) (hint : Interior image c seed) :
    (∀ q, q ∈ seg.holePixelsVector_ ↔ HoleReach image c seed q) ∧
    (∀ q, q ∈ seg.boundaryPixelsCoordinatesVector_ ↔
      (image.inRange q.1 q.2 ∧ image.at q.1 q.2 ≠ Except.ok holeVal ∧
        ∃ h, HoleReach image c seed h ∧ q ∈ neighborPixels c h)) := by
  obtain ⟨seed1, hseed1, hff⟩ := FindHoleAndBoundaryPixels_ok hseg
  rw [hseed] at hseed1
  obtain rfl : seed = seed1 := Except.ok.inj hseed1
  have hcfg := FloodFill_sameConfig image _ _ seed seg hff
  have hconnSeg : seg.connectivity_ = c := hcfg.2.2.1
  have hseedcases := FindFirstHolePixel_seed hseed
  have hadj := FloodFill_boundary_adjacent image _ _ seed seg hff rfl
    (by rcases hseedcases with h1 | h1
        · exact Or.inl h1.2
        · exact Or.inr h1)
  simp only [HoleFiller.new] at hadj
  obtain ⟨hrec, hext, hvis⟩ := FloodFill_complete hsq c seed hseedB hint _ _ seg seed rfl
    (Or.inl rfl) (by intro k hk; simp [HoleFiller.new] at hk) hff
  have hHsent := FloodFill_holes image _ _ seed seg hff
    (fun q => image.at q.1 q.2 = Except.ok holeVal) (by simp [HoleFiller.new])
    (fun q _ hq => hq)
  have hHreach := FloodFill_reach image _ _ seed seg hff rfl
  simp only [HoleFiller.new] at hHreach
  have hclosed : ∀ h ∈ seg.holePixelsVector_, neighboursVisited image seg h := by
    intro h hh
    rcases hext.2.2.2.2 h hh with h1 | h1
    · simp [HoleFiller.new] at h1
    · exact h1
  have hsplit : ∀ q, image.inRange q.1 q.2 → INDEX q.2 q.1 image.cols ∈ seg.visitedSet →
      (image.at q.1 q.2 = Except.ok holeVal → q ∈ seg.holePixelsVector_) ∧
      (image.at q.1 q.2 ≠ Except.ok holeVal → q ∈ seg.boundaryPixelsCoordinatesVector_) := by
    intro q hq hv
    rcases recorded_of_visited hsq hrec hq hv with h1 | h1
    · exact ⟨fun _ => h1, fun hne => absurd (hHsent q h1) hne⟩
    · refine ⟨fun hs => ?_, fun _ => h1⟩
      obtain ⟨_, ⟨v, hv1, hv2⟩, _⟩ := hadj q h1
      rw [hv1] at hs
      simp only [Except.ok.injEq] at hs
      exact absurd hs hv2
  have hreachH : ∀ p, HoleReach image c seed p → p ∈ seg.holePixelsVector_ := by
    intro p hp
    induction hp with
    | seed hv => exact (hsplit seed (Mat.at_eq_ok hv).1 hvis).1 hv
    | step p q _ hq hv ih =>
      have := hclosed p ih q (by rw [hconnSeg]; exact hq)
      exact (hsplit q (Mat.at_eq_ok hv).1 this).1 hv
  refine ⟨fun p => ⟨hHreach p, hreachH p⟩, ?_⟩
  intro q
  constructor
  · intro hq
    obtain ⟨hqb, ⟨v, hv1, hv2⟩, r, hr1, hr2⟩ := hadj q hq
    refine ⟨(Mat.at_eq_ok hv1).1, ?_, r, hr1, hr2⟩
    rw [hv1]
    intro he
    simp only [Except.ok.injEq] at he
    exact hv2 he
  · rintro ⟨hqr, hne, r, hr1, hr2⟩
    have := hclosed r (hreachH r hr1) q (by rw [hconnSeg]; exact hr2)
    exact (hsplit q hqr this).2 hne

theorem FindHoleAndBoundaryPixels_vectorsOk {image : Mat} (z : Int) (epsilon : ℚ) (c a : Int)
    (w : WeightFunctionType) {seg : HoleFiller}
    (hseg : FindHoleAndBoundaryPixels (HoleFiller.new z epsilon c a w) image = Except.ok seg) :
    VectorsOk image seg := by
  obtain ⟨seed, _, hff⟩ := FindHoleAndBoundaryPixels_ok hseg
  refine FloodFill_vectorsOk image _ _ seed seg ?_ hff
  exact ⟨by simp [HoleFiller.new], by simp [HoleFiller.new], rfl, by simp [HoleFiller.new],
    by simp [HoleFiller.boundary, HoleFiller.new]⟩

/-- When the hole component is the single pixel `p` and the neighbours of `p` lie inside
the image, the boundary entries are, up to their order, the neighbours of `p` with
their samples. -/
theorem boundary_perm_of_single_pixel {image : Mat} {c : Int} {seg : HoleFiller}
    {seed p : Pixel} (hV : VectorsOk image seg)
    (hbv : ∀ b ∈ seg.boundaryPixelsCoordinatesVector_, (b, image.data b.1 b.2) ∈ seg.boundary)
    (hbnd : ∀ q, q ∈ seg.boundaryPixelsCoordinatesVector_ ↔
      (image.inRange q.1 q.2 ∧ image.at q.1 q.2 ≠ Except.ok holeVal ∧
        ∃ h, HoleReach image c seed h ∧ q ∈ neighborPixels c h))
    (hreach : HoleReach image c seed p)
    (hsingle : ∀ h, HoleReach image c seed h → h = p)
    (hint : Interior image c seed) :
    (∀ q ∈ neighborPixels c p, image.inRange q.1 q.2 ∧ image.data q.1 q.2 ≠ holeVal) ∧
      seg.boundary.Perm (neighbourSamples image c p) := by
  have hnb : ∀ q ∈ neighborPixels c p,
      image.inRange q.1 q.2 ∧ image.data q.1 q.2 ≠ holeVal := by
    intro q hq
    have hqr := hint p hreach q hq
    refine ⟨hqr, fun hv => ?_⟩
    have hat : image.at q.1 q.2 = Except.ok holeVal := by rw [Mat.at_of_inRange hqr, hv]
    have := hsingle q (HoleReach.step p q hreach hq hat)
    rw [this] at hq
    exact not_mem_neighborPixels_self c p hq
  have hmem : ∀ q, q ∈ seg.boundaryPixelsCoordinatesVector_ ↔ q ∈ neighborPixels c p := by
    intro q
    rw [hbnd q]
    constructor
    · rintro ⟨_, _, h, hh, hq⟩
      rw [hsingle h hh] at hq
      exact hq
    · intro hq
      obtain ⟨hqr, hqv⟩ := hnb q hq
      refine ⟨hqr, ?_, p, hreach, hq⟩
      rw [Mat.at_of_inRange hqr]
      exact fun he => hqv (Except.ok.inj he)
  refine ⟨hnb, ?_⟩
  have hnd1 : seg.boundary.Nodup := by
    apply List.Nodup.of_map Prod.fst
    unfold HoleFiller.boundary
    rw [List.map_fst_zip _ _ (le_of_eq hV.len)]
    exact (List.nodup_append.mp hV.nodup).2.1
  have hnd2 : (neighbourSamples image c p).Nodup := by
    unfold neighbourSamples
    refine (neighborPixels_nodup c p).map ?_
    intro a b hab
    exact (Prod.mk.inj hab).1
  refine (List.perm_ext_iff_of_nodup hnd1 hnd2).mpr ?_
  intro e
  obtain ⟨q, v⟩ := e
  unfold neighbourSamples
  rw [List.mem_map]
  constructor
  · intro he
    have hq : q ∈ seg.boundaryPixelsCoordinatesVector_ := (List.of_mem_zip he).1
    have hval := (hV.samples (q, v) he).1
    refine ⟨q, (hmem q).mp hq, ?_⟩
    rw [(Mat.at_eq_ok hval).2]
  · rintro ⟨r, hr, he⟩
    obtain ⟨rfl, rfl⟩ := Prod.mk.inj he
    exact hbv r ((hmem r).mpr hr)

/-- A hole of one pixel `p` on a square image whose sentinel pixels keep a distance of
two from the border: the Exact algorithm returns, the layer builder returns, every number
`n ≥ 1` of sweeps returns, and the value at `p` after `n` sweeps is the value the Exact
algorithm returns at `p`; so is the value that `FillImage` with the Iterative algorithm
returns at `p`. -/
theorem single_pixel_hole_same_value (image : Mat) (hsq : image.rows = image.cols)
    (z : Int) (epsilon : ℚ) (c : Int) (w : WeightFunctionType) (segI : HoleFiller) (p : Pixel)
    (hclear : awayFromBorder image c)
    (hsegI : FindHoleAndBoundaryPixels (HoleFiller.new z epsilon c ALGORITHM_OPTION_TWO w) image
      = Except.ok segI)
    (hH : segI.holePixelsVector_ = [p]) :
    ∃ outE hfE lay,
      FillImage (HoleFiller.new z epsilon c ALGORITHM_OPTION_ONE w) image
        = Except.ok (outE, hfE) ∧
      SetLayers segI image = Except.ok lay ∧
      (∀ n, 1 ≤ n → ∃ outn hfn, sweeps image n (image, lay) = Except.ok (outn, hfn) ∧
        outn.at p.1 p.2 = outE.at p.1 p.2) ∧
      ∃ outI hfI, FillImage (HoleFiller.new z epsilon c ALGORITHM_OPTION_TWO w) image
        = Except.ok (outI, hfI) ∧ outI.at p.1 p.2 = outE.at p.1 p.2 := by
  obtain ⟨seed, hseed, hffI⟩ := FindHoleAndBoundaryPixels_ok hsegI
  have hpH : p ∈ segI.holePixelsVector_ := by rw [hH]; exact List.mem_singleton_self p
  have hreach0 := FloodFill_reach image _ _ seed segI hffI rfl p hpH
  simp only [HoleFiller.new] at hreach0
  have hreach : HoleReach image c seed p := hreach0
  have hseedB : inBounds image seed :=
    inBounds_of_inRange_square hsq (Mat.at_eq_ok (HoleReach_seed_sentinel hreach)).1
  have hint := interior_of_awayFromBorder hsq hclear seed
  obtain ⟨hholeI, hbndI⟩ := segmentation_of_interior hsq z epsilon c ALGORITHM_OPTION_TWO w
    hsegI hseed hseedB hint
  obtain ⟨segE, hsegE⟩ := FindHoleAndBoundaryPixels_total
    (HoleFiller.new z epsilon c ALGORITHM_OPTION_ONE w) image hsq
  obtain ⟨hholeE, hbndE⟩ := segmentation_of_interior hsq z epsilon c ALGORITHM_OPTION_ONE w
    hsegE hseed hseedB hint
  have hsingle : ∀ h, HoleReach image c seed h → h = p := by
    intro h hh
    have := (hholeI h).mpr hh
    rw [hH] at this
    exact List.mem_singleton.mp this
  obtain ⟨hnb, hperm⟩ := boundary_perm_of_single_pixel
    (FindHoleAndBoundaryPixels_vectorsOk z epsilon c ALGORITHM_OPTION_ONE w hsegE)
    (segmentation_boundary_values hsegE rfl rfl) hbndE hreach hsingle hint
  -- the Exact algorithm
  obtain ⟨outE, hfE, hE⟩ := FillImage_exact_total
    (HoleFiller.new z epsilon c ALGORITHM_OPTION_ONE w) image rfl rfl hsq
  have hvalE : outE.at p.1 p.2
      = Except.ok (weightedMean w p z epsilon (neighbourSamples image c p)) := by
    rw [exact_output_at_hole rfl hE hsegE p ((hholeE p).mpr hreach)]
    simp only [HoleFiller.new]
    rw [weightedMean_perm w p z epsilon hperm]
  -- the layer builder
  obtain ⟨lay, hlay⟩ := SetLayers_total hsq z epsilon c ALGORITHM_OPTION_TWO w hsegI hclear
  have hfields := FloodFill_layerFields image _ _ seed segI hffI
  have hL : Layered image lay :=
    SetLayers_layered hsq hfields.1 hfields.2.1 hfields.2.2.1 hlay
  have hcfg : sameConfig (HoleFiller.new z epsilon c ALGORITHM_OPTION_TWO w) lay :=
    sameConfig_trans (FindHoleAndBoundaryPixels_sameConfig hsegI) (SetLayers_sameConfig hlay).1
  have hc : lay.connectivity_ = c := hcfg.2.2.1
  have hBI : segI.boundaryPixelsCoordinatesVector_ ≠ [] := by
    have hq : ((p.1 + 1, p.2) : Pixel) ∈ neighborPixels c p := by
      rw [mem_neighborPixels]
      exact Or.inl ⟨rfl, rfl⟩
    obtain ⟨hqr, hqv⟩ := hnb _ hq
    have : ((p.1 + 1, p.2) : Pixel) ∈ segI.boundaryPixelsCoordinatesVector_ := by
      refine (hbndI _).mpr ⟨hqr, ?_, p, hreach, hq⟩
      rw [Mat.at_of_inRange hqr]
      exact fun he => hqv (Except.ok.inj he)
    exact List.ne_nil_of_mem this
  obtain ⟨seed2, hS⟩ := iterative_setup hsq z epsilon c ALGORITHM_OPTION_TWO w hsegI hlay hBI
  obtain ⟨hpr, d, hd⟩ := hS.depth p ((hS.holeIff p).mp hpH)
  have hpO : p ∈ updateOrder lay :=
    (mem_updateOrder lay p).mpr (keyed_inLayers ((hL.rev d p).mpr ⟨hpr, hd⟩))
  have hpd : 0 ≤ layerOf image.cols lay p := by
    have h1 := (hL.sent p d hpr hd).2
    unfold layerOf
    unfold depthOf at hd
    rw [hd]
    show 0 ≤ d
    omega
  have hsafe : ∀ r, inLayers lay.layerMapReverse r → image.inRange r.1 r.2 ∧
      ∀ q ∈ neighborPixels lay.connectivity_ r, image.inRange q.1 q.2 := by
    intro r hr
    obtain ⟨k, hk⟩ := inLayers_keyed hr
    obtain ⟨hrr, hdr⟩ := (hL.rev k r).mp hk
    exact ⟨hrr, fun q hq => (hL.closed r k hrr hdr q hq).1⟩
  have hJ0 : SweepFrame image lay (image, lay) :=
    ⟨rfl, rfl, sameButLayerMap_refl lay, fun _ _ => rfl⟩
  have hsweeps : ∀ n, 1 ≤ n → ∀ (outn : Mat) (hfn : HoleFiller),
      sweeps image n (image, lay) = Except.ok (outn, hfn) →
      outn.at p.1 p.2 = outE.at p.1 p.2 := by
    intro n hn outn hfn hsw
    have hv := sweeps_single_value hL hc hnb hpd hpO n (image, lay) (outn, hfn) hJ0
      (Or.inl hn) hsw
    obtain ⟨hr1, hr2, _, _⟩ := sweeps_frame image n lay hfn outn hsw
    have hro : outn.inRange p.1 p.2 := by
      unfold Mat.inRange at hpr ⊢
      rw [hr1, hr2]
      exact hpr
    rw [Mat.at_of_inRange hro, hvalE]
    simp only at hv
    rw [hv, show lay.weightFunc_ = w from hcfg.2.2.2.2, show lay.z_ = z from hcfg.1,
      show lay.epsilon_ = epsilon from hcfg.2.1]
  refine ⟨outE, hfE, lay, hE, hlay, ?_, ?_⟩
  · intro n hn
    obtain ⟨st1, hst1⟩ := sweeps_total hsafe n (image, lay) rfl rfl (sameButLayerMap_refl lay)
    exact ⟨st1.1, st1.2, hst1, hsweeps n hn st1.1 st1.2 hst1⟩
  · obtain ⟨outI, hfI, hI⟩ := FillImage_iterative_returns image hsq z epsilon c w hclear
    obtain ⟨seg1, lay1, hf2, hseg1, hlay1, hsw, _⟩ := FillImage_iterative_ok rfl hI
    rw [hsegI] at hseg1
    obtain rfl : segI = seg1 := Except.ok.inj hseg1
    rw [hlay] at hlay1
    obtain rfl : lay = lay1 := Except.ok.inj hlay1
    exact ⟨outI, hfI, hI, hsweeps _ (by decide) outI hf2 hsw⟩

/-- C11 (failing input). On the 3×3 image whose centre `(1, 1)` is the only sentinel and
whose other samples are `10` (connectivity 4, unit weights) the hole vector is `[(1, 1)]`.
The Exact algorithm returns `10` at `(1, 1)`.  The Iterative algorithm returns no image:
its layer builder stops with an access outside the image, at a neighbour of a boundary
pixel on the border.  On every square image whose sentinel pixels keep a distance of two
from the border and whose hole vector is a single pixel `p`, both algorithms return and
return the same value at `p`, as does every number `n ≥ 1` of sweeps. -/
theorem single_pixel_hole_iterative_reads_outside :
    (FindHoleAndBoundaryPixels (HoleFiller.new 2 (1 / 100) 4 2 unitWeight)
        imageConst3).toOption.map (fun seg => seg.holePixelsVector_) = some [(1, 1)] ∧
    outputAt (FillImage (HoleFiller.new 2 (1 / 100) 4 1 unitWeight) imageConst3) 1 1
      = some (Val.fin 10) ∧
    layeredState (HoleFiller.new 2 (1 / 100) 4 2 unitWeight) imageConst3
      = Except.error Fault.outOfRange ∧
    returned (FillImage (HoleFiller.new 2 (1 / 100) 4 2 unitWeight) imageConst3) = false ∧
    ∀ (image : Mat) (z : Int) (epsilon : ℚ) (c : Int) (w : WeightFunctionType)
      (segI : HoleFiller) (p : Pixel),
      image.rows = image.cols → awayFromBorder image c →
      FindHoleAndBoundaryPixels (HoleFiller.new z epsilon c ALGORITHM_OPTION_TWO w) image
        = Except.ok segI →
      segI.holePixelsVector_ = [p] →
      ∃ outE hfE lay,
        FillImage (HoleFiller.new z epsilon c ALGORITHM_OPTION_ONE w) image
          = Except.ok (outE, hfE) ∧
        SetLayers segI image = Except.ok lay ∧
        (∀ n, 1 ≤ n → ∃ outn hfn, sweeps image n (image, lay) = Except.ok (outn, hfn) ∧
          outn.at p.1 p.2 = outE.at p.1 p.2) ∧
        ∃ outI hfI, FillImage (HoleFiller.new z epsilon c ALGORITHM_OPTION_TWO w) image
          = Except.ok (outI, hfI) ∧ outI.at p.1 p.2 = outE.at p.1 p.2 := by
  refine ⟨by decide!, by decide!, layer_builder_reads_outside_image, by decide!, ?_⟩
  intro image z epsilon c w segI p hsq hclear hsegI hH
  exact single_pixel_hole_same_value image hsq z epsilon c w segI p hclear hsegI hH

/-! ## Neighbour enumeration -/

/-- C24. For every pixel `p`: `GetNeighborPixel p i` for `i = 0 … 3` changes exactly one
component by `+1` or `-1`, for `i = 4 … 7` it changes both; for every other index it
returns `p`; the eight results are pairwise distinct and differ from `p`; connectivity 4
enumerates the results of the indices `0 … 3`, connectivity 8 those of `0 … 7`, so every
neighbour under connectivity 4 is one under connectivity 8 and not conversely. -/
theorem neighbour_enumeration (p : Pixel) :
    (GetNeighborPixel p 0 = (p.1 + 1, p.2) ∧ GetNeighborPixel p 1 = (p.1 - 1, p.2) ∧
      GetNeighborPixel p 2 = (p.1, p.2 + 1) ∧ GetNeighborPixel p 3 = (p.1, p.2 - 1)) ∧
    (GetNeighborPixel p 4 = (p.1 + 1, p.2 + 1) ∧ GetNeighborPixel p 5 = (p.1 + 1, p.2 - 1) ∧
      GetNeighborPixel p 6 = (p.1 - 1, p.2 + 1) ∧ GetNeighborPixel p 7 = (p.1 - 1, p.2 - 1)) ∧
    (∀ i : Int, i < 0 ∨ 7 < i → GetNeighborPixel p i = p) ∧
    (([0, 1, 2, 3, 4, 5, 6, 7] : List Int).map (GetNeighborPixel p)).Nodup ∧
    p ∉ ([0, 1, 2, 3, 4, 5, 6, 7] : List Int).map (GetNeighborPixel p) ∧
    neighborPixels 4 p = ([0, 1, 2, 3] : List Int).map (GetNeighborPixel p) ∧
    neighborPixels 8 p = ([0, 1, 2, 3, 4, 5, 6, 7] : List Int).map (GetNeighborPixel p) ∧
    (∀ q ∈ neighborPixels 4 p, q ∈ neighborPixels 8 p) ∧
    (∃ q ∈ neighborPixels 8 p, q ∉ neighborPixels 4 p) := by
  obtain ⟨x, y⟩ := p
  refine ⟨⟨rfl, rfl, rfl, rfl⟩, ⟨rfl, rfl, rfl, rfl⟩, ?_, ?_, ?_, ?_, ?_, ?_, ?_⟩
  · intro i hi
    unfold GetNeighborPixel
    simp only
    split_ifs <;> first | omega | rfl
  · have h := neighborPixels_nodup 8 (x, y)
    unfold neighborPixels at h
    rw [neighborIndices_eight] at h
    exact h
  · have h := not_mem_neighborPixels_self 8 (x, y)
    unfold neighborPixels at h
    rw [neighborIndices_eight] at h
    exact h
  · unfold neighborPixels
    rw [neighborIndices_other (by decide)]
  · unfold neighborPixels
    rw [neighborIndices_eight]
  · intro q hq
    rw [mem_neighborPixels] at hq ⊢
    rcases hq with h | h | h | h | ⟨hc, _⟩
    · tauto
    · tauto
    · tauto
    · tauto
    · exact absurd hc (by decide)
  · refine ⟨(x + 1, y + 1), ?_, ?_⟩
    · rw [mem_neighborPixels]
      exact Or.inr (Or.inr (Or.inr (Or.inr ⟨rfl, Or.inl ⟨rfl, rfl⟩⟩)))
    · rw [mem_neighborPixels]
      simp only
      omega

/-! ## Flood fill at a coordinate outside the image -/

/-- What `FloodFill` does at a coordinate outside the bounds whose linear index is not in
the visited set: it inserts the index into the visited set and returns; the hole vector
and the boundary vectors are unchanged. -/
theorem FloodFill_outside (image : Mat) (hf : HoleFiller) (p : Pixel) (fuel : Nat)
    (hout : ¬ inBounds image p) (hnv : INDEX p.2 p.1 image.cols ∉ hf.visitedSet) :
    FloodFill (fuel + 1) image hf p = Except.ok
      { hf with visitedSet := INDEX p.2 p.1 image.cols :: hf.visitedSet } := by
  have hb : p.1 < 0 ∨ p.1 ≥ (image.cols : Int) ∨ p.2 < 0 ∨ p.2 ≥ (image.rows : Int) := by
    unfold inBounds at hout
    exact not_not.mp hout
  rw [FloodFill]
  simp only
  rw [if_neg hnv, if_pos hb]

/-- What `FloodFill` does at a coordinate whose linear index is in the visited set: it
returns the state unchanged, without reading the image. -/
theorem FloodFill_visited (image : Mat) (hf : HoleFiller) (p : Pixel) (fuel : Nat)
    (hv : INDEX p.2 p.1 image.cols ∈ hf.visitedSet) :
    FloodFill (fuel + 1) image hf p = Except.ok hf := by
  rw [FloodFill]
  simp only
  rw [if_pos hv]

/-- C23 (failing input). On the 3×3 image `imageBorderHole`, `FloodFill` invoked on the
freshly constructed filler at `(3, 0)`, a coordinate outside the image, returns with the
visited set `[3]`: the visited set has changed.  The pixel `(0, 1)` lies inside the image,
holds the sentinel and has the same linear index `3`; `FloodFill` invoked at `(0, 1)` on
the state with visited set `[3]` returns that state unchanged and records nothing.  In
general `FloodFill` at a coordinate outside the bounds inserts the linear index into the
visited set, and at a coordinate whose linear index is in the visited set it returns
without reading the image. -/
theorem floodfill_marks_outside_coordinate_visited :
    (FloodFill (floodFuel imageBorderHole) imageBorderHole
        (HoleFiller.new 2 (1 / 100) 4 1 unitWeight) (3, 0)).toOption.map
        (fun st => (st.visitedSet, st.holePixelsVector_, st.boundaryPixelsCoordinatesVector_))
      = some ([3], [], []) ∧
    inBounds imageBorderHole (0, 1) ∧ imageBorderHole.at 0 1 = Except.ok holeVal ∧
    INDEX 1 0 imageBorderHole.cols = 3 ∧
    (FloodFill (floodFuel imageBorderHole) imageBorderHole
        { HoleFiller.new 2 (1 / 100) 4 1 unitWeight with visitedSet := [3] } (0, 1)).toOption.map
        (fun st => (st.visitedSet, st.holePixelsVector_, st.boundaryPixelsCoordinatesVector_))
      = some ([3], [], []) ∧
    (∀ (image : Mat) (hf : HoleFiller) (p : Pixel) (fuel : Nat), ¬ inBounds image p →
      INDEX p.2 p.1 image.cols ∉ hf.visitedSet →
      FloodFill (fuel + 1) image hf p = Except.ok
        { hf with visitedSet := INDEX p.2 p.1 image.cols :: hf.visitedSet }) ∧
    (∀ (image : Mat) (hf : HoleFiller) (p : Pixel) (fuel : Nat),
      INDEX p.2 p.1 image.cols ∈ hf.visitedSet →
      FloodFill (fuel + 1) image hf p = Except.ok hf) := by
  refine ⟨by decide!, by decide!, by decide!, by decide!, by decide!, ?_, ?_⟩
  · intro image hf p fuel hout hnv
    exact FloodFill_outside image hf p fuel hout hnv
  · intro image hf p fuel hv
    exact FloodFill_visited image hf p fuel hv

/-! ## Neighbour reads of the Iterative algorithm -/

theorem Mat.at_outside {m : Mat} {i0 i1 : Int} (h : ¬ m.inRange i0 i1) :
    m.at i0 i1 = Except.error Fault.outOfRange := by
  unfold Mat.at
  rw [if_neg h]

theorem SetLayer_outside (image : Mat) (hf : HoleFiller) (q : Pixel) (L : Int)
    (hq : ¬ image.inRange q.1 q.2) :
    SetLayer image hf q L = Except.error Fault.outOfRange := by
  unfold SetLayer
  simp only
  rw [Mat.at_outside hq]

theorem IsPixelAffecting_outside (image : Mat) (hf : HoleFiller) (q : Pixel) (k : Int)
    (hq : ¬ image.inRange q.1 q.2) :
    IsPixelAffecting image hf q k = Except.error Fault.outOfRange := by
  unfold IsPixelAffecting
  simp only
  rw [Mat.at_outside hq]

theorem CalculatePixelAffect_outside (image : Mat) (p : Pixel) (k : Int) (q : Pixel)
    (s : Sums) (hq : ¬ image.inRange q.1 q.2) :
    CalculatePixelAffect image p k q s = Except.error Fault.outOfRange := by
  unfold CalculatePixelAffect
  simp only
  rw [IsPixelAffecting_outside image s.hf q k hq]

/-- C22 (failing input). On the 3×3 image whose centre is the only sentinel (connectivity
4) the segmentation returns the boundary `[(2,1), (0,1), (1,2), (1,0)]`; `(3, 1)` is a
neighbour of the boundary pixel `(2, 1)` and lies outside the image; the layer builder
stops with an access outside the image.  In general `SetLayer`, `IsPixelAffecting` and
`CalculatePixelAffect` read the image at the pixel they are given whether or not it lies
inside the image.  On a square image whose sentinel pixels keep a distance of two from the
border the Iterative algorithm returns, so that all its reads lie inside the image. -/
theorem layer_builder_reads_neighbour_outside_image :
    (FindHoleAndBoundaryPixels (HoleFiller.new 2 (1 / 100) 4 2 unitWeight)
        imageConst3).toOption.map (fun seg => seg.boundaryPixelsCoordinatesVector_)
      = some [(2, 1), (0, 1), (1, 2), (1, 0)] ∧
    ((3, 1) : Pixel) ∈ neighborPixels 4 (2, 1) ∧ ¬ imageConst3.inRange 3 1 ∧
    faulted (layeredState (HoleFiller.new 2 (1 / 100) 4 2 unitWeight) imageConst3)
      = some Fault.outOfRange ∧
    faulted (FillImage (HoleFiller.new 2 (1 / 100) 4 2 unitWeight) imageConst3)
      = some Fault.outOfRange ∧
    (∀ (image : Mat) (hf : HoleFiller) (q : Pixel) (L : Int), ¬ image.inRange q.1 q.2 →
      SetLayer image hf q L = Except.error Fault.outOfRange) ∧
    (∀ (image : Mat) (hf : HoleFiller) (q : Pixel) (k : Int), ¬ image.inRange q.1 q.2 →
      IsPixelAffecting image hf q k = Except.error Fault.outOfRange) ∧
    (∀ (image : Mat) (p : Pixel) (k : Int) (q : Pixel) (s : Sums), ¬ image.inRange q.1 q.2 →
      CalculatePixelAffect image p k q s = Except.error Fault.outOfRange) ∧
    (∀ (image : Mat) (z : Int) (epsilon : ℚ) (c : Int) (w : WeightFunctionType),
      image.rows = image.cols → awayFromBorder image c →
      ∃ out hf1, FillImage (HoleFiller.new z epsilon c ALGORITHM_OPTION_TWO w) image
        = Except.ok (out, hf1)) := by
  refine ⟨by decide!, by decide!, by decide!, by decide!, by decide!, ?_, ?_, ?_, ?_⟩
  · exact fun image hf q L hq => SetLayer_outside image hf q L hq
  · exact fun image hf q k hq => IsPixelAffecting_outside image hf q k hq
  · exact fun image p k q s hq => CalculatePixelAffect_outside image p k q s hq
  · exact fun image z epsilon c w hsq hclear =>
      FillImage_iterative_returns image hsq z epsilon c w hclear

/-! ## Accesses of the segmentation on a non-square image -/

/-- What `FloodFill` does at a coordinate that passes its bounds test but is not a position
of the image (its first component is no row index or its second no column index): it
reads the image there. -/
theorem FloodFill_inBounds_outside (image : Mat) (hf : HoleFiller) (p : Pixel) (fuel : Nat)
    (hb : inBounds image p) (hr : ¬ image.inRange p.1 p.2)
    (hnv : INDEX p.2 p.1 image.cols ∉ hf.visitedSet) :
    FloodFill (fuel + 1) image hf p = Except.error Fault.outOfRange := by
  rw [FloodFill]
  simp only
  rw [if_neg hnv, if_neg hb, Mat.at_outside hr]

/-- C21 (failing input). On the image with one row and two columns `[-1, 5]` the seed
search returns `(0, 0)`; its neighbour `(1, 0)` passes the bounds test of `FloodFill`
(`1 < cols`, `0 < rows`) but `image.at (1, 0)` addresses row `1` of a one-row image: the
segmentation stops with an access outside the image, and so does `FillImage`.  In general
`FloodFill` reads the image at every unvisited coordinate that passes its bounds test,
also when the coordinate is no position of the image.  On a square image the seed search
returns, `FloodFill` never reads outside the image, and the pixels that the Exact and the
Iterative filler write lie inside the image. -/
theorem floodfill_reads_outside_nonsquare_image :
    FindFirstHolePixel imageWideHole = Except.ok (0, 0) ∧
    ((1, 0) : Pixel) ∈ neighborPixels 4 (0, 0) ∧
    inBounds imageWideHole (1, 0) ∧ ¬ imageWideHole.inRange 1 0 ∧
    faulted (FindHoleAndBoundaryPixels (HoleFiller.new 2 (1 / 100) 4 1 unitWeight)
      imageWideHole) = some Fault.outOfRange ∧
    faulted (FillImage (HoleFiller.new 2 (1 / 100) 4 1 unitWeight) imageWideHole)
      = some Fault.outOfRange ∧
    (∀ (image : Mat) (hf : HoleFiller) (p : Pixel) (fuel : Nat), inBounds image p →
      ¬ image.inRange p.1 p.2 → INDEX p.2 p.1 image.cols ∉ hf.visitedSet →
      FloodFill (fuel + 1) image hf p = Except.error Fault.outOfRange) ∧
    (∀ image : Mat, image.rows = image.cols →
      (∃ seed, FindFirstHolePixel image = Except.ok seed) ∧
      (∀ (fuel : Nat) (hf : HoleFiller) (p : Pixel),
        FloodFill fuel image hf p ≠ Except.error Fault.outOfRange) ∧
      (∀ (z : Int) (epsilon : ℚ) (c a : Int) (w : WeightFunctionType) (seg : HoleFiller),
        FindHoleAndBoundaryPixels (HoleFiller.new z epsilon c a w) image = Except.ok seg →
        (∀ p ∈ seg.holePixelsVector_, image.inRange p.1 p.2) ∧
        (∃ out, RegularAlgorithm seg image = Except.ok out) ∧
        ∀ lay, SetLayers seg image = Except.ok lay →
          ∀ p ∈ updateOrder lay, image.inRange p.1 p.2)) := by
  refine ⟨by decide!, by decide!, by decide!, by decide!, by decide!, by decide!, ?_, ?_⟩
  · exact fun image hf p fuel hb hr hnv => FloodFill_inBounds_outside image hf p fuel hb hr hnv
  · intro image hsq
    refine ⟨FindFirstHolePixel_total image hsq,
      fun fuel hf p => FloodFill_no_outOfRange image hsq fuel hf p, ?_⟩
    intro z epsilon c a w seg hseg
    have hH : ∀ p ∈ seg.holePixelsVector_, image.inRange p.1 p.2 := fun p hp =>
      inRange_of_inBounds_square hsq (FindHoleAndBoundaryPixels_holes hseg rfl p hp).1
    refine ⟨hH, regularLoop_total seg seg.holePixelsVector_ image hH, ?_⟩
    intro lay hlay p hp
    obtain ⟨seed, _, hff⟩ := FindHoleAndBoundaryPixels_ok hseg
    have hfields := FloodFill_layerFields image _ _ seed seg hff
    have hL : Layered image lay :=
      SetLayers_layered hsq hfields.1 hfields.2.1 hfields.2.2.1 hlay
    exact (updateOrder_sentinel hL hp).1

/-! ## Layer builder and sweeps on an empty boundary -/

/-- With an empty boundary vector the `while` loop of `SetLayers` is not entered: the layer
builder returns the filler with its depth map and layered index untouched. -/
theorem SetLayers_empty_boundary (hf : HoleFiller) (image : Mat)
    (hB : hf.boundaryPixelsCoordinatesVector_ = []) :
    SetLayers hf image = Except.ok { hf with curLayerVector := [] } := by
  unfold SetLayers floodFuel
  rw [setLayersLoop, hB]
  simp

/-- After a segmentation that found no boundary pixel the layer builder returns, and the
depth map and the layered index are empty. -/
theorem SetLayers_of_empty_segmentation {image : Mat} (z : Int) (epsilon : ℚ) (c a : Int)
    (w : WeightFunctionType) {seg : HoleFiller}
    (hseg : FindHoleAndBoundaryPixels (HoleFiller.new z epsilon c a w) image = Except.ok seg)
    (hB : seg.boundaryPixelsCoordinatesVector_ = []) :
    ∃ lay, SetLayers seg image = Except.ok lay ∧ (∀ k, lay.layerMap k = none) ∧
      lay.layerMapReverse = [] := by
  obtain ⟨seed, _, hff⟩ := FindHoleAndBoundaryPixels_ok hseg
  obtain ⟨hmap, hrev, _, _⟩ := FloodFill_layerFields image _ _ seed seg hff
  refine ⟨_, SetLayers_empty_boundary seg image hB, ?_, ?_⟩
  · intro k
    simp only
    rw [hmap]
    rfl
  · simp only
    rw [hrev]
    rfl

/-! ## Depth map and update order: the amended statements -/

/-- C9 (amended). After a segmentation that returned.  On a square image whose segmented
boundary is not empty: if the sentinel pixels keep a distance of two from the border,
`SetLayers` returns; and whenever `SetLayers` returns, `layerMap` holds a depth `D(p) ≥ 1`
for every pixel `p` of the hole vector; `D(p) = 1` exactly when `p` has a neighbour in `B`;
otherwise some neighbour of `p` in `H` has depth `D(p) - 1` and no neighbour of `p` in `H`
has a smaller depth; some pixel of `H` has depth `1`; and the hole vector is the hole
component `H` of the seed.  On every image whose segmented boundary is empty `SetLayers`
returns, `layerMap` has no entry at all and `layerMapReverse` is empty. -/
theorem depth_map_is_breadth_first (image : Mat) (z : Int) (epsilon : ℚ) (c a : Int)
    (w : WeightFunctionType) (seg : HoleFiller)
    (hseg : FindHoleAndBoundaryPixels (HoleFiller.new z epsilon c a w) image = Except.ok seg) :
    (image.rows = image.cols → seg.boundaryPixelsCoordinatesVector_ ≠ [] →
      (awayFromBorder image c → ∃ lay, SetLayers seg image = Except.ok lay) ∧
      ∀ lay, SetLayers seg image = Except.ok lay →
        (∀ p ∈ seg.holePixelsVector_, ∃ d, lay.layerMap (INDEX p.2 p.1 image.cols) = some d ∧
          1 ≤ d ∧
          (d = 1 ↔ ∃ b ∈ seg.boundaryPixelsCoordinatesVector_, b ∈ neighborPixels c p) ∧
          (d ≠ 1 →
            (∃ q ∈ seg.holePixelsVector_, q ∈ neighborPixels c p ∧
              lay.layerMap (INDEX q.2 q.1 image.cols) = some (d - 1)) ∧
            (∀ q ∈ seg.holePixelsVector_, q ∈ neighborPixels c p →
              ∀ dq, lay.layerMap (INDEX q.2 q.1 image.cols) = some dq → d - 1 ≤ dq))) ∧
        (∃ p ∈ seg.holePixelsVector_, lay.layerMap (INDEX p.2 p.1 image.cols) = some 1) ∧
        (∃ seed, FindFirstHolePixel image = Except.ok seed ∧
          ∀ p, p ∈ seg.holePixelsVector_ ↔ HoleReach image c seed p)) ∧
    (seg.boundaryPixelsCoordinatesVector_ = [] →
      ∃ lay, SetLayers seg image = Except.ok lay ∧ (∀ k, lay.layerMap k = none) ∧
        lay.layerMapReverse = []) := by
  refine ⟨fun hsq hB => ⟨fun hclear => SetLayers_total hsq z epsilon c a w hseg hclear,
      fun lay hlay => ?_⟩,
    fun hB => SetLayers_of_empty_segmentation z epsilon c a w hseg hB⟩
  obtain ⟨h1, h2⟩ := depth_map_core image hsq z epsilon c a w seg lay hseg hlay hB
  obtain ⟨seed, hS⟩ := iterative_setup hsq z epsilon c a w hseg hlay hB
  exact ⟨h1, h2, seed, hS.seedOk, hS.holeIff⟩

/-- Instance of the amended C9.  On `imageTwoPixelHole` segmentation and layer building
return, and some pixel of the hole vector has depth `1`.  On the 3×3 image of nine
sentinels the boundary is empty, the layer builder returns and the depth map has no entry
for the hole pixel `(0, 0)`. -/
theorem depth_map_is_breadth_first_witness :
    (∃ seg lay,
      FindHoleAndBoundaryPixels (HoleFiller.new 2 (1 / 100) 4 2 unitWeight) imageTwoPixelHole
        = Except.ok seg ∧
      SetLayers seg imageTwoPixelHole = Except.ok lay ∧
      ∃ p ∈ seg.holePixelsVector_,
        lay.layerMap (INDEX p.2 p.1 imageTwoPixelHole.cols) = some 1) ∧
    (∃ seg lay,
      FindHoleAndBoundaryPixels (HoleFiller.new 2 (1 / 100) 4 2 unitWeight) imageAllHole3
        = Except.ok seg ∧
      SetLayers seg imageAllHole3 = Except.ok lay ∧ ((0, 0) : Pixel) ∈ seg.holePixelsVector_ ∧
      lay.layerMap (INDEX 0 0 imageAllHole3.cols) = none) := by
  constructor
  · have hok : (FindHoleAndBoundaryPixels (HoleFiller.new 2 (1 / 100) 4 2 unitWeight)
        imageTwoPixelHole).toOption.map
          (fun seg => decide (seg.boundaryPixelsCoordinatesVector_ ≠ [])) = some true := by
      decide!
    obtain ⟨seg, hseg⟩ := FindHoleAndBoundaryPixels_total
      (HoleFiller.new 2 (1 / 100) 4 2 unitWeight) imageTwoPixelHole (by decide)
    rw [hseg] at hok
    simp only [Except.toOption, Option.map_some', Option.some.injEq, decide_eq_true_eq] at hok
    have H := (depth_map_is_breadth_first imageTwoPixelHole 2 (1 / 100) 4 2 unitWeight
      seg hseg).1 (by decide) hok
    obtain ⟨lay, hlay⟩ := H.1 (by decide!)
    exact ⟨seg, lay, hseg, hlay, (H.2 lay hlay).2.1⟩
  · have hok : (FindHoleAndBoundaryPixels (HoleFiller.new 2 (1 / 100) 4 2 unitWeight)
        imageAllHole3).toOption.map
          (fun seg => (decide (seg.boundaryPixelsCoordinatesVector_ = []),
            decide (((0, 0) : Pixel) ∈ seg.holePixelsVector_))) = some (true, true) := by
      decide!
    obtain ⟨seg, hseg⟩ := FindHoleAndBoundaryPixels_total
      (HoleFiller.new 2 (1 / 100) 4 2 unitWeight) imageAllHole3 (by decide)
    rw [hseg] at hok
    simp only [Except.toOption, Option.map_some', Option.some.injEq, Prod.mk.injEq,
      decide_eq_true_eq] at hok
    obtain ⟨lay, hlay, hmap, _⟩ := (depth_map_is_breadth_first imageAllHole3 2 (1 / 100) 4 2
      unitWeight seg hseg).2 hok.1
    exact ⟨seg, lay, hseg, hlay, hok.2, hmap _⟩

/-- C18 (amended). After a segmentation that returned.  On a square image whose segmented
boundary is not empty: if the sentinel pixels keep a distance of two from the border,
`SetLayers` returns; and whenever it returns, `layerMapReverse` has strictly increasing
keys and lists under key `k` exactly the pixels inside the image whose `layerMap` entry is
`k`; these are sentinel pixels and include every pixel of the hole vector; no pixel is
listed twice; a sweep is the sequence of the pixel updates in the order of the lists, so
that a pixel is never updated after a pixel of greater depth; every sweep of the
iterative filler is this same sequence; and the hole vector is the hole component `H` of
the seed.  On every image whose segmented boundary is empty
`SetLayers` returns, `layerMapReverse` is empty, no pixel is in the update order, and any
number of sweeps leaves the working image and the filler as they are. -/
theorem sweep_updates_in_depth_order (image : Mat) (z : Int) (epsilon : ℚ) (c a : Int)
    (w : WeightFunctionType) (seg : HoleFiller)
    (hseg : FindHoleAndBoundaryPixels (HoleFiller.new z epsilon c a w) image = Except.ok seg) :
    (image.rows = image.cols → seg.boundaryPixelsCoordinatesVector_ ≠ [] →
      (awayFromBorder image c → ∃ lay, SetLayers seg image = Except.ok lay) ∧
      ∀ lay, SetLayers seg image = Except.ok lay →
        keysSorted lay.layerMapReverse ∧
        (∀ k q, keyed lay.layerMapReverse k q ↔
          (image.inRange q.1 q.2 ∧ lay.layerMap (INDEX q.2 q.1 image.cols) = some k)) ∧
        (∀ p ∈ updateOrder lay, image.at p.1 p.2 = Except.ok holeVal) ∧
        (∀ p ∈ seg.holePixelsVector_, p ∈ updateOrder lay) ∧
        (updateOrder lay).Nodup ∧
        (updateOrder lay).Pairwise
          (fun p q => layerOf image.cols lay p ≤ layerOf image.cols lay q) ∧
        (∀ (n : Nat) (m : Mat) (hf : HoleFiller), sameButLayerMap lay hf →
          sweeps image (n + 1) (m, hf) =
            match updateLayer image (updateOrder lay) (m, hf) with
            | Except.error e => Except.error e
            | Except.ok st1 => sweeps image n st1) ∧
        (∃ seed, FindFirstHolePixel image = Except.ok seed ∧
          ∀ p, p ∈ seg.holePixelsVector_ ↔ HoleReach image c seed p)) ∧
    (seg.boundaryPixelsCoordinatesVector_ = [] →
      ∃ lay, SetLayers seg image = Except.ok lay ∧ lay.layerMapReverse = [] ∧
        updateOrder lay = [] ∧
        ∀ (n : Nat) (m : Mat) (hf : HoleFiller), sameButLayerMap lay hf →
          sweeps image n (m, hf) = Except.ok (m, hf)) := by
  refine ⟨fun hsq hB =>
    ⟨fun hclear => SetLayers_total hsq z epsilon c a w hseg hclear, ?_⟩, fun hB => ?_⟩
  · intro lay hlay
    obtain ⟨seed, hS⟩ := iterative_setup hsq z epsilon c a w hseg hlay hB
    obtain ⟨seed1, _, hff⟩ := FindHoleAndBoundaryPixels_ok hseg
    have hfields := FloodFill_layerFields image _ _ seed1 seg hff
    have hN := SetLayers_layersNodup hlay hfields.2.1
    have hL := hS.layered
    refine ⟨hL.sorted, hL.rev, ?_, ?_, updateOrder_nodup hL hN, updateOrder_sorted hL, ?_,
      seed, hS.seedOk, hS.holeIff⟩
    · intro p hp
      obtain ⟨k, hk⟩ := inLayers_keyed ((mem_updateOrder lay p).mp hp)
      obtain ⟨hr, hd⟩ := (hL.rev k p).mp hk
      exact (hL.sent p k hr hd).1
    · intro p hp
      obtain ⟨hr, d, hd⟩ := hS.depth p ((hS.holeIff p).mp hp)
      exact (mem_updateOrder lay p).mpr (keyed_inLayers ((hL.rev d p).mpr ⟨hr, hd⟩))
    · intro n m hf hsame
      rw [sweeps]
      simp only
      rw [sameButLayerMap_layers hsame, sweepLayers_flat]
      rfl
  · obtain ⟨lay, hlay, _, hrev⟩ := SetLayers_of_empty_segmentation z epsilon c a w hseg hB
    refine ⟨lay, hlay, hrev, ?_, ?_⟩
    · unfold updateOrder
      rw [hrev]
      rfl
    · intro n m hf hsame
      exact sweeps_nil image n (m, hf) ((sameButLayerMap_layers hsame).trans hrev)

/-- Instance of the amended C18.  On `imageTwoPixelHole` segmentation and layer building
return, and both pixels of the hole are updated, each once.  On the 3×3 image of nine
sentinels the boundary is empty, the layer builder returns and no pixel is updated. -/
theorem sweep_updates_in_depth_order_witness :
    (∃ seg lay,
      FindHoleAndBoundaryPixels (HoleFiller.new 2 (1 / 100) 4 2 unitWeight) imageTwoPixelHole
        = Except.ok seg ∧
      SetLayers seg imageTwoPixelHole = Except.ok lay ∧
      (∀ p ∈ seg.holePixelsVector_, p ∈ updateOrder lay) ∧ (updateOrder lay).Nodup) ∧
    (∃ seg lay,
      FindHoleAndBoundaryPixels (HoleFiller.new 2 (1 / 100) 4 2 unitWeight) imageAllHole3
        = Except.ok seg ∧
      SetLayers seg imageAllHole3 = Except.ok lay ∧ updateOrder lay = []) := by
  constructor
  · have hok : (FindHoleAndBoundaryPixels (HoleFiller.new 2 (1 / 100) 4 2 unitWeight)
        imageTwoPixelHole).toOption.map
          (fun seg => decide (seg.boundaryPixelsCoordinatesVector_ ≠ [])) = some true := by
      decide!
    obtain ⟨seg, hseg⟩ := FindHoleAndBoundaryPixels_total
      (HoleFiller.new 2 (1 / 100) 4 2 unitWeight) imageTwoPixelHole (by decide)
    rw [hseg] at hok
    simp only [Except.toOption, Option.map_some', Option.some.injEq, decide_eq_true_eq] at hok
    have H := (sweep_updates_in_depth_order imageTwoPixelHole 2 (1 / 100) 4 2
      unitWeight seg hseg).1 (by decide) hok
    obtain ⟨lay, hlay⟩ := H.1 (by decide!)
    obtain ⟨_, _, _, h4, h5, _⟩ := H.2 lay hlay
    exact ⟨seg, lay, hseg, hlay, h4, h5⟩
  · have hok : (FindHoleAndBoundaryPixels (HoleFiller.new 2 (1 / 100) 4 2 unitWeight)
        imageAllHole3).toOption.map
          (fun seg => decide (seg.boundaryPixelsCoordinatesVector_ = [])) = some true := by
      decide!
    obtain ⟨seg, hseg⟩ := FindHoleAndBoundaryPixels_total
      (HoleFiller.new 2 (1 / 100) 4 2 unitWeight) imageAllHole3 (by decide)
    rw [hseg] at hok
    simp only [Except.toOption, Option.map_some', Option.some.injEq, decide_eq_true_eq] at hok
    obtain ⟨lay, hlay, _, hord, _⟩ := (sweep_updates_in_depth_order imageAllHole3 2 (1 / 100) 4 2
      unitWeight seg hseg).2 hok
    exact ⟨seg, lay, hseg, hlay, hord⟩

/-! ## Images without a sentinel -/

/-- C12 (failing input). The image with one row and two columns `[5, 6]` holds no
sentinel, yet the seed search reads `image.at (1, 0)`, a position outside the image, and
`FillImage` stops there for every configuration of the filler: no unchanged clone is
returned.  On every image without a sentinel, whenever `FillImage` returns, the returned
image is the input image and the segmentation has found an empty hole vector and an empty
boundary; on every square image without a sentinel `FillImage` does return. -/
theorem fill_without_sentinel_reads_outside_nonsquare_image :
    (∀ i j : Int, imageNoHoleRow2.inRange i j → imageNoHoleRow2.data i j ≠ holeVal) ∧
    FindFirstHolePixel imageNoHoleRow2 = Except.error Fault.outOfRange ∧
    (∀ (z : Int) (epsilon : ℚ) (c a : Int) (w : WeightFunctionType),
      faulted (FillImage (HoleFiller.new z epsilon c a w) imageNoHoleRow2)
        = some Fault.outOfRange) ∧
    (∀ (image : Mat) (z : Int) (epsilon : ℚ) (c a : Int) (w : WeightFunctionType),
      (∀ i j : Int, image.inRange i j → image.data i j ≠ holeVal) →
      (image.rows = image.cols →
        ∃ out hf1, FillImage (HoleFiller.new z epsilon c a w) image = Except.ok (out, hf1)) ∧
      ∀ (out : Mat) (hf1 : HoleFiller),
        FillImage (HoleFiller.new z epsilon c a w) image = Except.ok (out, hf1) →
        out = image ∧
          ∃ seg, FindHoleAndBoundaryPixels (HoleFiller.new z epsilon c a w) image
              = Except.ok seg ∧
            seg.holePixelsVector_ = [] ∧ seg.boundaryPixelsCoordinatesVector_ = [] ∧
            seg.boundaryPixelsValuesVector_ = []) := by
  have hseed : FindFirstHolePixel imageNoHoleRow2 = Except.error Fault.outOfRange := by
    decide!
  refine ⟨?_, hseed, ?_, ?_⟩
  · intro i j hr
    obtain ⟨h1, h2, h3, h4⟩ := hr
    have h2a : i < 1 := h2
    have h4a : j < 2 := h4
    have hi : i = 0 := by omega
    have hj : j = 0 ∨ j = 1 := by omega
    subst hi
    rcases hj with rfl | rfl <;> decide
  · intro z epsilon c a w
    unfold FillImage FindHoleAndBoundaryPixels
    rw [hseed]
    rfl
  · intro image z epsilon c a w hno
    exact FillImage_without_sentinel image z epsilon c a w hno

/-! ## Weight function: formula, overflow and bounds -/

/-- On a square image every pixel of the layered index is a sentinel pixel connected to the
boundary through sentinel pixels. -/
theorem layered_reach {image : Mat} (hsq : image.rows = image.cols) (z : Int) (epsilon : ℚ)
    (c a : Int) (w : WeightFunctionType) {seg lay : HoleFiller}
    (hseg : FindHoleAndBoundaryPixels (HoleFiller.new z epsilon c a w) image = Except.ok seg)
    (hlay : SetLayers seg image = Except.ok lay) :
    ∀ p, inLayers lay.layerMapReverse p →
      LayerReach image c seg.boundaryPixelsCoordinatesVector_ p := by
  obtain ⟨seed, _, hff⟩ := FindHoleAndBoundaryPixels_ok hseg
  obtain ⟨hmap, hrev, htmp, _⟩ := FloodFill_layerFields image _ _ seed seg hff
  have hL : Layered image lay := SetLayers_layered hsq hmap hrev htmp hlay
  have hcfg1 := FindHoleAndBoundaryPixels_sameConfig hseg
  obtain ⟨hcfg2, _, hB, _⟩ := SetLayers_sameConfig hlay
  have hconn : lay.connectivity_ = c := hcfg2.2.2.1.trans hcfg1.2.2.1
  have key : ∀ (n : Nat) (p : Pixel), image.inRange p.1 p.2 →
      depthOf image.cols lay p = some ((n : Int) + 1) →
      LayerReach image c seg.boundaryPixelsCoordinatesVector_ p := by
    intro n
    induction n with
    | zero =>
      intro p hr hd
      obtain ⟨b, hb, hpb⟩ := (hL.parent p _ hr hd).1 (by norm_num)
      rw [hB] at hb
      rw [hconn] at hpb
      exact LayerReach.start b p hb hpb (hL.sent p _ hr hd).1
    | succ n ih =>
      intro p hr hd
      obtain ⟨q, hqr, hqd, hpq⟩ := (hL.parent p _ hr hd).2 (by push_cast; omega)
      rw [hconn] at hpq
      have hqd1 : depthOf image.cols lay q = some ((n : Int) + 1) := by
        rw [hqd]
        congr 1
        push_cast
        omega
      exact LayerReach.step q p (ih q hqr hqd1) hpq (hL.sent p _ hr hd).1
  intro p hp
  obtain ⟨k, hk⟩ := inLayers_keyed hp
  obtain ⟨hr, hd⟩ := (hL.rev k p).mp hk
  have hk1 := (hL.sent p k hr hd).2
  have hkn : k = ((k - 1).toNat : Int) + 1 := by omega
  rw [hkn] at hd
  exact key _ p hr hd

/-- On `imageFarSentinel` with connectivity 4 the only sentinel pixel connected to the
boundary of the hole `(2, 2)` is `(2, 2)` itself. -/
theorem layerReach_imageFarSentinel (q : Pixel)
    (h : LayerReach imageFarSentinel 4 [(3, 2), (1, 2), (2, 3), (2, 1)] q) : q = (2, 2) := by
  have hB : ∀ b ∈ ([(3, 2), (1, 2), (2, 3), (2, 1)] : List Pixel),
      ∀ r ∈ neighborPixels 4 b, imageFarSentinel.at r.1 r.2 = Except.ok holeVal →
        r = (2, 2) := by decide!
  have hH : ∀ r ∈ neighborPixels 4 ((2, 2) : Pixel),
      imageFarSentinel.at r.1 r.2 = Except.ok holeVal → r = (2, 2) := by decide!
  induction h with
  | start b r hb hr hv => exact hB b hb r hr hv
  | step p r _ hr hv ih =>
    subst ih
    exact hH r hr hv

/-- C3 (amended). Iterative algorithm.  On a square image whose sentinel pixels keep a
distance of two from the border `FillImage` returns.  Whenever `FillImage` returns, the
returned image has the dimensions of the input; it has exactly the input's value at every
coordinate whose input value is not the sentinel and at every coordinate that the layer
builder has not listed in `layerMapReverse`; the listed pixels hold the sentinel in the
input; and on a square image the listed pixels are connected to a pixel of `B` through
sentinel pixels, so that every other coordinate, also a sentinel pixel outside `H`, keeps
its input value. -/
theorem iterative_fill_preserves_samples (image : Mat) (z : Int) (epsilon : ℚ)
    (connectivity : Int) (w : WeightFunctionType) :
    (image.rows = image.cols → awayFromBorder image connectivity →
      ∃ out hf1, FillImage (HoleFiller.new z epsilon connectivity ALGORITHM_OPTION_TWO w) image
        = Except.ok (out, hf1)) ∧
    (∀ (out : Mat) (hf1 : HoleFiller),
      FillImage (HoleFiller.new z epsilon connectivity ALGORITHM_OPTION_TWO w) image
        = Except.ok (out, hf1) →
      out.rows = image.rows ∧ out.cols = image.cols ∧
        (∀ c : Pixel, image.at c.1 c.2 ≠ Except.ok holeVal →
          out.at c.1 c.2 = image.at c.1 c.2) ∧
        ∃ seg lay,
          FindHoleAndBoundaryPixels
            (HoleFiller.new z epsilon connectivity ALGORITHM_OPTION_TWO w) image
              = Except.ok seg ∧
          SetLayers seg image = Except.ok lay ∧
          (∀ c : Pixel, ¬ inLayers lay.layerMapReverse c →
            out.at c.1 c.2 = image.at c.1 c.2) ∧
          (∀ c : Pixel, inLayers lay.layerMapReverse c →
            image.at c.1 c.2 = Except.ok holeVal) ∧
          (image.rows = image.cols →
            (∀ c : Pixel, inLayers lay.layerMapReverse c →
              LayerReach image connectivity seg.boundaryPixelsCoordinatesVector_ c) ∧
            ∀ c : Pixel,
              ¬ LayerReach image connectivity seg.boundaryPixelsCoordinatesVector_ c →
              out.at c.1 c.2 = image.at c.1 c.2)) := by
  refine ⟨fun hsq hclear =>
    FillImage_iterative_returns image hsq z epsilon connectivity w hclear, ?_⟩
  intro out hf1 h
  obtain ⟨hrows, hcols, hsamples⟩ :=
    iterative_frame_core image z epsilon connectivity w out hf1 h
  obtain ⟨seg, lay, hf2, hseg, hlay, hsw, _⟩ := FillImage_iterative_ok rfl h
  obtain ⟨_, _, _, hframe⟩ := sweeps_frame image _ lay hf2 out hsw
  obtain ⟨seed, _, hff⟩ := FindHoleAndBoundaryPixels_ok hseg
  have hrev : seg.layerMapReverse = [] :=
    (FloodFill_layerFields image _ _ seed seg hff).2.1
  have hsent := SetLayers_layers_sentinel hlay (by
    intro p hp
    rw [hrev] at hp
    obtain ⟨l, hl, _⟩ := hp
    simp at hl)
  have hkeep : ∀ c : Pixel, ¬ inLayers lay.layerMapReverse c →
      out.at c.1 c.2 = image.at c.1 c.2 :=
    fun c hc => Mat.at_congr hrows hcols (hframe c hc)
  refine ⟨hrows, hcols, hsamples, seg, lay, hseg, hlay, hkeep, hsent, ?_⟩
  intro hsq
  have hreach := layered_reach hsq z epsilon connectivity ALGORITHM_OPTION_TWO w hseg hlay
  exact ⟨hreach, fun c hc => hkeep c (fun hin => hc (hreach c hin))⟩

/-- Instance of the amended C3 on `imageFarSentinel` (connectivity 4, unit weights): the run
returns, the sample `1` at `(1, 1)` is kept, and the sentinel pixel `(4, 4)`, which is not
connected to the boundary of the hole `(2, 2)`, still holds the sentinel. -/
theorem iterative_fill_preserves_samples_witness :
    ∃ out hf1, FillImage (HoleFiller.new 2 (1 / 100) 4 ALGORITHM_OPTION_TWO unitWeight)
        imageFarSentinel = Except.ok (out, hf1) ∧
      out.at 1 1 = Except.ok (Val.fin 1) ∧ out.at 4 4 = Except.ok holeVal := by
  have H := iterative_fill_preserves_samples imageFarSentinel 2 (1 / 100) 4 unitWeight
  obtain ⟨out, hf1, h⟩ := H.1 (by decide) (by decide!)
  obtain ⟨_, _, hsamples, seg, lay, hseg, _, _, _, hsq⟩ := H.2 out hf1 h
  have hB : (FindHoleAndBoundaryPixels
      (HoleFiller.new 2 (1 / 100) 4 ALGORITHM_OPTION_TWO unitWeight)
      imageFarSentinel).toOption.map (fun s => s.boundaryPixelsCoordinatesVector_)
        = some [(3, 2), (1, 2), (2, 3), (2, 1)] := by decide!
  rw [hseg] at hB
  simp only [Except.toOption, Option.map_some', Option.some.injEq] at hB
  refine ⟨out, hf1, h, ?_, ?_⟩
  · rw [hsamples (1, 1) (by decide!)]
    decide!
  · rw [(hsq (by decide)).2 (4, 4) (by
      rw [hB]
      intro hr
      have := layerReach_imageFarSentinel _ hr
      simp at this)]
    decide!

/-! ## Bounds of the filled values -/

/-- Exact algorithm: with weights that are positive on the pairs of a hole pixel and a
boundary pixel, every pixel of the hole vector receives a finite value between any lower
and upper bound of the boundary values. -/
theorem exact_bounds_core (image : Mat) (z : Int) (epsilon : ℚ) (connectivity : Int)
    (w : WeightFunctionType) (out : Mat) (hf1 seg : HoleFiller) (lo hi : ℚ)
    (hw : ∀ c ∈ seg.holePixelsVector_, ∀ e ∈ seg.boundary, 0 < w c e.1 z epsilon)
    (h : FillImage (HoleFiller.new z epsilon connectivity ALGORITHM_OPTION_ONE w) image
      = Except.ok (out, hf1))
    (hseg : FindHoleAndBoundaryPixels
      (HoleFiller.new z epsilon connectivity ALGORITHM_OPTION_ONE w) image = Except.ok seg)
    (hB : seg.boundary ≠ [])
    (hv : ∀ e ∈ seg.boundary, ∃ q, e.2 = Val.fin q ∧ lo ≤ q ∧ q ≤ hi) :
    ∀ c ∈ seg.holePixelsVector_,
      ∃ u, out.at c.1 c.2 = Except.ok (Val.fin u) ∧ lo ≤ u ∧ u ≤ hi := by
  intro c hc
  have hval := exact_output_at_hole rfl h hseg c hc
  obtain ⟨u, hu, h1, h2⟩ := weightedMean_bounds w c z epsilon lo hi seg.boundary hB
    (fun e he => hw c hc e he) hv
  refine ⟨u, ?_, h1, h2⟩
  rw [hval]
  simp only [HoleFiller.new]
  rw [hu]

/-- C5 (failing input). On `imageBorderHole` with the Exact algorithm, connectivity 4 and
the unit weight function the segmented boundary is not empty and both of its values are
`9`, the seed is `(0, 0)`, and the sentinel pixel `(0, 1)` of the seed's hole component
holds `-1` in the returned image, below the minimum `9` of the boundary values.  In
general, for weights that are positive at the configured `z` and `ε` on the pairs of a
hole pixel and a boundary pixel, and a non-empty segmented boundary: whenever `FillImage`
returns, every pixel of the segmented hole vector holds a finite value between any lower
and upper bound of the boundary values; on a square image none of whose hole pixels has a
neighbour outside the image this holds for every pixel of the seed's hole component; on
every square image `FillImage` does return; and on the 3×3 image with centre `-1` and all
other samples `10` the centre becomes `10`. -/
theorem exact_fill_leaves_boundary_range_at_border :
    FindFirstHolePixel imageBorderHole = Except.ok (0, 0) ∧
    HoleReach imageBorderHole 4 (0, 0) (0, 1) ∧
    (FindHoleAndBoundaryPixels (HoleFiller.new 2 (1 / 100) 4 1 unitWeight)
        imageBorderHole).toOption.map (fun hf => hf.boundary)
      = some [((2, 1), Val.fin 9), ((1, 1), Val.fin 9)] ∧
    outputAt (FillImage (HoleFiller.new 2 (1 / 100) 4 1 unitWeight) imageBorderHole) 0 1
      = some (Val.fin (-1)) ∧
    (∀ (image : Mat) (z : Int) (epsilon : ℚ) (connectivity : Int) (w : WeightFunctionType)
        (out : Mat) (hf1 seg : HoleFiller) (lo hi : ℚ),
        (∀ c ∈ seg.holePixelsVector_, ∀ e ∈ seg.boundary, 0 < w c e.1 z epsilon) →
        FillImage (HoleFiller.new z epsilon connectivity ALGORITHM_OPTION_ONE w) image
            = Except.ok (out, hf1) →
        FindHoleAndBoundaryPixels
            (HoleFiller.new z epsilon connectivity ALGORITHM_OPTION_ONE w) image = Except.ok seg →
        seg.boundary ≠ [] →
        (∀ e ∈ seg.boundary, ∃ q, e.2 = Val.fin q ∧ lo ≤ q ∧ q ≤ hi) →
        ∀ c ∈ seg.holePixelsVector_,
          ∃ u, out.at c.1 c.2 = Except.ok (Val.fin u) ∧ lo ≤ u ∧ u ≤ hi) ∧
    (∀ (image : Mat) (z : Int) (epsilon : ℚ) (connectivity : Int) (w : WeightFunctionType)
        (out : Mat) (hf1 seg : HoleFiller) (seed : Pixel) (lo hi : ℚ),
        image.rows = image.cols →
        FindFirstHolePixel image = Except.ok seed →
        Interior image connectivity seed →
        (∀ c ∈ seg.holePixelsVector_, ∀ e ∈ seg.boundary, 0 < w c e.1 z epsilon) →
        FillImage (HoleFiller.new z epsilon connectivity ALGORITHM_OPTION_ONE w) image
            = Except.ok (out, hf1) →
        FindHoleAndBoundaryPixels
            (HoleFiller.new z epsilon connectivity ALGORITHM_OPTION_ONE w) image = Except.ok seg →
        seg.boundary ≠ [] →
        (∀ e ∈ seg.boundary, ∃ q, e.2 = Val.fin q ∧ lo ≤ q ∧ q ≤ hi) →
        ∀ c, HoleReach image connectivity seed c →
          ∃ u, out.at c.1 c.2 = Except.ok (Val.fin u) ∧ lo ≤ u ∧ u ≤ hi) ∧
    (∀ (image : Mat) (z : Int) (epsilon : ℚ) (connectivity : Int) (w : WeightFunctionType),
        image.rows = image.cols →
        ∃ out hf1, FillImage (HoleFiller.new z epsilon connectivity ALGORITHM_OPTION_ONE w) image
            = Except.ok (out, hf1)) ∧
    (∀ w : WeightFunctionType, (∀ p q, 0 < w p q 2 (1 / 100)) →
        outputAt (FillImage (HoleFiller.new 2 (1 / 100) 4 1 w) imageConst3) 1 1
          = some (Val.fin 10)) := by
  refine ⟨by decide!, ?_, by decide!, by decide!, ?_, ?_, ?_, ?_⟩
  · exact HoleReach.step (0, 0) (0, 1) (HoleReach.seed (by decide!)) (by decide!) (by decide!)
  · intro image z epsilon connectivity w out hf1 seg lo hi hw h hseg hB hv
    exact exact_bounds_core image z epsilon connectivity w out hf1 seg lo hi hw h hseg hB hv
  · intro image z epsilon connectivity w out hf1 seg seed lo hi hsq hseed hint hw h hseg hB hv
      c hc
    have hseedB : inBounds image seed :=
      inBounds_of_inRange_square hsq (Mat.at_eq_ok (HoleReach_seed_sentinel hc)).1
    have hH := (segmentation_of_interior hsq z epsilon connectivity ALGORITHM_OPTION_ONE w
      hseg hseed hseedB hint).1
    exact exact_bounds_core image z epsilon connectivity w out hf1 seg lo hi hw h hseg hB hv
      c ((hH c).mpr hc)
  · intro image z epsilon connectivity w hsq
    exact FillImage_exact_total _ image rfl rfl hsq
  · intro w hw
    obtain ⟨out, hf1, h⟩ := FillImage_exact_total
      (HoleFiller.new 2 (1 / 100) 4 1 w) imageConst3 rfl rfl rfl
    obtain ⟨seg, hseg, _, _⟩ := FillImage_exact_ok rfl h
    have hs := segmentation_imageConst3 w
    rw [hseg] at hs
    simp only [Except.map, Except.ok.injEq, Prod.mk.injEq] at hs
    have hp : ((1, 1) : Pixel) ∈ seg.holePixelsVector_ := by rw [hs.1]; simp
    obtain ⟨u, hu, h1, h2⟩ := exact_bounds_core imageConst3 2 (1 / 100) 4 w out hf1 seg 10 10
      (fun c _ e _ => hw c e.1) h hseg
      (by rw [hs.2]; simp)
      (by
        rw [hs.2]
        intro e he
        simp only [List.mem_cons, List.mem_singleton, List.mem_nil_iff, or_false] at he
        rcases he with rfl | rfl | rfl | rfl <;> exact ⟨10, rfl, le_refl _, le_refl _⟩)
      (1, 1) hp
    rw [h]
    simp only [outputAt]
    rw [hu, le_antisymm h2 h1]
    rfl

/-- C6 (counterexample). On `imagePlusNegative` (connectivity 4, unit weights, all reads
inside the image) the hole vector contains `(3, 3)` and the boundary values lie between
`-2` and `-1/2`, yet the Iterative algorithm returns a non-finite value at the hole pixel
`(3, 3)`: each arm of the hole is filled with the mean `-1` of its boundary neighbours,
which equals the sentinel, so no neighbour of the centre ever contributes. -/
theorem iterative_fill_leaves_boundary_range :
    (FindHoleAndBoundaryPixels (HoleFiller.new 2 (1 / 100) 4 2 unitWeight)
        imagePlusNegative).toOption.map
        (fun hf => (decide ((3, 3) ∈ hf.holePixelsVector_), hf.boundary.map Prod.snd)) =
      some (true, [Val.fin (-2), Val.fin (-1 / 2), Val.fin (-1 / 2), Val.fin (-1 / 2),
        Val.fin (-2), Val.fin (-1 / 2), Val.fin (-2), Val.fin (-2)]) ∧
    outputAt (FillImage (HoleFiller.new 2 (1 / 100) 4 2 unitWeight) imagePlusNegative) 3 3
      = some Val.nonfinite := by
  refine ⟨by decide!, by decide!⟩

/-- C6 (amended). Iterative algorithm (100 sweeps) on a square image, weights that are
positive at the configured `z` and `ε` on every pair of a pixel and one of its neighbours,
non-empty segmented boundary whose values are finite and lie between `lo` and `hi`, the
sentinel `-1` lying outside `[lo, hi]`: if the sentinel pixels keep a distance of two from
the border, `FillImage` returns; and whenever `FillImage` returns, the hole vector is the
hole component `H` of the seed and every pixel of it holds a finite value between `lo` and
`hi`. -/
theorem iterative_fill_within_boundary_range (image : Mat) (z : Int) (epsilon : ℚ) (c : Int)
    (w : WeightFunctionType) (seg : HoleFiller) (lo hi : ℚ)
    (hsq : image.rows = image.cols)
    (hw : ∀ p q, q ∈ neighborPixels c p → 0 < w p q z epsilon)
    (hout : (-1 : ℚ) < lo ∨ hi < -1)
    (hseg : FindHoleAndBoundaryPixels (HoleFiller.new z epsilon c ALGORITHM_OPTION_TWO w) image
      = Except.ok seg)
    (hB : seg.boundary ≠ [])
    (hv : ∀ e ∈ seg.boundary, ∃ q, e.2 = Val.fin q ∧ lo ≤ q ∧ q ≤ hi) :
    (awayFromBorder image c →
      ∃ out hf1, FillImage (HoleFiller.new z epsilon c ALGORITHM_OPTION_TWO w) image
        = Except.ok (out, hf1)) ∧
    ∀ (out : Mat) (hf1 : HoleFiller),
      FillImage (HoleFiller.new z epsilon c ALGORITHM_OPTION_TWO w) image
        = Except.ok (out, hf1) →
      (∃ seed, FindFirstHolePixel image = Except.ok seed ∧
        ∀ p, p ∈ seg.holePixelsVector_ ↔ HoleReach image c seed p) ∧
      ∀ p ∈ seg.holePixelsVector_,
        ∃ u, out.at p.1 p.2 = Except.ok (Val.fin u) ∧ lo ≤ u ∧ u ≤ hi := by
  refine ⟨fun hclear => FillImage_iterative_returns image hsq z epsilon c w hclear, ?_⟩
  intro out hf1 h
  refine ⟨?_,
    iterative_bounds_core image hsq z epsilon c w out hf1 seg lo hi hw hout h hseg hB hv⟩
  obtain ⟨seg1, lay, hf2, hseg1, hlay, _, _⟩ := FillImage_iterative_ok rfl h
  rw [hseg] at hseg1
  simp only [Except.ok.injEq] at hseg1
  subst hseg1
  have hBc : seg.boundaryPixelsCoordinatesVector_ ≠ [] := by
    intro he
    apply hB
    unfold HoleFiller.boundary
    rw [he]
    rfl
  obtain ⟨seed, hS⟩ := iterative_setup hsq z epsilon c ALGORITHM_OPTION_TWO w hseg hlay hBc
  exact ⟨seed, hS.seedOk, hS.holeIff⟩

/-- Instance of the amended C6 on the 7×7 image whose inner 3×3 block is `-1` and whose
outer rings are `255` (connectivity 8, unit weights): the Iterative run returns and each of
the nine pixels of the hole is filled with `255`. -/
theorem iterative_fill_within_boundary_range_witness :
    returned (FillImage (HoleFiller.new 2 (1 / 100) 8 2 unitWeight) imageRing7) = true ∧
    ∀ p ∈ ([(2, 2), (3, 2), (4, 2), (4, 3), (3, 3), (2, 3), (2, 4), (3, 4), (4, 4)] :
        List Pixel),
      outputAt (FillImage (HoleFiller.new 2 (1 / 100) 8 2 unitWeight) imageRing7) p.1 p.2
        = some (Val.fin 255) := by
  have hs : (FindHoleAndBoundaryPixels (HoleFiller.new 2 (1 / 100) 8 2 unitWeight)
      imageRing7).toOption.map (fun hf => (hf.holePixelsVector_, hf.boundary.map Prod.snd)) =
      some ([(2, 2), (3, 2), (4, 2), (4, 3), (3, 3), (2, 3), (2, 4), (3, 4), (4, 4)],
        List.replicate 16 (Val.fin 255)) := by decide!
  have hsq7 : imageRing7.rows = imageRing7.cols := by decide
  obtain ⟨seg, hseg⟩ := FindHoleAndBoundaryPixels_total
    (HoleFiller.new 2 (1 / 100) 8 2 unitWeight) imageRing7 hsq7
  rw [hseg] at hs
  simp only [Except.toOption, Option.map_some', Option.some.injEq, Prod.mk.injEq] at hs
  have hvals : ∀ e ∈ seg.boundary, e.2 = Val.fin 255 := by
    intro e he
    have : e.2 ∈ seg.boundary.map Prod.snd := List.mem_map_of_mem _ he
    rw [hs.2] at this
    exact (List.mem_replicate.mp this).2
  have hne : seg.boundary ≠ [] := by
    intro he
    have := hs.2
    rw [he] at this
    simp [List.replicate] at this
  have H := iterative_fill_within_boundary_range imageRing7 2 (1 / 100) 8 unitWeight seg
    255 255 hsq7 (fun _ _ _ => one_pos) (Or.inl (by norm_num)) hseg hne
    (fun e he => ⟨255, hvals e he, le_refl _, le_refl _⟩)
  obtain ⟨out, hf1, h⟩ := H.1 (by decide!)
  have h0 : FillImage (HoleFiller.new 2 (1 / 100) 8 2 unitWeight) imageRing7
      = Except.ok (out, hf1) := h
  rw [h0]
  refine ⟨rfl, ?_⟩
  intro p hp
  obtain ⟨u, hu, h1, h2⟩ := (H.2 out hf1 h).2 p (by rw [hs.1]; exact hp)
  simp only [outputAt]
  rw [hu, le_antisymm h2 h1]
  rfl

/-- On the 5×5 image whose inner 3×3 block is `-1` and whose outer ring is `255`
(connectivity 8) the boundary lies on the image border: the layer builder reads outside
the image and the Iterative run returns no image. -/
theorem iterative_run_reads_outside_ring5 :
    faulted (FillImage (HoleFiller.new 2 (1 / 100) 8 2 unitWeight) imageRing5)
      = some Fault.outOfRange := by decide!

end HoleFilling
